import Mathlib

/-!
The gosniff heat registry, its decay and the frame layout.

A shallow embedding of `apps/gosniff/main.go`.

* The registry `devices : map[string]*DeviceHeat` is a list of entries in some
  (unspecified) iteration order; a well-formed registry has pairwise distinct
  keys, stated as `WF`.
* `Heat` is a `float64` in the source.  Every value that `updateHeat` and
  `heatbarDecay` store is an integer, and `float64` addition, subtraction and
  comparison are exact on integers of magnitude below `2 ^ 53`, so the registry
  stores the heat as an `Int`.
* The rendering code divides and multiplies heats; there the `float64`
  rounding is visible, and these operations are embedded over `ℚ` with an
  explicit round-to-nearest-even step `fl` (53 significant bits).
* The terminal width is a Go `int` (64 bits), whose arithmetic wraps around;
  the bar width is computed with `wrapInt`.
* `strings.Repeat` and string concatenation allocate their result and fail
  when it cannot be allocated; a frame is laid out under a bound `maxAlloc` on
  the size of one string.
* The goroutines of the program are embedded as lists of lock, unlock and
  `Heat` access instructions, run under a scheduler (`Sched`).
-/

namespace Gosniff

/-! ## Configuration constants (main.go, lines 31-42) -/

/-- Maximum bytes for heatbar scaling. -/
def MaxBytes : Int := 150000

/-- Bytes to decay each interval. -/
def DecayRate : Int := 500

/-- The value 0 selects the dynamic calculation from the terminal width. -/
def HeatbarMaxWidth : Int := 0

/-- Fixed width of the address column. -/
def IPColumnWidth : Int := 16

/-- Separator between the address and the heatbar. -/
def Separator : String := " | "

/-- Maximum heat value to display. -/
def MaxHeatDisplay : Int := 1000000

/-! ## Heat registry -/

/-- One registry entry: `type DeviceHeat struct` without its mutex. -/
structure DeviceHeat where
  IP : String
  Heat : Int
deriving DecidableEq, Repr

/-- The map `devices`, as the list of its entries in iteration order. -/
abbrev Devices := List DeviceHeat

/-- The keys of the registry, in iteration order. -/
def keys (devices : Devices) : List String := devices.map (fun d => d.IP)

/-- Well-formedness of the map: no key occurs twice. -/
def WF (devices : Devices) : Prop := (keys devices).Nodup

instance (devices : Devices) : Decidable (WF devices) := by
  unfold WF; infer_instance

/-- Map lookup `devices[ip]`. -/
def lookup (devices : Devices) (ip : String) : Option DeviceHeat :=
  devices.find? (fun d => decide (d.IP = ip))

/-- The heat stored for an address, if the address has an entry. -/
def heatOf (devices : Devices) (ip : String) : Option Int :=
  (lookup devices ip).map (fun d => d.Heat)

/-- Mutation through the pointer stored under `ip`: the heat of that entry is
replaced by `f` of it, every other entry is untouched. -/
def modify (devices : Devices) (ip : String) (f : Int → Int) : Devices :=
  devices.map (fun d => if d.IP = ip then { d with Heat := f d.Heat } else d)

/-- First half of `updateHeat` (lines 188-194): the entry is created with heat
0 when the address is not yet a key. -/
def insertIfAbsent (devices : Devices) (ip : String) : Devices :=
  match lookup devices ip with
  | some _ => devices
  | none => devices ++ [{ IP := ip, Heat := 0 }]

/-- Second half of `updateHeat` (lines 196-201) on the heat of the entry:
`Heat += size`, then capped at `MaxHeatDisplay`. -/
def addHeat (size : Int) (heat : Int) : Int :=
  let heat1 := heat + size
  if heat1 > MaxHeatDisplay then MaxHeatDisplay else heat1

/-- The function `updateHeat(ip, size)`. -/
def updateHeat (devices : Devices) (ip : String) (size : Int) : Devices :=
  modify (insertIfAbsent devices ip) ip (addHeat size)

/-- Body of the decay loop (lines 216-219) on the heat of one entry:
`Heat -= DecayRate`, then floored at 0. -/
def decayHeat (heat : Int) : Int :=
  let heat1 := heat - DecayRate
  if heat1 < 0 then 0 else heat1

/-- One pass of `for _, device := range devices` in `heatbarDecay`, visiting
the entries in the given order of keys. -/
def decayVisit (order : List String) (devices : Devices) : Devices :=
  order.foldl (fun ds ip => modify ds ip decayHeat) devices

/-- One decay tick, visiting the entries in the iteration order of the list. -/
def heatbarDecayTick (devices : Devices) : Devices :=
  decayVisit (keys devices) devices

/-- The two mutations of the registry. -/
inductive Op where
  | update (ip : String) (size : Int)
  | decay
deriving DecidableEq, Repr

/-- Effect of one operation. -/
def Op.apply : Op → Devices → Devices
  | Op.update ip size, devices => updateHeat devices ip size
  | Op.decay, devices => heatbarDecayTick devices

/-- A finite sequence of operations, applied left to right. -/
def run (ops : List Op) (devices : Devices) : Devices :=
  ops.foldl (fun ds op => op.apply ds) devices

/-- All packet sizes of a sequence of operations are non-negative. -/
def sizesNonneg (ops : List Op) : Prop :=
  ∀ ip size, Op.update ip size ∈ ops → 0 ≤ size

/-! ## Ranking (`getSortedDevices`, lines 380-402) -/

/-- The comparison closure handed to `sort.Slice` (lines 389-394). -/
def less (a b : DeviceHeat) : Bool :=
  if a.Heat = b.Heat then decide (a.IP < b.IP) else decide (a.Heat > b.Heat)

/-- The order described in words: heat descending, ties by address ascending. -/
def ranksBefore (a b : DeviceHeat) : Prop :=
  b.Heat < a.Heat ∨ (a.Heat = b.Heat ∧ a.IP < b.IP)

/-- Sortedness as `sort.Slice` establishes it: no element is `less` than one
that stands before it. -/
def notAfter (a b : DeviceHeat) : Prop := less b a = false

instance : DecidableRel notAfter := fun a b => by
  unfold notAfter; infer_instance

/-- The contract of the library routine `sort.Slice` for the closure `less`: the
result is a rearrangement of the input in which no element is `less` than an
earlier one.  The routine is not stable and its algorithm is not fixed. -/
def SortContract (sort : List DeviceHeat → List DeviceHeat) : Prop :=
  ∀ l, (sort l).Perm l ∧ (sort l).Pairwise notAfter

/-- One routine that meets the contract, used to run the model. -/
def sortSlice (l : List DeviceHeat) : List DeviceHeat :=
  l.insertionSort notAfter

/-- The function `getSortedDevices` over a sorting routine: `iter` is the order
in which `range devices` yields the entries, `height` the terminal height
reported by `termbox.Size()`.  The result is `none` when the slice expression
`list[:height]` panics (negative height). -/
def getSortedDevicesWith (sort : List DeviceHeat → List DeviceHeat)
    (iter : Devices) (height : Int) : Option (List DeviceHeat) :=
  let list := sort iter
  if (list.length : Int) > height then
    if 0 ≤ height then some (list.take height.toNat) else none
  else some list

/-- The function `getSortedDevices` with the reference sorting routine. -/
def getSortedDevices (iter : Devices) (height : Int) : Option (List DeviceHeat) :=
  getSortedDevicesWith sortSlice iter height

/-! ## The `float64` operations used by the renderer

A finite `float64` is a rational number.  Each arithmetic operation of the
source is the exact operation followed by `fl`, the rounding to the nearest
`float64` with ties to the even significand.  Overflow to an infinity is not
represented: every quantity rounded below is bounded by the heat or by the
terminal width. -/

/-- Rounding to the nearest integer, ties to the even one. -/
def roundHalfEven (x : ℚ) : ℤ :=
  let f := ⌊x⌋
  if x - f < 1 / 2 then f
  else if 1 / 2 < x - f then f + 1
  else if f % 2 = 0 then f else f + 1

/-- Exponent of the unit in the last place of `x`: 53 significant bits in the
normal range, the fixed exponent `-1074` in the subnormal range. -/
def ulpExp (x : ℚ) : ℤ := max (Int.log 2 |x| - 52) (-1074)

/-- Rounding of an exact result to the nearest `float64`. -/
def fl (x : ℚ) : ℚ := roundHalfEven (x / 2 ^ ulpExp x) * 2 ^ ulpExp x

/-- The conversion `int(math.Round(x))`: nearest integer, halves away from
zero.  The result is the one of Go when it lies in the range of `int`; beyond
that range Go leaves the conversion to the platform, which happens in `drawUI`
only for a bar of `2 ^ 63 - 512` cells or more, where the row fails whatever
the conversion yields (`repeatStr`). -/
def mathRound (x : ℚ) : ℤ := if 0 ≤ x then ⌊x + 1 / 2⌋ else -⌊-x + 1 / 2⌋

/-- The verb `%.<prec>f` of `fmt.Sprintf` on a finite `float64`: the exact
value rounded to `prec` decimals, ties to even. -/
def fmtFixed (prec : Nat) (x : ℚ) : String :=
  let d := (roundHalfEven (|x| * 10 ^ prec)).toNat
  let whole := Nat.repr (d / 10 ^ prec)
  let frac := Nat.repr (d % 10 ^ prec)
  let sign := if x < 0 then "-" else ""
  if prec = 0 then sign ++ whole
  else sign ++ whole ++ "." ++ "".pushn '0' (prec - frac.length) ++ frac

/-! ## Frame layout (`formatHeat` and `drawUI`) -/

/-- The function `formatHeat` (lines 79-87). -/
def formatHeat (heat : Int) : String :=
  if heat < 1000 then fmtFixed 0 (heat : ℚ)
  else if heat < 1000000 then fmtFixed 1 (fl ((heat : ℚ) / 1000)) ++ "k"
  else fmtFixed 1 (fl ((heat : ℚ) / 1000000)) ++ "M"

/-- The value of an `int` expression whose exact value is `x`: the `int` of Go
is 64 bits wide on the platforms of gosniff, and its arithmetic wraps around
silently. -/
def wrapInt (x : Int) : Int := (x + 2 ^ 63) % 2 ^ 64 - 2 ^ 63

/-- The bar width of `drawUI` (lines 244-251) for the terminal width `width`;
the subtractions of line 247 are `int` subtractions, from left to right. -/
def heatbarWidth (width : Int) : Int :=
  let heatbarWidth := HeatbarMaxWidth
  if heatbarWidth ≤ 0 then
    let heatbarWidth :=
      wrapInt (wrapInt (wrapInt (width - IPColumnWidth) - (Separator.utf8ByteSize : Int)) - 10)
    if heatbarWidth < 10 then 10 else heatbarWidth
  else heatbarWidth

/-- The clamped `heatRatio` of `drawUI` (lines 289, 291-293). -/
def heatRatio (heatValue : Int) : ℚ :=
  let r := fl ((heatValue : ℚ) / (MaxBytes : ℚ))
  if r > 1 then 1 else r

/-- The clamped `heatRatioTwo` of `drawUI` (lines 290, 294-296). -/
def heatRatioTwo (heatValue : Int) : ℚ :=
  let r := fl (fl ((heatValue : ℚ) - (MaxBytes : ℚ)) / ((MaxBytes * 10 : Int) : ℚ))
  if r > 1 then 1 else r

/-- The tier-one width `heatWidth` of `drawUI` (line 297). -/
def heatWidth (heatValue heatbarWidth : Int) : Int :=
  mathRound (fl (heatRatio heatValue * fl (heatbarWidth : ℚ)))

/-- The tier-two width `heatWidthTwo` of `drawUI` (lines 298-301). -/
def heatWidthTwo (heatValue heatbarWidth : Int) : Int :=
  let w := mathRound (fl (heatRatioTwo heatValue * fl (heatbarWidth : ℚ)))
  if heatRatioTwo heatValue < 0 then 0 else w

/-- The label `heatValueStr` of `drawUI` (lines 354-363). -/
def heatValueStr (heatValue : Int) : String :=
  let formattedHeat := if heatValue > MaxHeatDisplay then "MAX" else formatHeat heatValue
  let s := " " ++ formattedHeat ++ " "
  if s.utf8ByteSize > 10 then " MAX " else s

/-! ## The bar widths as the specification words them (exact arithmetic) -/

/-- The function `clamp(x, lo, hi)`. -/
def specClamp (x lo hi : ℚ) : ℚ := max lo (min x hi)

/-- Tier-one width in exact arithmetic: `round(clamp(h / MaxBytes, 0, 1) * B)`. -/
def specTierOneWidth (h B : Int) : Int :=
  mathRound (specClamp ((h : ℚ) / (MaxBytes : ℚ)) 0 1 * (B : ℚ))

/-- Tier-two width in exact arithmetic:
`round(clamp((h - MaxBytes) / (MaxBytes * 10), 0, 1) * B)`. -/
def specTierTwoWidth (h B : Int) : Int :=
  mathRound (specClamp (((h : ℚ) - (MaxBytes : ℚ)) / ((MaxBytes : ℚ) * 10)) 0 1 * (B : ℚ))

/-! ## Strings and cells of `drawUI`

A Go string is a sequence of bytes.  The addresses rendered here are produced by
`net.IP.String()` (`getIPAddresses`, lines 176-185) and every other string of
`drawUI` is an ASCII literal or an ASCII numeral, so bytes and characters
coincide; the embedding takes a string as its list of characters and indexes
it by position.  A slice expression that is out of range and a negative
`strings.Repeat` count panic, and so does the program when a string cannot be
allocated; they yield `none`.

The two bar strings, and their concatenation, are as long as the bar, which
follows the terminal width.  The runtime accepts no allocation above
`runtimeMaxAlloc = 2 ^ 48` bytes, and how much less it can serve depends on the
machine: a frame is laid out for a given bound `maxAlloc` on the bytes of one
string.  Every other string of a row has at most a few dozen bytes and is taken
to be allocated. -/

/-- The colours `termbox.Attribute` that `drawUI` uses. -/
inductive Attribute where
  | ColorDefault
  | ColorWhite
  | ColorGreen
  | ColorRed
  | ColorYellow
deriving DecidableEq, Repr

/-- One call `termbox.SetCell(x, y, ch, fg, bg)`. -/
structure Cell where
  x : Int
  y : Int
  ch : Char
  fg : Attribute
  bg : Attribute
deriving DecidableEq, Repr

/-- The call `strings.Split(s, ".")`. -/
def splitDot : List Char → List (List Char)
  | [] => [[]]
  | c :: cs =>
    if c = '.' then [] :: splitDot cs
    else
      match splitDot cs with
      | [] => [[c]]
      | p :: ps => (c :: p) :: ps

/-- The slice expression `s[:n]`. -/
def sliceTo (s : List Char) (n : Int) : Option (List Char) :=
  if 0 ≤ n ∧ n ≤ (s.length : Int) then some (s.take n.toNat) else none

/-- The loop `for len(s) < n { s += " " }` of `padRight`, by its number of
iterations. -/
def padLoop : Nat → List Char → List Char
  | 0, s => s
  | k + 1, s => padLoop k (s ++ [' '])

/-- The function `padRight` (lines 65-76). -/
def padRight (s : List Char) (n : Int) : Option (List Char) :=
  if (s.length : Int) > n then
    if n > 3 then (sliceTo s (n - 3)).map (fun t => t ++ ['.', '.', '.'])
    else sliceTo s n
  else some (padLoop (n - (s.length : Int)).toNat s)

/-- Body of the loop over `parts` (lines 270-275) for one part. -/
def fitPart (part : List Char) : Option (List Char) :=
  if (part.length : Int) < 3 then padRight part 3
  else if (part.length : Int) > 3 then sliceTo part 3
  else some part

/-- The loop over `parts` (lines 269-276). -/
def fitParts : List (List Char) → Option (List (List Char))
  | [] => some []
  | part :: rest =>
    match fitPart part, fitParts rest with
    | some p, some ps => some (p :: ps)
    | _, _ => none

/-- The address column text of `drawUI` (lines 266-286). -/
def formatIP (ipStr : List Char) : Option (List Char) :=
  let parts := splitDot ipStr
  if parts.length = 4 then
    (fitParts parts).map (fun ps => List.intercalate ['.'] ps)
  else if (ipStr.length : Int) > IPColumnWidth then
    (sliceTo ipStr IPColumnWidth).bind (fun s => padRight s IPColumnWidth)
  else padRight ipStr IPColumnWidth

/-- The largest allocation that the Go runtime accepts on a 64-bit platform
(`maxAlloc` of `runtime/malloc.go`): the address space of `2 ^ 48` bytes. -/
def runtimeMaxAlloc : Int := 2 ^ 48

/-- The longest string that can be allocated when the machine serves
allocations of up to `maxAlloc` bytes. -/
def allocLimit (maxAlloc : Int) : Int := min maxAlloc runtimeMaxAlloc

/-- The call `strings.Repeat(string(c), count)`: it panics on a negative count
and when its result cannot be allocated. -/
def repeatStr (maxAlloc : Int) (c : Char) (count : Int) : Option (List Char) :=
  if count < 0 then none
  else if count > allocLimit maxAlloc then none
  else some (List.replicate count.toNat c)

/-- The concatenation `a + b` of two strings, which allocates its result. -/
def concatStr (maxAlloc : Int) (a b : List Char) : Option (List Char) :=
  if ((a ++ b).length : Int) > allocLimit maxAlloc then none else some (a ++ b)

/-- A loop `for i, ch := range s { if stop(i) { break }; SetCell(...) }`, from
index `i` on. -/
def rangeLoop (stop : Nat → Bool) (cell : Nat → Char → Cell) : Nat → List Char → List Cell
  | _, [] => []
  | i, ch :: rest => if stop i then [] else cell i ch :: rangeLoop stop cell (i + 1) rest

/-- The address cells of a row (lines 312-317). -/
def ipCells (idx : Int) (ipStr : List Char) : List Cell :=
  rangeLoop (fun i => decide ((i : Int) ≥ IPColumnWidth))
    (fun i ch => ⟨(i : Int), idx, ch, Attribute.ColorWhite, Attribute.ColorDefault⟩) 0 ipStr

/-- A loop that paints `s` from column `x0` and stops at the terminal width
(lines 321-327, 331-338, 366-372). -/
def paint (width x0 idx : Int) (fg : Attribute) (s : List Char) : List Cell :=
  rangeLoop (fun i => decide (x0 + (i : Int) ≥ width))
    (fun i ch => ⟨x0 + (i : Int), idx, ch, fg, Attribute.ColorDefault⟩) 0 s

/-- The tier-two loop (lines 341-351), which also stops when the second ratio is
negative. -/
def paintTwo (width x0 idx : Int) (heatValue : Int) (s : List Char) : List Cell :=
  rangeLoop (fun i => decide (heatRatioTwo heatValue < 0) || decide (x0 + (i : Int) ≥ width))
    (fun i ch => ⟨x0 + (i : Int), idx, ch, Attribute.ColorRed, Attribute.ColorDefault⟩) 0 s

/-- One iteration of the loop over `devicesList` in `drawUI` (lines 261-372):
the cell writes of row `idx`, in the order in which they are issued.  The bar
strings are built (lines 308-309) before the first cell of the row is written.
The column sums `heatbarX + i` and `heatbarX + heatbarWidth + 1` are not
wrapped: when the bar strings exist the bar has at most `2 ^ 48` cells. -/
def drawRow (maxAlloc width idx : Int) (device : DeviceHeat) : Option (List Cell) :=
  let barWidth := heatbarWidth width
  match formatIP device.IP.toList with
  | none => none
  | some ipStr =>
    let heatWidth := heatWidth device.Heat barWidth
    let heatWidthTwo := heatWidthTwo device.Heat barWidth
    match repeatStr maxAlloc '1' heatWidth, repeatStr maxAlloc ' ' (barWidth - heatWidth) with
    | some ones, some blanks =>
      match concatStr maxAlloc ones blanks, repeatStr maxAlloc '2' heatWidthTwo with
      | some heatbar, some heatbarTwo =>
        let sepX := IPColumnWidth
        let heatbarX := sepX + (Separator.utf8ByteSize : Int)
        let heatValueX := heatbarX + barWidth + 1
        some (ipCells idx ipStr
          ++ paint width sepX idx Attribute.ColorWhite Separator.toList
          ++ paint width heatbarX idx Attribute.ColorGreen heatbar
          ++ paintTwo width heatbarX idx device.Heat heatbarTwo
          ++ paint width heatValueX idx Attribute.ColorYellow (heatValueStr device.Heat).toList)
      | _, _ => none
    | _, _ => none

/-- The loop over `devicesList` in `drawUI` (lines 255-373), from row `idx` on. -/
def drawRows (maxAlloc width height : Int) : Nat → List DeviceHeat → Option (List Cell)
  | _, [] => some []
  | idx, device :: rest =>
    if (idx : Int) ≥ height then some []
    else
      match drawRow maxAlloc width (idx : Int) device,
          drawRows maxAlloc width height (idx + 1) rest with
      | some row, some more => some (row ++ more)
      | _, _ => none

/-- One frame of `drawUI` over a sorting routine: all cell writes between
`termbox.Clear` and `termbox.Flush`, in order. -/
def drawUIWith (maxAlloc : Int) (sort : List DeviceHeat → List DeviceHeat) (iter : Devices)
    (width height : Int) : Option (List Cell) :=
  match getSortedDevicesWith sort iter height with
  | none => none
  | some devicesList => drawRows maxAlloc width height 0 devicesList

/-- One frame of `drawUI` with the reference sorting routine. -/
def drawUI (maxAlloc : Int) (iter : Devices) (width height : Int) : Option (List Cell) :=
  drawUIWith maxAlloc sortSlice iter width height

/-- The cell shown at `(x, y)` after the writes: the last write there, if any
(the buffer is cleared before the frame). -/
def cellAt (writes : List Cell) (x y : Int) : Option Cell :=
  (writes.filter (fun c => decide (c.x = x ∧ c.y = y))).getLast?

/-- A segment made exactly 3 characters long, as the specification words it. -/
def specFit3 (p : List Char) : List Char :=
  if p.length < 3 then p ++ List.replicate (3 - p.length) ' '
  else if p.length > 3 then p.take 3
  else p

/-- The cell writes that `drawRow` issues when it does not panic, for the
address text `ipStr`: address, separator, tier-one bar, tier-two bar, label. -/
def rowWrites (width idx : Int) (device : DeviceHeat) (ipStr : List Char) : List Cell :=
  ipCells idx ipStr
    ++ paint width IPColumnWidth idx Attribute.ColorWhite Separator.toList
    ++ paint width (IPColumnWidth + (Separator.utf8ByteSize : Int)) idx Attribute.ColorGreen
        (List.replicate (heatWidth device.Heat (heatbarWidth width)).toNat '1' ++
          List.replicate (heatbarWidth width - heatWidth device.Heat (heatbarWidth width)).toNat ' ')
    ++ paintTwo width (IPColumnWidth + (Separator.utf8ByteSize : Int)) idx device.Heat
        (List.replicate (heatWidthTwo device.Heat (heatbarWidth width)).toNat '2')
    ++ paint width (IPColumnWidth + (Separator.utf8ByteSize : Int) + heatbarWidth width + 1) idx
        Attribute.ColorYellow (heatValueStr device.Heat).toList

/-! ## Goroutines, mutexes and accesses to `Heat`

`main` starts the packet loop (which calls `updateHeat`), `heatbarDecay` and
the loop of `drawUI` as goroutines of their own (lines 110-122).  A goroutine
is embedded as the list of its steps on the two kinds of mutex and on the field
`Heat` of the entries; a scheduler picks the goroutine that makes the next
step. -/

/-- The mutexes of the program: `devicesMutex` (line 56) and the field `Mutex`
of the entry of an address (line 51). -/
inductive Lock where
  | devicesMutex
  | entryMutex (ip : String)
deriving DecidableEq, Repr

/-- One step of a goroutine: `Lock()` or `Unlock()` of a mutex, a read or a
write of the field `Heat` of the entry of an address. -/
inductive Instr where
  | lock (m : Lock)
  | unlock (m : Lock)
  | readHeat (ip : String)
  | writeHeat (ip : String)
deriving DecidableEq, Repr

/-- The steps of `updateHeat(ip, _)` (lines 187-202): the registry is searched
under `devicesMutex` (188-194; a new entry is initialised before it is
shared), then `device.Heat += float64(size)` reads and writes under the mutex
of the entry (196-197), the test of line 198 reads, and line 199 writes when
the heat is capped. -/
def updateHeatSteps (ip : String) (capped : Bool) : List Instr :=
  [Instr.lock Lock.devicesMutex, Instr.unlock Lock.devicesMutex,
    Instr.lock (Lock.entryMutex ip), Instr.readHeat ip, Instr.writeHeat ip, Instr.readHeat ip]
    ++ (if capped then [Instr.writeHeat ip] else [])
    ++ [Instr.unlock (Lock.entryMutex ip)]

/-- The steps of the decay of one entry (lines 215-220); `floored` tells
whether line 218 runs. -/
def decayEntrySteps (ip : String) (floored : Bool) : List Instr :=
  [Instr.lock (Lock.entryMutex ip), Instr.readHeat ip, Instr.writeHeat ip, Instr.readHeat ip]
    ++ (if floored then [Instr.writeHeat ip] else [])
    ++ [Instr.unlock (Lock.entryMutex ip)]

/-- The steps of one tick of `heatbarDecay` (lines 213-222) over the entries
visited. -/
def heatbarDecaySteps (visited : List (String × Bool)) : List Instr :=
  [Instr.lock Lock.devicesMutex]
    ++ (visited.map (fun v => decayEntrySteps v.1 v.2)).flatten
    ++ [Instr.unlock Lock.devicesMutex]

/-- The steps of one call `less(i, j)` of the closure given to `sort.Slice`
(lines 389-394) on the entries of `a` and `b`: line 390 reads both heats, and
line 393 reads them again when they differ. -/
def lessSteps (a b : String) (equalHeat : Bool) : List Instr :=
  [Instr.readHeat a, Instr.readHeat b]
    ++ (if equalHeat then [] else [Instr.readHeat a, Instr.readHeat b])

/-- The steps of `getSortedDevices` (lines 380-402) for the comparisons that
`sort.Slice` makes: all of them run under `devicesMutex`, released on return. -/
def getSortedDevicesSteps (compared : List (String × String × Bool)) : List Instr :=
  [Instr.lock Lock.devicesMutex]
    ++ (compared.map (fun c => lessSteps c.1 c.2.1 c.2.2)).flatten
    ++ [Instr.unlock Lock.devicesMutex]

/-- The steps of the head of a row in `drawUI` (lines 262-265). -/
def rowSteps (ip : String) : List Instr :=
  [Instr.lock (Lock.entryMutex ip), Instr.readHeat ip, Instr.unlock (Lock.entryMutex ip)]

/-- The steps of one frame of `drawUI`: `getSortedDevices`, then the rows. -/
def drawUISteps (compared : List (String × String × Bool)) (rows : List String) : List Instr :=
  getSortedDevicesSteps compared ++ (rows.map rowSteps).flatten

/-- A state of the scheduler: the steps that each goroutine has still to make,
and the mutexes that are locked, each with the goroutine that locked it. -/
structure Sched where
  todo : List (List Instr)
  held : List (Lock × Nat)
deriving DecidableEq, Repr

/-- Goroutine `t` makes its next step, if it can: `Lock()` waits while the
mutex is locked, `Unlock()` releases a mutex that the goroutine holds. -/
def Sched.step (s : Sched) (t : Nat) : Option Sched :=
  match s.todo[t]? with
  | some (Instr.lock m :: rest) =>
    if s.held.any (fun p => decide (p.1 = m)) then none
    else some ⟨s.todo.set t rest, (m, t) :: s.held⟩
  | some (Instr.unlock m :: rest) =>
    if (m, t) ∈ s.held then some ⟨s.todo.set t rest, s.held.erase (m, t)⟩ else none
  | some (_ :: rest) => some ⟨s.todo.set t rest, s.held⟩
  | _ => none

/-- The state after the goroutines have stepped in the order `schedule`. -/
def Sched.run : List Nat → Sched → Option Sched
  | [], s => some s
  | t :: ts, s => (s.step t).bind (Sched.run ts)

/-- The next step of goroutine `t`. -/
def Sched.next (s : Sched) (t : Nat) : Option Instr :=
  (s.todo[t]?).bind List.head?

/-- The mutexes that goroutine `t` holds. -/
def Sched.locksOf (s : Sched) (t : Nat) : List Lock :=
  (s.held.filter (fun p => decide (p.2 = t))).map (fun p => p.1)

/-- The access that a step makes to the field `Heat`: the address of the
entry, and whether the step writes. -/
def Instr.access : Instr → Option (String × Bool)
  | Instr.readHeat ip => some (ip, false)
  | Instr.writeHeat ip => some (ip, true)
  | _ => none

/-- A data race in state `s`: two goroutines are both about to access the
`Heat` of the same entry and one of them writes, so that nothing orders the two
accesses. -/
def Sched.race (s : Sched) (t u : Nat) : Bool :=
  decide (t ≠ u) &&
    match (s.next t).bind Instr.access, (s.next u).bind Instr.access with
    | some (a, w1), some (b, w2) => decide (a = b) && (w1 || w2)
    | _, _ => false

/-- The steps `prog` of a goroutine that holds the mutexes `held` keep the
locking discipline of `Heat`: each access to the `Heat` of an entry is made
while the goroutine holds the `Mutex` of that entry.  The result is the list of
the mutexes held after the steps, `none` when an access breaks the
discipline. -/
def guardedFrom : List Lock → List Instr → Option (List Lock)
  | held, [] => some held
  | held, Instr.lock m :: rest => guardedFrom (m :: held) rest
  | held, Instr.unlock m :: rest => guardedFrom (held.erase m) rest
  | held, Instr.readHeat ip :: rest =>
    if Lock.entryMutex ip ∈ held then guardedFrom held rest else none
  | held, Instr.writeHeat ip :: rest =>
    if Lock.entryMutex ip ∈ held then guardedFrom held rest else none

/-- A critical section on the registry, which the mutex it runs under makes
atomic: the search of `updateHeat` (lines 188-194, under `devicesMutex`), the
update of the heat by `updateHeat` (lines 196-201, under the mutex of the
entry), or the decay of one entry by `heatbarDecay` (lines 215-220, under the
mutex of the entry). -/
inductive Crit where
  | find (ip : String)
  | add (ip : String) (size : Int)
  | decay (ip : String)
deriving DecidableEq, Repr

/-- Effect of a critical section on the registry. -/
def Crit.apply : Crit → Devices → Devices
  | Crit.find ip, devices => insertIfAbsent devices ip
  | Crit.add ip size, devices => modify devices ip (addHeat size)
  | Crit.decay ip, devices => modify devices ip decayHeat

/-- The critical sections of `l`, run one after the other. -/
def runCrits (l : List Crit) (devices : Devices) : Devices :=
  l.foldl (fun ds c => c.apply ds) devices

/-- The two critical sections of the call `updateHeat(ip, size)`. -/
def callCrits (call : String × Int) : List Crit :=
  [Crit.find call.1, Crit.add call.1 call.2]

/-- The critical sections of one tick of `heatbarDecay` that visits the
entries of `visited`. -/
def tickCrits (visited : List String) : List Crit :=
  visited.map Crit.decay

/-- An operation made in one piece: a whole call `updateHeat(ip, size)`, or the
decay of one entry. -/
inductive Atomic where
  | call (ip : String) (size : Int)
  | decayEntry (ip : String)
deriving DecidableEq, Repr

/-- Effect of an operation made in one piece. -/
def Atomic.apply : Atomic → Devices → Devices
  | Atomic.call ip size, devices => updateHeat devices ip size
  | Atomic.decayEntry ip, devices => modify devices ip decayHeat

/-- The operations of `l`, made in one piece each, one after the other. -/
def runAtomic (l : List Atomic) (devices : Devices) : Devices :=
  l.foldl (fun ds op => op.apply ds) devices

/-- The operations that the critical sections of `l` complete, in the order
in which they complete: a call completes with its update of the heat. -/
def atomicOf (l : List Crit) : List Atomic :=
  l.filterMap (fun c =>
    match c with
    | Crit.find _ => none
    | Crit.add ip size => some (Atomic.call ip size)
    | Crit.decay ip => some (Atomic.decayEntry ip))

/-- The list `l` interleaves the lists `threads`: at each step it takes the
head of one of them, until all are used up. -/
inductive Interleaving : List (List Crit) → List Crit → Prop where
  | done (threads : List (List Crit)) (h : ∀ t ∈ threads, t = []) : Interleaving threads []
  | step (a b : List (List Crit)) (c : Crit) (rest l : List Crit)
      (hl : Interleaving (a ++ rest :: b) l) : Interleaving (a ++ (c :: rest) :: b) (c :: l)

/-- The registry invariant on heats: every entry lies in `[0, MaxHeatDisplay]`. -/
def HeatInv (devices : Devices) : Prop :=
  ∀ d ∈ devices, 0 ≤ d.Heat ∧ d.Heat ≤ MaxHeatDisplay

/-! ## Registry lemmas -/

theorem keys_modify (devices : Devices) (ip : String) (f : Int → Int) :
    keys (modify devices ip f) = keys devices := by
  unfold keys modify
  rw [List.map_map]
  apply List.map_congr_left
  intro d _
  by_cases h : d.IP = ip <;> simp [h]

theorem lookup_modify_self (devices : Devices) (ip : String) (f : Int → Int) :
    heatOf (modify devices ip f) ip = (heatOf devices ip).map f := by
  unfold heatOf lookup modify
  induction devices with
  | nil => rfl
  | cons d ds ih =>
    simp only [List.map_cons, List.find?_cons]
    by_cases h : d.IP = ip
    · simp [h]
    · simpa [h] using ih

theorem lookup_modify_other (devices : Devices) (ip ip2 : String) (f : Int → Int)
    (hne : ip2 ≠ ip) : heatOf (modify devices ip f) ip2 = heatOf devices ip2 := by
  unfold heatOf lookup modify
  induction devices with
  | nil => rfl
  | cons d ds ih =>
    simp only [List.map_cons, List.find?_cons]
    by_cases h : d.IP = ip
    · have h2 : ¬ ip = ip2 := fun e => hne e.symm
      simpa [h, h2] using ih
    · by_cases h2 : d.IP = ip2
      · have h3 : ¬ ip2 = ip := hne
        simp [h2, h3]
      · simpa [h, h2] using ih

theorem heatOf_insertIfAbsent (devices : Devices) (ip : String) :
    heatOf (insertIfAbsent devices ip) ip = some ((heatOf devices ip).getD 0) := by
  unfold insertIfAbsent
  cases hl : lookup devices ip with
  | some d => simp [heatOf, hl]
  | none =>
    simp only [heatOf, hl, Option.map_none', Option.getD_none]
    unfold lookup at hl ⊢
    rw [List.find?_append, hl]
    simp

theorem addHeat_eq_min (size heat : Int) :
    addHeat size heat = min (heat + size) MaxHeatDisplay := by
  unfold addHeat
  simp only
  split
  · rw [min_eq_right]; omega
  · rw [min_eq_left]; omega

theorem decayHeat_eq_max (heat : Int) : decayHeat heat = max (heat - DecayRate) 0 := by
  unfold decayHeat
  simp only
  split
  · rw [max_eq_right]; omega
  · rw [max_eq_left]; omega

theorem mem_modify {devices : Devices} {ip : String} {f : Int → Int} {d : DeviceHeat}
    (hd : d ∈ modify devices ip f) :
    d ∈ devices ∨ ∃ d0 ∈ devices, d0.IP = ip ∧ d = { d0 with Heat := f d0.Heat } := by
  unfold modify at hd
  rw [List.mem_map] at hd
  obtain ⟨d0, hd0, rfl⟩ := hd
  by_cases h : d0.IP = ip
  · right; exact ⟨d0, hd0, h, by simp [h]⟩
  · left; simpa [h] using hd0

theorem heatInv_modify {devices : Devices} (ip : String) {f : Int → Int}
    (hf : ∀ h, 0 ≤ h ∧ h ≤ MaxHeatDisplay → 0 ≤ f h ∧ f h ≤ MaxHeatDisplay)
    (hinv : HeatInv devices) : HeatInv (modify devices ip f) := by
  intro d hd
  rcases mem_modify hd with h | ⟨d0, hd0, _, rfl⟩
  · exact hinv d h
  · exact hf _ (hinv d0 hd0)

theorem heatInv_insertIfAbsent {devices : Devices} (ip : String)
    (hinv : HeatInv devices) : HeatInv (insertIfAbsent devices ip) := by
  unfold insertIfAbsent
  cases lookup devices ip with
  | some d => exact hinv
  | none =>
    intro d hd
    rcases List.mem_append.mp hd with h | h
    · exact hinv d h
    · rw [List.mem_singleton] at h
      subst h
      simp [MaxHeatDisplay]

theorem addHeat_bounds {size : Int} (hs : 0 ≤ size) (h : Int)
    (hh : 0 ≤ h ∧ h ≤ MaxHeatDisplay) :
    0 ≤ addHeat size h ∧ addHeat size h ≤ MaxHeatDisplay := by
  rw [addHeat_eq_min]
  unfold MaxHeatDisplay at *
  omega

theorem decayHeat_bounds (h : Int) (hh : 0 ≤ h ∧ h ≤ MaxHeatDisplay) :
    0 ≤ decayHeat h ∧ decayHeat h ≤ MaxHeatDisplay := by
  rw [decayHeat_eq_max]
  unfold MaxHeatDisplay DecayRate at *
  omega

theorem decayHeat_bounds_nonneg (h : Int) : 0 ≤ decayHeat h := by
  rw [decayHeat_eq_max]
  omega

theorem heatInv_decayVisit (order : List String) {devices : Devices}
    (hinv : HeatInv devices) : HeatInv (decayVisit order devices) := by
  unfold decayVisit
  induction order generalizing devices with
  | nil => exact hinv
  | cons ip rest ih => exact ih (heatInv_modify ip decayHeat_bounds hinv)

theorem heatInv_apply (op : Op) {devices : Devices}
    (hs : ∀ ip size, op = Op.update ip size → 0 ≤ size)
    (hinv : HeatInv devices) : HeatInv (op.apply devices) := by
  cases op with
  | update ip size =>
    exact heatInv_modify ip (addHeat_bounds (hs ip size rfl)) (heatInv_insertIfAbsent ip hinv)
  | decay => exact heatInv_decayVisit _ hinv

theorem heatInv_run (ops : List Op) {devices : Devices} (hs : sizesNonneg ops)
    (hinv : HeatInv devices) : HeatInv (run ops devices) := by
  unfold run
  induction ops generalizing devices with
  | nil => exact hinv
  | cons op rest ih =>
    refine ih (fun ip size hm => hs ip size (List.mem_cons_of_mem _ hm)) ?_
    exact heatInv_apply op (fun ip size he => hs ip size (he ▸ List.mem_cons_self _ _)) hinv

/-- The entry-wise effect of a decay pass over a duplicate-free list of keys:
exactly the entries whose key is visited decay once. -/
theorem decayVisit_eq_map (order : List String) (hnd : order.Nodup) (devices : Devices) :
    decayVisit order devices =
      devices.map (fun d => if d.IP ∈ order then { d with Heat := decayHeat d.Heat } else d) := by
  unfold decayVisit
  induction order generalizing devices with
  | nil => simp
  | cons ip rest ih =>
    rw [List.nodup_cons] at hnd
    rw [List.foldl_cons, ih hnd.2]
    unfold modify
    rw [List.map_map]
    apply List.map_congr_left
    intro d _
    by_cases h : d.IP = ip
    · have h1 : ip ∉ rest := hnd.1
      simp [h, h1]
    · by_cases h2 : d.IP ∈ rest
      · simp [h, h2]
      · simp [h, h2]

theorem decayVisit_perm {order : List String} {devices : Devices} (hwf : WF devices)
    (hperm : order.Perm (keys devices)) :
    decayVisit order devices = devices.map (fun d => { d with Heat := decayHeat d.Heat }) := by
  rw [decayVisit_eq_map order (hperm.nodup_iff.mpr hwf)]
  apply List.map_congr_left
  intro d hd
  have : d.IP ∈ order := hperm.mem_iff.mpr (List.mem_map_of_mem (fun d => d.IP) hd)
  simp [this]

theorem heatOf_map_heat (devices : Devices) (f : Int → Int) (ip : String) :
    heatOf (devices.map (fun d => { d with Heat := f d.Heat })) ip = (heatOf devices ip).map f := by
  unfold heatOf lookup
  induction devices with
  | nil => rfl
  | cons d ds ih =>
    simp only [List.map_cons, List.find?_cons]
    by_cases h : d.IP = ip
    · simp [h]
    · simpa [h] using ih

theorem keys_map_heat (devices : Devices) (f : Int → Int) :
    keys (devices.map (fun d => { d with Heat := f d.Heat })) = keys devices := by
  unfold keys
  rw [List.map_map]
  rfl

theorem heatbarDecayTick_eq_map {devices : Devices} (hwf : WF devices) :
    heatbarDecayTick devices = devices.map (fun d => { d with Heat := decayHeat d.Heat }) :=
  decayVisit_perm hwf (List.Perm.refl _)

theorem WF_heatbarDecayTick {devices : Devices} (hwf : WF devices) :
    WF (heatbarDecayTick devices) := by
  unfold WF
  rw [heatbarDecayTick_eq_map hwf, keys_map_heat]
  exact hwf

theorem WF_iterate_tick {devices : Devices} (hwf : WF devices) (k : ℕ) :
    WF (heatbarDecayTick^[k] devices) := by
  induction k generalizing devices with
  | zero => exact hwf
  | succ n ih => exact ih (WF_heatbarDecayTick hwf)

theorem decayHeat_iterate (h : Int) (h0 : 0 ≤ h) (k : ℕ) :
    decayHeat^[k] h = max (h - DecayRate * k) 0 := by
  induction k generalizing h with
  | zero => simp; omega
  | succ n ih =>
    rw [Function.iterate_succ_apply, ih (decayHeat h) (decayHeat_bounds_nonneg h), decayHeat_eq_max]
    unfold DecayRate
    push_cast
    omega

theorem heatOf_iterate_tick {devices : Devices} (hwf : WF devices) (ip : String) (k : ℕ) :
    heatOf (heatbarDecayTick^[k] devices) ip = (heatOf devices ip).map (decayHeat^[k]) := by
  induction k generalizing devices with
  | zero => simp
  | succ n ih =>
    rw [Function.iterate_succ_apply, ih (WF_heatbarDecayTick hwf), heatbarDecayTick_eq_map hwf,
      heatOf_map_heat, Option.map_map]
    rfl


/-! ## Ranking lemmas -/

theorem notAfter_iff (a b : DeviceHeat) :
    notAfter a b ↔ b.Heat < a.Heat ∨ (a.Heat = b.Heat ∧ a.IP ≤ b.IP) := by
  unfold notAfter less
  by_cases h : b.Heat = a.Heat
  · simp [h]
  · have h2 : ¬ a.Heat = b.Heat := fun e => h e.symm
    simp only [h, if_false, decide_eq_false_iff_not, not_lt, gt_iff_lt]
    constructor
    · intro hle
      exact Or.inl (lt_of_le_of_ne hle h)
    · rintro (hlt | ⟨he, _⟩)
      · exact le_of_lt hlt
      · exact absurd he h2

instance : IsTotal DeviceHeat notAfter where
  total a b := by
    rw [notAfter_iff, notAfter_iff]
    rcases lt_trichotomy a.Heat b.Heat with h | h | h
    · exact Or.inr (Or.inl h)
    · rcases le_total a.IP b.IP with h2 | h2
      · exact Or.inl (Or.inr ⟨h, h2⟩)
      · exact Or.inr (Or.inr ⟨h.symm, h2⟩)
    · exact Or.inl (Or.inl h)

instance : IsTrans DeviceHeat notAfter where
  trans a b c := by
    rw [notAfter_iff, notAfter_iff, notAfter_iff]
    rintro (h1 | ⟨h1, h1s⟩) (h2 | ⟨h2, h2s⟩)
    · exact Or.inl (lt_trans h2 h1)
    · exact Or.inl (h2 ▸ h1)
    · exact Or.inl (h1 ▸ h2)
    · exact Or.inr ⟨h1.trans h2, le_trans h1s h2s⟩

instance : IsAntisymm DeviceHeat notAfter where
  antisymm a b := by
    rw [notAfter_iff, notAfter_iff]
    rintro (h1 | ⟨h1, h1s⟩) (h2 | ⟨h2, h2s⟩)
    · exact absurd h1 (not_lt.mpr (le_of_lt h2))
    · exact absurd h1 (by rw [h2]; exact lt_irrefl _)
    · exact absurd h2 (by rw [h1]; exact lt_irrefl _)
    · cases a; cases b
      simp only at h1 h1s h2s
      rw [h1, le_antisymm h1s h2s]

theorem sortSlice_contract : SortContract sortSlice := fun l =>
  ⟨List.perm_insertionSort notAfter l, List.sorted_insertionSort notAfter l⟩

/-- Two outputs of contract-respecting sorts on rearrangements of one list agree. -/
theorem sort_unique {sort : List DeviceHeat → List DeviceHeat} (hsort : SortContract sort)
    {iter devices : Devices} (hperm : iter.Perm devices) :
    sort iter = sortSlice devices :=
  List.eq_of_perm_of_sorted
    (((hsort iter).1.trans hperm).trans (sortSlice_contract devices).1.symm)
    (hsort iter).2 (sortSlice_contract devices).2

theorem ranksBefore_of_notAfter {a b : DeviceHeat} (h : notAfter a b) (hne : a.IP ≠ b.IP) :
    ranksBefore a b := by
  rw [notAfter_iff] at h
  rcases h with h | ⟨h1, h2⟩
  · exact Or.inl h
  · exact Or.inr ⟨h1, lt_of_le_of_ne h2 hne⟩

theorem ranksBefore_asymm {a b : DeviceHeat} (h1 : ranksBefore a b) (h2 : ranksBefore b a) :
    False := by
  rcases h1 with h1 | ⟨h1, h1s⟩ <;> rcases h2 with h2 | ⟨h2, h2s⟩
  · exact lt_asymm h1 h2
  · rw [h2] at h1; exact lt_irrefl _ h1
  · rw [h1] at h2; exact lt_irrefl _ h2
  · exact lt_asymm h1s h2s

theorem sortSlice_ranked {devices : Devices} (hwf : WF devices) :
    (sortSlice devices).Pairwise ranksBefore := by
  have hs := (sortSlice_contract devices).2
  have hk : (keys (sortSlice devices)).Nodup :=
    ((sortSlice_contract devices).1.map _).nodup_iff.mpr hwf
  unfold keys at hk
  rw [List.Nodup, List.pairwise_map] at hk
  exact (hs.and hk).imp (fun h => ranksBefore_of_notAfter h.1 h.2)

theorem nodup_of_WF {devices : Devices} (hwf : WF devices) : devices.Nodup :=
  List.Nodup.of_map _ hwf


/-- A run of the model: equal heats are ordered by address, and a height of 2
keeps the first two entries. -/
theorem getSortedDevices_example :
    getSortedDevices [⟨"B", 50000⟩, ⟨"C", 700⟩, ⟨"A", 50000⟩] 2 =
      some [⟨"A", 50000⟩, ⟨"B", 50000⟩] := by
  simp [getSortedDevices, getSortedDevicesWith, sortSlice, List.insertionSort,
    List.orderedInsert, notAfter, less, String.lt_iff_toList_lt]
  decide

/-! ## Rounding lemmas -/

theorem roundHalfEven_err (x : ℚ) : |(roundHalfEven x : ℚ) - x| ≤ 1 / 2 := by
  have h1 := Int.floor_le x
  have h2 := Int.lt_floor_add_one x
  unfold roundHalfEven
  simp only
  split_ifs with a b c
  · rw [abs_le]; constructor <;> linarith
  · rw [abs_le]; push_cast; constructor <;> linarith
  · rw [abs_le]; constructor <;> linarith
  · rw [abs_le]; push_cast; constructor <;> linarith

theorem roundHalfEven_eq {x : ℚ} {n : ℤ} (h : |x - n| < 1 / 2) : roundHalfEven x = n := by
  rw [abs_lt] at h
  unfold roundHalfEven
  simp only
  by_cases hx : (n : ℚ) ≤ x
  · have hf : ⌊x⌋ = n := by
      rw [Int.floor_eq_iff]
      exact ⟨hx, by linarith⟩
    rw [hf, if_pos (by linarith)]
  · have hf : ⌊x⌋ = n - 1 := by
      rw [Int.floor_eq_iff]
      push_cast
      exact ⟨by linarith, by linarith⟩
    have h1 : ¬ (x - ((n - 1 : ℤ) : ℚ) < 1 / 2) := by push_cast; linarith
    rw [hf, if_neg h1, if_pos (by push_cast; linarith)]
    ring

theorem roundHalfEven_int (n : ℤ) : roundHalfEven (n : ℚ) = n :=
  roundHalfEven_eq (by simp)

theorem fl_zero : fl 0 = 0 := by
  unfold fl
  have h := roundHalfEven_int 0
  rw [Int.cast_zero] at h
  rw [zero_div, h]
  simp

theorem log_eq_of_bounds {x : ℚ} {e : ℤ} (h1 : (2 : ℚ) ^ e ≤ |x|) (h2 : |x| < 2 ^ (e + 1)) :
    Int.log 2 |x| = e := by
  have hpos : 0 < |x| := lt_of_lt_of_le (by positivity) h1
  have ha : e ≤ Int.log 2 |x| := (Int.zpow_le_iff_le_log (by norm_num) hpos).mp (by exact_mod_cast h1)
  have hb : Int.log 2 |x| < e + 1 := (Int.lt_zpow_iff_log_lt (by norm_num) hpos).mp (by exact_mod_cast h2)
  omega

theorem ulpExp_of_bounds {x : ℚ} {e : ℤ} (h1 : (2 : ℚ) ^ e ≤ |x|) (h2 : |x| < 2 ^ (e + 1))
    (he : -1022 ≤ e) : ulpExp x = e - 52 := by
  unfold ulpExp
  rw [log_eq_of_bounds h1 h2, max_eq_left (by omega)]

/-- Evaluation of `fl` from the binade and the nearest significand. -/
theorem fl_eval {x : ℚ} (e n : ℤ) (h1 : (2 : ℚ) ^ e ≤ |x|) (h2 : |x| < 2 ^ (e + 1))
    (he : -1022 ≤ e) (hn : |x / 2 ^ (e - 52) - n| < 1 / 2) : fl x = n * 2 ^ (e - 52) := by
  unfold fl
  rw [ulpExp_of_bounds h1 h2 he, roundHalfEven_eq hn]

/-- Relative error of one rounding step in the normal range. -/
theorem fl_err {x : ℚ} (hx : (2 : ℚ) ^ (-1022 : ℤ) ≤ |x|) : |fl x - x| ≤ |x| * 2 ^ (-53 : ℤ) := by
  have hpos : 0 < |x| := lt_of_lt_of_le (by positivity) hx
  have hlog : (-1022 : ℤ) ≤ Int.log 2 |x| :=
    (Int.zpow_le_iff_le_log (by norm_num) hpos).mp (by exact_mod_cast hx)
  have hle : (2 : ℚ) ^ (Int.log 2 |x|) ≤ |x| := by
    exact_mod_cast Int.zpow_log_le_self (b := 2) (by norm_num) hpos
  have hu : ulpExp x = Int.log 2 |x| - 52 := by
    unfold ulpExp
    rw [max_eq_left (by omega)]
  unfold fl
  rw [hu]
  set e := Int.log 2 |x| with he
  have hupos : (0 : ℚ) < 2 ^ (e - 52) := by positivity
  have hr := roundHalfEven_err (x / 2 ^ (e - 52))
  have hfac : (roundHalfEven (x / 2 ^ (e - 52)) : ℚ) * 2 ^ (e - 52) - x =
      ((roundHalfEven (x / 2 ^ (e - 52)) : ℚ) - x / 2 ^ (e - 52)) * 2 ^ (e - 52) := by
    field_simp
  rw [hfac, abs_mul, abs_of_pos hupos]
  have hsplit : (2 : ℚ) ^ (e - 52) = 2 ^ e * 2 ^ (-52 : ℤ) := by
    rw [← zpow_add₀ (by norm_num : (2 : ℚ) ≠ 0)]
    congr 1
  have h53 : (2 : ℚ) ^ (-53 : ℤ) = 1 / 2 * 2 ^ (-52 : ℤ) := by norm_num
  calc |(roundHalfEven (x / 2 ^ (e - 52)) : ℚ) - x / 2 ^ (e - 52)| * 2 ^ (e - 52)
      ≤ 1 / 2 * 2 ^ (e - 52) := by
        exact mul_le_mul_of_nonneg_right hr (le_of_lt hupos)
    _ = 2 ^ e * 2 ^ (-53 : ℤ) := by rw [hsplit, h53]; ring
    _ ≤ |x| * 2 ^ (-53 : ℤ) := by
        exact mul_le_mul_of_nonneg_right hle (by positivity)

theorem small_le_of_pos {x : ℚ} (hx : 1 / 2 ^ 64 ≤ x) : (2 : ℚ) ^ (-1022 : ℤ) ≤ |x| := by
  rw [abs_of_pos (lt_of_lt_of_le (by norm_num) hx)]
  have h1 : (2 : ℚ) ^ (-1022 : ℤ) ≤ 2 ^ (-64 : ℤ) :=
    zpow_le_zpow_right₀ (by norm_num) (by norm_num)
  have h2 : (2 : ℚ) ^ (-64 : ℤ) = 1 / 2 ^ 64 := by
    norm_num
  exact le_trans (h2 ▸ h1) hx

/-- One rounding step moves a positive normal number by at most `2 ^ (-53)` of it. -/
theorem fl_near {x : ℚ} (hx : 1 / 2 ^ 64 ≤ x) :
    x - x * (1 / 9007199254740992) ≤ fl x ∧ fl x ≤ x + x * (1 / 9007199254740992) := by
  have hpos : 0 < x := lt_of_lt_of_le (by norm_num) hx
  have h1 := fl_err (small_le_of_pos hx)
  have he : (2 : ℚ) ^ (-53 : ℤ) = 1 / 9007199254740992 := by norm_num
  rw [abs_of_pos hpos, he, abs_le] at h1
  constructor <;> linarith

/-- The same for a negative normal number. -/
theorem fl_near_neg {x : ℚ} (hx : x ≤ -(1 / 2 ^ 64)) :
    x + x * (1 / 9007199254740992) ≤ fl x ∧ fl x ≤ x - x * (1 / 9007199254740992) := by
  have hneg : x < 0 := lt_of_le_of_lt hx (by norm_num)
  have hx2 : 1 / 2 ^ 64 ≤ -x := by linarith
  have h1 := fl_err (by rw [← abs_neg]; exact small_le_of_pos hx2)
  have he : (2 : ℚ) ^ (-53 : ℤ) = 1 / 9007199254740992 := by norm_num
  rw [abs_of_neg hneg, he, abs_le] at h1
  constructor <;> linarith

/-- Integers below `2 ^ 53` in magnitude are `float64` values. -/
theorem fl_int (n : ℤ) (hn : |n| < 2 ^ 53) : fl (n : ℚ) = n := by
  by_cases h0 : n = 0
  · subst h0; simpa using fl_zero
  have hpos : (0 : ℚ) < |(n : ℚ)| := abs_pos.mpr (by exact_mod_cast h0)
  have h1 : (1 : ℚ) ≤ |(n : ℚ)| := by
    have : (1 : ℤ) ≤ |n| := Int.one_le_abs h0
    exact_mod_cast this
  have hlo : (0 : ℤ) ≤ Int.log 2 |(n : ℚ)| :=
    (Int.zpow_le_iff_le_log (by norm_num) hpos).mp (by simpa using h1)
  have hhi : Int.log 2 |(n : ℚ)| < 53 :=
    (Int.lt_zpow_iff_log_lt (by norm_num) hpos).mp (by
      have : ((|n| : ℤ) : ℚ) < ((2 ^ 53 : ℤ) : ℚ) := by exact_mod_cast hn
      push_cast at this
      exact_mod_cast this)
  have hu : ulpExp (n : ℚ) = Int.log 2 |(n : ℚ)| - 52 := by
    unfold ulpExp
    rw [max_eq_left (by omega)]
  unfold fl
  rw [hu]
  set e := Int.log 2 |(n : ℚ)| with he
  obtain ⟨k, hk⟩ : ∃ k : ℕ, e - 52 = -(k : ℤ) := ⟨(52 - e).toNat, by omega⟩
  rw [hk]
  have hdiv : (n : ℚ) / 2 ^ (-(k : ℤ)) = ((n * 2 ^ k : ℤ) : ℚ) := by
    rw [zpow_neg, zpow_natCast]
    push_cast
    field_simp
  rw [hdiv, roundHalfEven_int, zpow_neg, zpow_natCast]
  push_cast
  field_simp


theorem mathRound_err (x : ℚ) : |(mathRound x : ℚ) - x| ≤ 1 / 2 := by
  unfold mathRound
  split
  · have h1 := Int.floor_le (x + 1 / 2)
    have h2 := Int.lt_floor_add_one (x + 1 / 2)
    rw [abs_le]; constructor <;> linarith
  · have h1 := Int.floor_le (-x + 1 / 2)
    have h2 := Int.lt_floor_add_one (-x + 1 / 2)
    rw [abs_le]; push_cast; constructor <;> linarith

theorem mathRound_int (n : ℤ) : mathRound (n : ℚ) = n := by
  unfold mathRound
  split
  · rw [Int.floor_eq_iff]; constructor <;> linarith
  · have : ⌊-(n : ℚ) + 1 / 2⌋ = -n := by
      rw [Int.floor_eq_iff]; push_cast; constructor <;> linarith
    rw [this]; ring

/-- An integer within one half of `x` is a nearest integer to any fraction
`N / D` that lies closer to `x` than `1 / (2 D)`. -/
theorem nearest_of_close {x : ℚ} {w N D : ℤ} (hD : 0 < D) (hw : |(w : ℚ) - x| ≤ 1 / 2)
    (hx : |x - (N : ℚ) / (D : ℚ)| < 1 / (2 * (D : ℚ))) :
    2 * N - D ≤ 2 * D * w ∧ 2 * D * w ≤ 2 * N + D := by
  have hDq : (0 : ℚ) < (D : ℚ) := by exact_mod_cast hD
  rw [abs_le] at hw
  rw [abs_lt] at hx
  have e1 : (N : ℚ) / D * (2 * D) = 2 * N := by field_simp; ring
  have e2 : 1 / (2 * (D : ℚ)) * (2 * D) = 1 := by field_simp
  have hx1 := mul_lt_mul_of_pos_right hx.1 (by linarith : (0 : ℚ) < 2 * D)
  have hx2 := mul_lt_mul_of_pos_right hx.2 (by linarith : (0 : ℚ) < 2 * D)
  have hw1 := mul_le_mul_of_nonneg_right hw.1 (by linarith : (0 : ℚ) ≤ 2 * D)
  have hw2 := mul_le_mul_of_nonneg_right hw.2 (by linarith : (0 : ℚ) ≤ 2 * D)
  have a1 : ((2 * N - D - 1 : ℤ) : ℚ) < ((2 * D * w : ℤ) : ℚ) := by
    push_cast; nlinarith
  have a2 : ((2 * D * w : ℤ) : ℚ) < ((2 * N + D + 1 : ℤ) : ℚ) := by
    push_cast; nlinarith
  have b1 : 2 * N - D - 1 < 2 * D * w := by exact_mod_cast a1
  have b2 : 2 * D * w < 2 * N + D + 1 := by exact_mod_cast a2
  omega

/-- Error of the two rounding steps `fl (fl a * B)` for a ratio `a ≤ 1`. -/
theorem fl_mul_err {a B : ℚ} (ha0 : 1 / 2 ^ 30 ≤ a) (ha1 : a ≤ 1) (hB1 : 1 ≤ B) :
    |fl (fl a * B) - a * B| ≤ B * (2 / 9007199254740992 + 1 / 9007199254740992 ^ 2) := by
  have hapos : 0 < a := lt_of_lt_of_le (by norm_num) ha0
  have h1 := fl_near (le_trans (by norm_num) ha0)
  have hypos : 1 / 2 ^ 64 ≤ fl a * B := by
    have : 1 / 2 ^ 31 ≤ fl a * B := by nlinarith
    exact le_trans (by norm_num) this
  have h2 := fl_near hypos
  rw [abs_le]
  have hk1 : (fl a - a) * B ≤ a * (1 / 9007199254740992) * B :=
    mul_le_mul_of_nonneg_right (by linarith) (by linarith)
  have hk2 : -(a * (1 / 9007199254740992)) * B ≤ (fl a - a) * B :=
    mul_le_mul_of_nonneg_right (by linarith) (by linarith)
  have hk3 : a * B ≤ B := by nlinarith
  constructor <;> nlinarith

theorem fl_one : fl 1 = 1 := by
  have := fl_int 1 (by norm_num)
  simpa using this

theorem fl_width {B : ℤ} (hB : 10 ≤ B) (hB2 : B ≤ 2 ^ 30) : fl (B : ℚ) = B :=
  fl_int B (by rw [abs_of_nonneg (by omega)]; exact lt_of_le_of_lt hB2 (by norm_num))

/-- A quotient of at least 1 is clamped to exactly 1. -/
theorem clamp_of_ge_one {a : ℚ} (ha : a = 1 ∨ 1 + 1 / 1500000 ≤ a) :
    (if fl a > 1 then 1 else fl a) = 1 := by
  rcases ha with ha | ha
  · rw [ha, fl_one]; simp
  · have h1 := fl_near (le_trans (by norm_num) ha)
    rw [if_pos]
    have : 1 < fl a := by nlinarith
    exact this

/-- A quotient in `[2 ^ (-30), 1 - 1 / 1500000]` is not clamped, and the width
computed from it is a nearest integer to the exact product. -/
theorem width_nearest {N D B : ℤ} (hD : 0 < D) (hD2 : D ≤ 1500000) (hN0 : 0 < N) (hN : N < D)
    (hB : 10 ≤ B) (hB2 : B ≤ 2 ^ 30) :
    ¬ fl ((N : ℚ) / (D : ℚ)) > 1 ∧
      2 * (N * B) - D ≤ 2 * D * mathRound (fl (fl ((N : ℚ) / (D : ℚ)) * fl (B : ℚ))) ∧
      2 * D * mathRound (fl (fl ((N : ℚ) / (D : ℚ)) * fl (B : ℚ))) ≤ 2 * (N * B) + D := by
  have hBq : (10 : ℚ) ≤ (B : ℚ) := by exact_mod_cast hB
  have hBq2 : (B : ℚ) ≤ 2 ^ 30 := by exact_mod_cast hB2
  have hDq : (0 : ℚ) < (D : ℚ) := by exact_mod_cast hD
  have hDq2 : (D : ℚ) ≤ 1500000 := by exact_mod_cast hD2
  have hq0 : (1 : ℚ) ≤ (N : ℚ) := by exact_mod_cast hN0
  have hq1 : (N : ℚ) + 1 ≤ (D : ℚ) := by exact_mod_cast hN
  have ha0 : 1 / 2 ^ 30 ≤ (N : ℚ) / (D : ℚ) := by
    rw [le_div_iff₀ hDq]; norm_num; linarith
  have ha1 : (N : ℚ) / (D : ℚ) ≤ 1 - 1 / 1500000 := by
    rw [div_le_iff₀ hDq]; nlinarith
  have h1 := fl_near (le_trans (by norm_num) ha0)
  have hnc : ¬ fl ((N : ℚ) / (D : ℚ)) > 1 := by
    rw [not_lt]; nlinarith
  have hmul := fl_mul_err ha0 (le_trans ha1 (by norm_num)) (le_trans (by norm_num) hBq)
  refine ⟨hnc, ?_⟩
  rw [fl_width hB hB2]
  have hclose : |fl (fl ((N : ℚ) / (D : ℚ)) * (B : ℚ)) - ((N * B : ℤ) : ℚ) / (D : ℚ)|
      < 1 / (2 * (D : ℚ)) := by
    have e : ((N * B : ℤ) : ℚ) / (D : ℚ) = (N : ℚ) / (D : ℚ) * B := by
      push_cast; ring
    rw [e]
    refine lt_of_le_of_lt hmul ?_
    have h3 : (B : ℚ) * (2 / 9007199254740992 + 1 / 9007199254740992 ^ 2) ≤
        2 ^ 30 * (2 / 9007199254740992 + 1 / 9007199254740992 ^ 2) :=
      mul_le_mul_of_nonneg_right hBq2 (by norm_num)
    refine lt_of_le_of_lt h3 ?_
    rw [lt_div_iff₀ (by linarith)]
    nlinarith
  exact nearest_of_close hD (mathRound_err _) hclose

theorem heatWidth_zero (B : Int) : heatWidth 0 B = 0 := by
  unfold heatWidth heatRatio
  simp only [Int.cast_zero, zero_div, fl_zero]
  rw [if_neg (by norm_num), zero_mul, fl_zero]
  exact mathRound_int 0

theorem heatWidth_full (h B : Int) (hh : 150000 ≤ h) (hB : 10 ≤ B) (hB2 : B ≤ 2 ^ 30) :
    heatWidth h B = B := by
  unfold heatWidth heatRatio
  simp only
  rw [clamp_of_ge_one, one_mul, fl_width hB hB2, fl_width hB hB2, mathRound_int]
  have hM : ((MaxBytes : Int) : ℚ) = 150000 := by simp [MaxBytes]
  rw [hM]
  rcases eq_or_lt_of_le hh with he | hlt
  · left; rw [← he]; norm_num
  · right
    have : (150001 : ℚ) ≤ (h : ℚ) := by exact_mod_cast hlt
    rw [le_div_iff₀ (by norm_num)]
    linarith

theorem heatWidth_mid (h B : Int) (h0 : 0 < h) (hh : h < 150000) (hB : 10 ≤ B)
    (hB2 : B ≤ 2 ^ 30) :
    2 * (h * B) - 150000 ≤ 2 * 150000 * heatWidth h B ∧
      2 * 150000 * heatWidth h B ≤ 2 * (h * B) + 150000 := by
  have hw := width_nearest (N := h) (D := 150000) (by norm_num) (by norm_num) h0 hh hB hB2
  unfold heatWidth heatRatio
  simp only [MaxBytes]
  rw [if_neg hw.1]
  exact hw.2

theorem heatRatioTwo_neg (h : Int) (hh : h < 150000) : heatRatioTwo h < 0 := by
  have ht : (h : ℚ) - 150000 ≤ -1 := by
    have : h - 150000 ≤ -1 := by omega
    exact_mod_cast this
  have h1 := fl_near_neg (le_trans ht (by norm_num))
  have hs : fl ((h : ℚ) - 150000) / 1500000 ≤ -(1 / 2 ^ 64) := by
    rw [div_le_iff₀ (by norm_num)]
    nlinarith
  have h2 := fl_near_neg hs
  have hneg : fl (fl ((h : ℚ) - 150000) / 1500000) < 0 := by
    have : fl ((h : ℚ) - 150000) / 1500000 < 0 := lt_of_le_of_lt hs (by norm_num)
    nlinarith
  unfold heatRatioTwo
  simp only [MaxBytes]
  push_cast
  norm_num only at hneg ⊢
  rw [if_neg (by linarith)]
  exact hneg

theorem heatRatioTwo_unfold (h : Int) :
    heatRatioTwo h = if fl (fl ((h : ℚ) - 150000) / 1500000) > 1 then 1
      else fl (fl ((h : ℚ) - 150000) / 1500000) := by
  unfold heatRatioTwo
  simp only [MaxBytes]
  norm_num

theorem heatWidthTwo_low (h B : Int) (hh : h ≤ 150000) : heatWidthTwo h B = 0 := by
  rcases eq_or_lt_of_le hh with he | hlt
  · have hr : heatRatioTwo h = 0 := by
      rw [heatRatioTwo_unfold, he]
      norm_num [fl_zero]
    unfold heatWidthTwo
    simp only [hr, zero_mul, fl_zero, lt_irrefl, if_false]
    exact mathRound_int 0
  · unfold heatWidthTwo
    simp only
    rw [if_pos (heatRatioTwo_neg h hlt)]

theorem heatRatioTwo_full (h : Int) (hh : 1650000 ≤ h) : heatRatioTwo h = 1 := by
  rw [heatRatioTwo_unfold]
  apply clamp_of_ge_one
  have hq : (1650000 : ℚ) ≤ (h : ℚ) := by exact_mod_cast hh
  by_cases hbig : h - 150000 < 2 ^ 53
  · have hex : fl ((h : ℚ) - 150000) = (h : ℚ) - 150000 := by
      have := fl_int (h - 150000) (by rw [abs_of_nonneg (by omega)]; exact hbig)
      push_cast at this
      exact this
    rw [hex]
    rcases eq_or_lt_of_le hh with he | hlt
    · left; rw [← he]; norm_num
    · right
      have : (1650001 : ℚ) ≤ (h : ℚ) := by exact_mod_cast hlt
      rw [le_div_iff₀ (by norm_num)]
      linarith
  · right
    have hq2 : (2 : ℚ) ^ 53 ≤ (h : ℚ) - 150000 := by
      have : (2 : ℤ) ^ 53 ≤ h - 150000 := by omega
      exact_mod_cast this
    have h1 := fl_near (le_trans (by norm_num) hq2)
    rw [le_div_iff₀ (by norm_num)]
    nlinarith

theorem heatWidthTwo_full (h B : Int) (hh : 1650000 ≤ h) (hB : 10 ≤ B) (hB2 : B ≤ 2 ^ 30) :
    heatWidthTwo h B = B := by
  unfold heatWidthTwo
  simp only [heatRatioTwo_full h hh]
  rw [if_neg (by norm_num), one_mul, fl_width hB hB2, fl_width hB hB2, mathRound_int]

theorem heatWidthTwo_mid (h B : Int) (h0 : 150000 < h) (hh : h < 1650000) (hB : 10 ≤ B)
    (hB2 : B ≤ 2 ^ 30) :
    2 * ((h - 150000) * B) - 1500000 ≤ 2 * 1500000 * heatWidthTwo h B ∧
      2 * 1500000 * heatWidthTwo h B ≤ 2 * ((h - 150000) * B) + 1500000 := by
  have hw := width_nearest (N := h - 150000) (D := 1500000) (by norm_num) (by norm_num)
    (by omega) (by omega) hB hB2
  have hex : fl ((h : ℚ) - 150000) = ((h - 150000 : ℤ) : ℚ) := by
    have := fl_int (h - 150000) (by rw [abs_of_nonneg (by omega)]; omega)
    push_cast at this ⊢
    exact this
  have hr : heatRatioTwo h = fl (((h - 150000 : ℤ) : ℚ) / ((1500000 : ℤ) : ℚ)) := by
    rw [heatRatioTwo_unfold, hex]
    have := hw.1
    push_cast at this ⊢
    rw [if_neg this]
  have hpos : ¬ heatRatioTwo h < 0 := by
    rw [hr, not_lt]
    have hN : (1 : ℚ) ≤ ((h - 150000 : ℤ) : ℚ) := by
      have : (1 : ℤ) ≤ h - 150000 := by omega
      exact_mod_cast this
    have ha : 1 / 2 ^ 64 ≤ ((h - 150000 : ℤ) : ℚ) / ((1500000 : ℤ) : ℚ) := by
      rw [le_div_iff₀ (by norm_num)]
      push_cast at hN ⊢
      linarith
    have h1 := fl_near ha
    have : 0 < ((h - 150000 : ℤ) : ℚ) / ((1500000 : ℤ) : ℚ) := lt_of_lt_of_le (by norm_num) ha
    nlinarith
  unfold heatWidthTwo
  simp only
  rw [if_neg hpos, hr]
  exact hw.2

theorem mathRound_eq {x : ℚ} {n : ℤ} (hx : 0 ≤ x) (h1 : (n : ℚ) ≤ x + 1 / 2)
    (h2 : x + 1 / 2 < (n : ℚ) + 1) : mathRound x = n := by
  unfold mathRound
  rw [if_pos hx, Int.floor_eq_iff]
  exact ⟨h1, h2⟩

/-- The `float64` nearest to 0.58. -/
theorem fl_058 : fl (29 / 50) = 5224175567749775 * 2 ^ (-53 : ℤ) := by
  have h := fl_eval (x := 29 / 50) (-1) 5224175567749775
    (by rw [abs_of_pos (by norm_num)]; norm_num)
    (by rw [abs_of_pos (by norm_num)]; norm_num)
    (by norm_num)
    (by rw [abs_lt]; norm_num)
  rw [h]
  norm_num

/-- The `float64` nearest to 0.29. -/
theorem fl_029 : fl (29 / 100) = 5224175567749775 * 2 ^ (-54 : ℤ) := by
  have h := fl_eval (x := 29 / 100) (-2) 5224175567749775
    (by rw [abs_of_pos (by norm_num)]; norm_num)
    (by rw [abs_of_pos (by norm_num)]; norm_num)
    (by norm_num)
    (by rw [abs_lt]; norm_num)
  rw [h]
  norm_num

/-- The rounded product of the `float64` 0.58 with 25 (and of 0.29 with 50)
lies below 14.5. -/
theorem fl_prod : fl (5224175567749775 * 2 ^ (-53 : ℤ) * 25) =
    8162774324609023 * 2 ^ (-49 : ℤ) := by
  have h := fl_eval (x := 5224175567749775 * 2 ^ (-53 : ℤ) * 25) 3 8162774324609023
    (by rw [abs_of_pos (by norm_num)]; norm_num)
    (by rw [abs_of_pos (by norm_num)]; norm_num)
    (by norm_num)
    (by rw [abs_lt]; norm_num)
  rw [h]
  norm_num

theorem heatWidth_87000_25 : heatWidth 87000 25 = 14 := by
  have h25 : fl ((25 : ℤ) : ℚ) = 25 := by
    have := fl_int 25 (by norm_num)
    simpa using this
  unfold heatWidth heatRatio
  simp only [MaxBytes]
  have e : ((87000 : ℤ) : ℚ) / ((150000 : ℤ) : ℚ) = 29 / 50 := by norm_num
  rw [e, fl_058, if_neg (by norm_num), h25, fl_prod]
  exact mathRound_eq (by norm_num) (by norm_num) (by norm_num)

theorem specTierOneWidth_87000_25 : specTierOneWidth 87000 25 = 15 := by
  unfold specTierOneWidth specClamp
  simp only [MaxBytes]
  have e : max (0 : ℚ) (min (((87000 : ℤ) : ℚ) / ((150000 : ℤ) : ℚ)) 1) * ((25 : ℤ) : ℚ)
      = 29 / 2 := by
    rw [min_eq_left (by norm_num), max_eq_right (by norm_num)]
    norm_num
  rw [e]
  exact mathRound_eq (by norm_num) (by norm_num) (by norm_num)

theorem heatWidthTwo_585000_50 : heatWidthTwo 585000 50 = 14 := by
  have h50 : fl ((50 : ℤ) : ℚ) = 50 := by
    have := fl_int 50 (by norm_num)
    simpa using this
  have hsub : fl (((585000 : ℤ) : ℚ) - 150000) = 435000 := by
    have := fl_int 435000 (by norm_num)
    norm_num at this ⊢
    exact this
  have hr : heatRatioTwo 585000 = 5224175567749775 * 2 ^ (-54 : ℤ) := by
    rw [heatRatioTwo_unfold, hsub]
    have e : (435000 : ℚ) / 1500000 = 29 / 100 := by norm_num
    rw [e, fl_029, if_neg (by norm_num)]
  have hp : (5224175567749775 : ℚ) * 2 ^ (-54 : ℤ) * 50 =
      5224175567749775 * 2 ^ (-53 : ℤ) * 25 := by norm_num
  unfold heatWidthTwo
  simp only [hr]
  rw [if_neg (by norm_num), h50, hp, fl_prod]
  exact mathRound_eq (by norm_num) (by norm_num) (by norm_num)

theorem specTierTwoWidth_585000_50 : specTierTwoWidth 585000 50 = 15 := by
  unfold specTierTwoWidth specClamp
  simp only [MaxBytes]
  have e : max (0 : ℚ) (min ((((585000 : ℤ) : ℚ) - ((150000 : ℤ) : ℚ)) /
      (((150000 : ℤ) : ℚ) * 10)) 1) * ((50 : ℤ) : ℚ) = 29 / 2 := by
    rw [min_eq_left (by norm_num), max_eq_right (by norm_num)]
    norm_num
  rw [e]
  exact mathRound_eq (by norm_num) (by norm_num) (by norm_num)

theorem repr_digit_length : ∀ n < 10, (Nat.repr n).length = 1 := by decide

/-- Shape of `%.1f` on a non-negative value. -/
theorem fmtFixed_one {x : ℚ} (hx : 0 ≤ x) :
    fmtFixed 1 x = Nat.repr ((roundHalfEven (x * 10)).toNat / 10) ++ "." ++
      Nat.repr ((roundHalfEven (x * 10)).toNat % 10) := by
  unfold fmtFixed
  simp only [abs_of_nonneg hx, pow_one, if_neg (not_lt.mpr hx), one_ne_zero, if_false]
  rw [repr_digit_length _ (Nat.mod_lt _ (by norm_num))]
  simp [String.pushn, Nat.repeat]

/-- The verb `%.0f` on a non-negative integer prints the integer. -/
theorem fmtFixed_zero_int {n : ℤ} (hn : 0 ≤ n) : fmtFixed 0 (n : ℚ) = Nat.repr n.toNat := by
  have h0 : (0 : ℚ) ≤ (n : ℚ) := by exact_mod_cast hn
  unfold fmtFixed
  simp only [abs_of_nonneg h0, pow_zero, mul_one, if_neg (not_lt.mpr h0), if_true,
    roundHalfEven_int, Nat.div_one]
  simp

/-- The digits printed for a quotient `h / D` are those of a nearest tenth. -/
theorem tenths_nearest {h D : ℤ} (hD : 0 < D) (hlo : D ≤ h) (hhi : h < 2 ^ 48) :
    0 ≤ fl ((h : ℚ) / (D : ℚ)) ∧ 0 ≤ roundHalfEven (fl ((h : ℚ) / (D : ℚ)) * 10) ∧
      2 * (10 * h) - D ≤ 2 * D * roundHalfEven (fl ((h : ℚ) / (D : ℚ)) * 10) ∧
      2 * D * roundHalfEven (fl ((h : ℚ) / (D : ℚ)) * 10) ≤ 2 * (10 * h) + D := by
  have hDq : (0 : ℚ) < (D : ℚ) := by exact_mod_cast hD
  have hloq : (D : ℚ) ≤ (h : ℚ) := by exact_mod_cast hlo
  have hhiq : (h : ℚ) < 2 ^ 48 := by exact_mod_cast hhi
  have hD1 : (1 : ℚ) ≤ (D : ℚ) := by exact_mod_cast hD
  have ha : 1 ≤ (h : ℚ) / (D : ℚ) := by rw [le_div_iff₀ hDq]; linarith
  have h1 := fl_near (le_trans (by norm_num) ha)
  have hx0 : 0 ≤ fl ((h : ℚ) / (D : ℚ)) := by nlinarith
  have hclose : |fl ((h : ℚ) / (D : ℚ)) * 10 - ((10 * h : ℤ) : ℚ) / (D : ℚ)|
      < 1 / (2 * (D : ℚ)) := by
    have e : ((10 * h : ℤ) : ℚ) / (D : ℚ) = (h : ℚ) / (D : ℚ) * 10 := by
      push_cast; ring
    have hq : (h : ℚ) / (D : ℚ) * (1 / 9007199254740992) * 10 < 1 / (2 * (D : ℚ)) := by
      rw [div_mul_eq_mul_div, div_mul_eq_mul_div, div_lt_div_iff₀ hDq (by linarith)]
      nlinarith
    rw [e, abs_lt]
    constructor <;> nlinarith
  have hn := nearest_of_close hD (roundHalfEven_err _) hclose
  refine ⟨hx0, ?_, hn⟩
  by_contra hneg
  rw [not_le] at hneg
  have h3 : 2 * (10 * h) - D ≤ 2 * D * roundHalfEven (fl ((h : ℚ) / (D : ℚ)) * 10) := hn.1
  have h4 : 2 * D * roundHalfEven (fl ((h : ℚ) / (D : ℚ)) * 10) ≤ 2 * D * (-1) :=
    Int.mul_le_mul_of_nonneg_left (by omega) (by omega)
  omega


/-! ## Bar width lemmas -/

theorem specClamp_div (n D : ℤ) (hD : 0 < D) :
    specClamp ((n : ℚ) / (D : ℚ)) 0 1 = ((min (max n 0) D : ℤ) : ℚ) / (D : ℚ) := by
  have hDq : (0 : ℚ) < (D : ℚ) := by exact_mod_cast hD
  unfold specClamp
  rcases le_total n 0 with hn | hn
  · have hq : (n : ℚ) / (D : ℚ) ≤ 0 := div_nonpos_of_nonpos_of_nonneg (by exact_mod_cast hn) hDq.le
    rw [min_eq_left (by linarith), max_eq_left hq, max_eq_right hn, min_eq_left hD.le]
    simp
  · rw [max_eq_left hn]
    rcases le_total n D with hnD | hnD
    · have hq : (n : ℚ) / (D : ℚ) ≤ 1 := by
        rw [div_le_one hDq]; exact_mod_cast hnD
      rw [min_eq_left hq, min_eq_left hnD, max_eq_right (div_nonneg (by exact_mod_cast hn) hDq.le)]
    · have hq : 1 ≤ (n : ℚ) / (D : ℚ) := by
        rw [one_le_div hDq]; exact_mod_cast hnD
      rw [min_eq_right hq, min_eq_right hnD, max_eq_right (by norm_num), div_self hDq.ne.symm]

/-- The exact rounding of `c * B / D` is a nearest integer to it. -/
theorem spec_nearest (c B D : ℤ) (hD : 0 < D) :
    2 * (c * B) - D ≤ 2 * D * mathRound ((c : ℚ) / (D : ℚ) * (B : ℚ)) ∧
      2 * D * mathRound ((c : ℚ) / (D : ℚ) * (B : ℚ)) ≤ 2 * (c * B) + D := by
  have hDq : (0 : ℚ) < (D : ℚ) := by exact_mod_cast hD
  apply nearest_of_close hD (mathRound_err _)
  have e : ((c * B : ℤ) : ℚ) / (D : ℚ) = (c : ℚ) / (D : ℚ) * B := by
    push_cast; ring
  rw [e, sub_self, abs_zero]
  positivity

theorem specTierOneWidth_nearest (h B : Int) (h0 : 0 ≤ h) :
    2 * (min h 150000 * B) - 150000 ≤ 2 * 150000 * specTierOneWidth h B ∧
      2 * 150000 * specTierOneWidth h B ≤ 2 * (min h 150000 * B) + 150000 := by
  have hs := spec_nearest (min h 150000) B 150000 (by norm_num)
  have hc := specClamp_div h 150000 (by norm_num)
  rw [max_eq_left h0] at hc
  unfold specTierOneWidth
  simp only [MaxBytes]
  rw [hc]
  exact hs

theorem specTierTwoWidth_nearest (h B : Int) :
    2 * (min (max (h - 150000) 0) 1500000 * B) - 1500000 ≤
        2 * 1500000 * specTierTwoWidth h B ∧
      2 * 1500000 * specTierTwoWidth h B ≤
        2 * (min (max (h - 150000) 0) 1500000 * B) + 1500000 := by
  have hs := spec_nearest (min (max (h - 150000) 0) 1500000) B 1500000 (by norm_num)
  have hc := specClamp_div (h - 150000) 1500000 (by norm_num)
  unfold specTierTwoWidth
  simp only [MaxBytes]
  have e : ((h : ℚ) - ((150000 : ℤ) : ℚ)) / (((150000 : ℤ) : ℚ) * 10) =
      ((h - 150000 : ℤ) : ℚ) / ((1500000 : ℤ) : ℚ) := by
    push_cast; norm_num
  rw [e, hc]
  exact hs

/-- The tier-one width of the code is a nearest integer to the exact product
`min h 150000 * B / 150000`. -/
theorem heatWidth_nearest (h B : Int) (h0 : 0 ≤ h) (hB : 10 ≤ B) (hB2 : B ≤ 2 ^ 30) :
    2 * (min h 150000 * B) - 150000 ≤ 2 * 150000 * heatWidth h B ∧
      2 * 150000 * heatWidth h B ≤ 2 * (min h 150000 * B) + 150000 := by
  rcases lt_or_le h 150000 with hlt | hge
  · rw [min_eq_left hlt.le]
    rcases eq_or_lt_of_le h0 with he | hpos
    · rw [← he, heatWidth_zero]
      omega
    · exact heatWidth_mid h B hpos hlt hB hB2
  · rw [min_eq_right hge, heatWidth_full h B hge hB hB2]
    omega

/-- The tier-two width of the code is a nearest integer to the exact product
`clamp (h - 150000) 0 1500000 * B / 1500000`. -/
theorem heatWidthTwo_nearest (h B : Int) (hB : 10 ≤ B) (hB2 : B ≤ 2 ^ 30) :
    2 * (min (max (h - 150000) 0) 1500000 * B) - 1500000 ≤
        2 * 1500000 * heatWidthTwo h B ∧
      2 * 1500000 * heatWidthTwo h B ≤
        2 * (min (max (h - 150000) 0) 1500000 * B) + 1500000 := by
  rcases le_or_lt h 150000 with hle | hgt
  · rw [max_eq_right (by omega), min_eq_left (by norm_num), heatWidthTwo_low h B hle]
    omega
  · rw [max_eq_left (by omega)]
    rcases lt_or_le h 1650000 with hlt | hge
    · rw [min_eq_left (by omega)]
      exact heatWidthTwo_mid h B hgt hlt hB hB2
    · rw [min_eq_right (by omega), heatWidthTwo_full h B hge hB hB2]
      omega


/-! ## Label lemmas -/

/-- The thousands branch of `formatHeat`: the digits of a nearest tenth of
`h / 1000`, then `k`. -/
theorem formatHeat_k {h : Int} (h1 : 1000 ≤ h) (h2 : h < 1000000) :
    ∃ d : ℕ, formatHeat h = Nat.repr (d / 10) ++ "." ++ Nat.repr (d % 10) ++ "k" ∧
      100 * (d : Int) - 50 ≤ h ∧ h ≤ 100 * (d : Int) + 50 := by
  have ht := tenths_nearest (h := h) (D := 1000) (by norm_num) h1
    (lt_trans h2 (by norm_num))
  refine ⟨(roundHalfEven (fl ((h : ℚ) / 1000) * 10)).toNat, ?_, ?_⟩
  · unfold formatHeat
    rw [if_neg (by omega), if_pos h2, fmtFixed_one (by simpa using ht.1)]
  · have hc : (((roundHalfEven (fl ((h : ℚ) / 1000) * 10)).toNat : ℕ) : Int) =
        roundHalfEven (fl ((h : ℚ) / 1000) * 10) := Int.toNat_of_nonneg (by simpa using ht.2.1)
    rw [hc]
    have h3 := ht.2.2
    push_cast at h3
    omega

/-- The millions branch of `formatHeat`: a one-decimal numeral, then `M`; the
numeral is a nearest tenth of `h / 1000000` as long as `h < 2 ^ 48`. -/
theorem formatHeat_M {h : Int} (h1 : 1000000 ≤ h) :
    ∃ d : ℕ, formatHeat h = Nat.repr (d / 10) ++ "." ++ Nat.repr (d % 10) ++ "M" ∧
      (h < 2 ^ 48 → 100000 * (d : Int) - 50000 ≤ h ∧ h ≤ 100000 * (d : Int) + 50000) := by
  have hq : (1000000 : ℚ) ≤ (h : ℚ) := by exact_mod_cast h1
  have ha : 1 / 2 ^ 64 ≤ (h : ℚ) / 1000000 := by
    rw [le_div_iff₀ (by norm_num)]
    linarith
  have hx0 : 0 ≤ fl ((h : ℚ) / 1000000) := by
    have h3 := fl_near ha
    have : 0 < (h : ℚ) / 1000000 := lt_of_lt_of_le (by norm_num) ha
    nlinarith
  refine ⟨(roundHalfEven (fl ((h : ℚ) / 1000000) * 10)).toNat, ?_, ?_⟩
  · unfold formatHeat
    rw [if_neg (by omega), if_neg (by omega), fmtFixed_one hx0]
  · intro hlt
    have ht := tenths_nearest (h := h) (D := 1000000) (by norm_num) h1 hlt
    have hc : (((roundHalfEven (fl ((h : ℚ) / 1000000) * 10)).toNat : ℕ) : Int) =
        roundHalfEven (fl ((h : ℚ) / 1000000) * 10) :=
      Int.toNat_of_nonneg (by simpa using ht.2.1)
    rw [hc]
    have h3 := ht.2.2
    push_cast at h3
    omega

/-- The units branch of `formatHeat` prints a non-negative integer heat as is. -/
theorem formatHeat_units {h : Int} (h0 : 0 ≤ h) (h1 : h < 1000) :
    formatHeat h = Nat.repr h.toNat := by
  unfold formatHeat
  rw [if_pos h1, fmtFixed_zero_int h0]

theorem formatHeat_cap : formatHeat 1000000 = "1.0M" := by
  obtain ⟨d, hd, hb⟩ := formatHeat_M (h := 1000000) (by norm_num)
  have hb2 := hb (by norm_num)
  have h10 : d = 10 := by omega
  rw [hd, h10]
  decide


/-! ## Registry key lemmas -/

theorem lookup_eq_none_iff (devices : Devices) (ip : String) :
    lookup devices ip = none ↔ ip ∉ keys devices := by
  unfold lookup keys
  rw [List.find?_eq_none]
  simp only [decide_eq_true_eq, List.mem_map, not_exists, not_and]

theorem keys_insertIfAbsent (devices : Devices) (ip : String) :
    keys (insertIfAbsent devices ip) =
      if ip ∈ keys devices then keys devices else keys devices ++ [ip] := by
  unfold insertIfAbsent
  cases hl : lookup devices ip with
  | some d =>
    have : ip ∈ keys devices := by
      by_contra hc
      rw [(lookup_eq_none_iff devices ip).mpr hc] at hl
      exact Option.noConfusion hl
    simp [this]
  | none =>
    have : ip ∉ keys devices := (lookup_eq_none_iff devices ip).mp hl
    rw [if_neg this]
    simp [keys]

theorem keys_updateHeat (devices : Devices) (ip : String) (size : Int) :
    keys (updateHeat devices ip size) =
      if ip ∈ keys devices then keys devices else keys devices ++ [ip] := by
  unfold updateHeat
  rw [keys_modify, keys_insertIfAbsent]

theorem WF_updateHeat {devices : Devices} (hwf : WF devices) (ip : String) (size : Int) :
    WF (updateHeat devices ip size) := by
  unfold WF at *
  rw [keys_updateHeat]
  split
  · exact hwf
  · rename_i hn
    rw [List.nodup_append]
    refine ⟨hwf, List.nodup_singleton _, ?_⟩
    intro a ha hb
    rw [List.mem_singleton] at hb
    exact hn (hb ▸ ha)

theorem heatOf_insertIfAbsent_other (devices : Devices) (ip ip2 : String) (hne : ip2 ≠ ip) :
    heatOf (insertIfAbsent devices ip) ip2 = heatOf devices ip2 := by
  unfold insertIfAbsent
  cases lookup devices ip with
  | some d => rfl
  | none =>
    unfold heatOf lookup
    rw [List.find?_append]
    have : List.find? (fun d => decide (d.IP = ip2)) [({ IP := ip, Heat := 0 } : DeviceHeat)]
        = none := by
      simp [List.find?, Ne.symm hne]
    rw [this, Option.or_none]

theorem heatOf_updateHeat_other (devices : Devices) (ip ip2 : String) (size : Int)
    (hne : ip2 ≠ ip) : heatOf (updateHeat devices ip size) ip2 = heatOf devices ip2 := by
  unfold updateHeat
  rw [lookup_modify_other _ _ _ _ hne, heatOf_insertIfAbsent_other _ _ _ hne]

theorem keys_decayVisit (order : List String) (devices : Devices) :
    keys (decayVisit order devices) = keys devices := by
  unfold decayVisit
  induction order generalizing devices with
  | nil => rfl
  | cons ip rest ih => rw [List.foldl_cons, ih, keys_modify]

theorem keys_subset_apply (op : Op) (devices : Devices) (ip : String)
    (h : ip ∈ keys devices) : ip ∈ keys (op.apply devices) := by
  cases op with
  | update a size =>
    show ip ∈ keys (updateHeat devices a size)
    rw [keys_updateHeat]
    split
    · exact h
    · exact List.mem_append_left _ h
  | decay =>
    show ip ∈ keys (heatbarDecayTick devices)
    unfold heatbarDecayTick
    rw [keys_decayVisit]
    exact h

theorem keys_subset_run (ops : List Op) (devices : Devices) (ip : String)
    (h : ip ∈ keys devices) : ip ∈ keys (run ops devices) := by
  unfold run
  induction ops generalizing devices with
  | nil => exact h
  | cons op rest ih => exact ih _ (keys_subset_apply op devices ip h)

theorem modify_comm (devices : Devices) (a b : String) (f : Int → Int) :
    modify (modify devices a f) b f = modify (modify devices b f) a f := by
  by_cases hab : a = b
  · rw [hab]
  · unfold modify
    rw [List.map_map, List.map_map]
    apply List.map_congr_left
    intro d _
    by_cases ha : d.IP = a
    · have hb : ¬ d.IP = b := fun e => hab (ha.symm.trans e)
      simp [ha, hb, hab]
    · by_cases hb : d.IP = b
      · have hba : ¬ b = a := fun e => hab e.symm
        simp [hb, hba]
      · simp [ha, hb]

/-! ## Address text lemmas -/

theorem padLoop_eq (k : Nat) (s : List Char) : padLoop k s = s ++ List.replicate k ' ' := by
  induction k generalizing s with
  | zero => simp [padLoop]
  | succ n ih =>
    rw [padLoop, ih, List.append_assoc, List.replicate_succ]
    rfl

theorem padRight_short (s : List Char) (n : Nat) (h : s.length ≤ n) :
    padRight s (n : Int) = some (s ++ List.replicate (n - s.length) ' ') := by
  unfold padRight
  rw [if_neg (by omega), padLoop_eq]
  congr 3
  omega

theorem sliceTo_ok (s : List Char) (n : Nat) (h : n ≤ s.length) :
    sliceTo s (n : Int) = some (s.take n) := by
  unfold sliceTo
  rw [if_pos ⟨by omega, by omega⟩]
  rfl

theorem fitPart_eq (p : List Char) : fitPart p = some (specFit3 p) := by
  unfold fitPart specFit3
  by_cases h1 : p.length < 3
  · rw [if_pos (by omega), if_pos h1]
    exact padRight_short p 3 (by omega)
  · rw [if_neg (by omega), if_neg h1]
    by_cases h2 : p.length > 3
    · rw [if_pos (by omega), if_pos h2]
      exact sliceTo_ok p 3 (by omega)
    · rw [if_neg (by omega), if_neg h2]

theorem fitParts_eq (ps : List (List Char)) : fitParts ps = some (ps.map specFit3) := by
  induction ps with
  | nil => rfl
  | cons p rest ih => simp [fitParts, fitPart_eq, ih]

theorem specFit3_length (p : List Char) : (specFit3 p).length = 3 := by
  unfold specFit3
  split
  · rw [List.length_append, List.length_replicate]; omega
  · split
    · rw [List.length_take]; omega
    · omega

theorem formatIP_of_quad (ipStr : List Char) (h4 : (splitDot ipStr).length = 4) :
    formatIP ipStr = some (List.intercalate ['.'] ((splitDot ipStr).map specFit3)) := by
  unfold formatIP
  simp only [h4, if_true, fitParts_eq, Option.map_some']

theorem intercalate_quad_length (ps : List (List Char)) (h4 : ps.length = 4)
    (h3 : ∀ p ∈ ps, p.length = 3) : (List.intercalate ['.'] ps).length = 15 := by
  match ps, h4 with
  | [a, b, c, d], _ =>
    have ha := h3 a (by simp)
    have hb := h3 b (by simp)
    have hc := h3 c (by simp)
    have hd := h3 d (by simp)
    simp [List.intercalate, List.intersperse, ha, hb, hc, hd]

theorem formatIP_of_other (ipStr : List Char) (h4 : (splitDot ipStr).length ≠ 4) :
    formatIP ipStr = some (if ipStr.length ≤ 16 then ipStr ++ List.replicate (16 - ipStr.length) ' '
      else ipStr.take 16) := by
  unfold formatIP
  simp only [h4, if_false, IPColumnWidth]
  by_cases hl : ipStr.length ≤ 16
  · rw [if_neg (by omega), if_pos hl]
    exact padRight_short ipStr 16 hl
  · rw [if_pos (by omega), if_neg hl]
    have h1 := sliceTo_ok ipStr 16 (by omega)
    have h2 := padRight_short (ipStr.take 16) 16 (by rw [List.length_take]; omega)
    rw [show ((16 : Nat) : Int) = 16 from rfl] at h1 h2
    rw [h1, Option.some_bind, h2, List.length_take, min_eq_left (by omega)]
    simp

theorem rangeLoop_all (stop : Nat → Bool) (cell : Nat → Char → Cell) (i : Nat) (s : List Char)
    (h : ∀ j, i ≤ j → j < i + s.length → stop j = false) :
    rangeLoop stop cell i s = (s.enumFrom i).map (fun p => cell p.1 p.2) := by
  induction s generalizing i with
  | nil => rfl
  | cons ch rest ih =>
    rw [rangeLoop, h i (le_refl _) (by simp), List.enumFrom_cons, List.map_cons]
    simp only [Bool.false_eq_true, if_false]
    rw [ih (i + 1) (fun j h1 h2 => h j (by omega) (by simp only [List.length_cons]; omega))]

theorem ipCells_all (idx : Int) (s : List Char) (h : s.length ≤ 16) :
    ipCells idx s = s.enum.map
      (fun p => ⟨(p.1 : Int), idx, p.2, Attribute.ColorWhite, Attribute.ColorDefault⟩) := by
  unfold ipCells
  rw [rangeLoop_all]
  · rfl
  · intro j _ hj
    simp only [IPColumnWidth, ge_iff_le, decide_eq_false_iff_not, not_le]
    omega

/-! ## Cell loop lemmas -/

theorem mem_rangeLoop {stop : Nat → Bool} {cell : Nat → Char → Cell} {i : Nat} {s : List Char}
    {c : Cell} (h : c ∈ rangeLoop stop cell i s) :
    ∃ k ch, s[k]? = some ch ∧ stop (i + k) = false ∧ c = cell (i + k) ch := by
  induction s generalizing i with
  | nil => simp [rangeLoop] at h
  | cons a rest ih =>
    rw [rangeLoop] at h
    by_cases hs : stop i = true
    · simp [hs] at h
    · rw [if_neg hs, List.mem_cons] at h
      rcases h with h | h
      · exact ⟨0, a, by simp, by simpa using hs, h⟩
      · obtain ⟨k, ch, hk, hst, hc⟩ := ih h
        refine ⟨k + 1, ch, by simpa using hk, ?_, ?_⟩
        · rw [← hst]; congr 1; omega
        · rw [hc]; congr 1; omega

/-- A loop that writes nothing at `(x, y)`. -/
theorem loop_filter_miss (stop : Nat → Bool) (cell : Nat → Char → Cell) (i : Nat)
    (s : List Char) (x y : Int)
    (h : ∀ k ch, s[k]? = some ch → stop (i + k) = false →
      ¬ ((cell (i + k) ch).x = x ∧ (cell (i + k) ch).y = y)) :
    (rangeLoop stop cell i s).filter (fun c => decide (c.x = x ∧ c.y = y)) = [] := by
  rw [List.filter_eq_nil_iff]
  intro c hc
  obtain ⟨k, ch, hk, hst, rfl⟩ := mem_rangeLoop hc
  simpa using h k ch hk hst

/-- A loop writes exactly once at the column of its `k`-th character when it
has not stopped before. -/
theorem loop_filter_hit (stop : Nat → Bool) (x0 idx : Int) (fg bg : Attribute) (i k : Nat)
    (s : List Char) (ch : Char) (hk : s[k]? = some ch)
    (hstop : ∀ j, j ≤ k → stop (i + j) = false) :
    (rangeLoop stop (fun n c => ⟨x0 + (n : Int), idx, c, fg, bg⟩) i s).filter
        (fun c => decide (c.x = x0 + ((i + k : Nat) : Int) ∧ c.y = idx)) =
      [⟨x0 + ((i + k : Nat) : Int), idx, ch, fg, bg⟩] := by
  induction s generalizing i k with
  | nil => simp at hk
  | cons a rest ih =>
    rw [rangeLoop, if_neg (by simpa using hstop 0 (Nat.zero_le _))]
    cases k with
    | zero =>
      simp only [List.getElem?_cons_zero, Option.some.injEq] at hk
      subst hk
      rw [List.filter_cons_of_pos (by simp)]
      have hm := loop_filter_miss stop (fun n c => ⟨x0 + (n : Int), idx, c, fg, bg⟩) (i + 1) rest
        (x0 + ((i + 0 : Nat) : Int)) idx (by
          intro k ch _ _ hcon
          simp only at hcon
          have := hcon.1
          push_cast at this
          omega)
      rw [hm]
      simp
    | succ n =>
      simp only [List.getElem?_cons_succ] at hk
      rw [List.filter_cons_of_neg (by
        simp only [decide_eq_true_eq, not_and]
        intro hcon
        push_cast at hcon
        omega)]
      have := ih (i + 1) n hk (fun j hj => by
        have := hstop (j + 1) (by omega)
        rw [← this]; congr 1; omega)
      rw [show i + (n + 1) = i + 1 + n by omega]
      exact this

theorem wrapInt_eq {x : Int} (h1 : -2 ^ 63 ≤ x) (h2 : x < 2 ^ 63) : wrapInt x = x := by
  unfold wrapInt
  norm_num at h1 h2 ⊢
  omega

theorem wrapInt_range (x : Int) : -2 ^ 63 ≤ wrapInt x ∧ wrapInt x < 2 ^ 63 := by
  unfold wrapInt
  norm_num
  omega

/-- Without wrap-around, that is for `-2 ^ 63 + 29 ≤ W < 2 ^ 63`, the bar width
is `max 10 (W - 29)`. -/
theorem heatbarWidth_eq (W : Int) (hlo : -2 ^ 63 + 29 ≤ W) (hhi : W < 2 ^ 63) :
    heatbarWidth W = max 10 (W - 29) := by
  have hs : Separator.utf8ByteSize = 3 := by decide
  unfold heatbarWidth
  simp only [HeatbarMaxWidth, le_refl, if_true, hs, IPColumnWidth, Nat.cast_ofNat]
  norm_num at hlo hhi
  rw [wrapInt_eq (x := W - 16) (by norm_num; omega) (by norm_num; omega),
    wrapInt_eq (x := W - 16 - 3) (by norm_num; omega) (by norm_num; omega),
    wrapInt_eq (x := W - 16 - 3 - 10) (by norm_num; omega) (by norm_num; omega)]
  split
  · rw [max_eq_left (by omega)]
  · rw [max_eq_right (by omega)]
    omega

theorem heatbarWidth_ge (W : Int) : 10 ≤ heatbarWidth W := by
  unfold heatbarWidth
  simp only [HeatbarMaxWidth, le_refl, if_true]
  split
  · exact le_refl _
  · omega

theorem heatbarWidth_lt (W : Int) : heatbarWidth W < 2 ^ 63 := by
  unfold heatbarWidth
  simp only [HeatbarMaxWidth, le_refl, if_true]
  split
  · norm_num
  · exact (wrapInt_range _).2

/-- In the wrap-around zone `-2 ^ 63 ≤ W < -2 ^ 63 + 29` the bar width is
`W - 29 + 2 ^ 64`. -/
theorem heatbarWidth_wrapped (W : Int) (hlo : -2 ^ 63 ≤ W) (hhi : W < -2 ^ 63 + 29) :
    heatbarWidth W = W - 29 + 2 ^ 64 := by
  have hs : Separator.utf8ByteSize = 3 := by decide
  unfold heatbarWidth wrapInt
  simp only [HeatbarMaxWidth, le_refl, if_true, hs, IPColumnWidth, Nat.cast_ofNat]
  norm_num at hlo hhi ⊢
  split <;> omega

theorem allocLimit_le (maxAlloc : Int) : allocLimit maxAlloc ≤ 2 ^ 48 :=
  min_le_right _ _

theorem le_allocLimit {n maxAlloc : Int} (h1 : n ≤ maxAlloc) (h2 : n ≤ 2 ^ 48) :
    n ≤ allocLimit maxAlloc :=
  le_min h1 h2

theorem repeatStr_eq_some (maxAlloc : Int) {c : Char} {n : Int} {s : List Char} :
    repeatStr maxAlloc c n = some s ↔
      0 ≤ n ∧ n ≤ allocLimit maxAlloc ∧ s = List.replicate n.toNat c := by
  unfold repeatStr
  by_cases h : n < 0
  · simp only [h, if_true]
    constructor
    · intro e; exact Option.noConfusion e
    · intro e; omega
  · by_cases h2 : n > allocLimit maxAlloc
    · simp only [h, h2, if_true, if_false]
      constructor
      · intro e; exact Option.noConfusion e
      · intro e; omega
    · simp only [h, h2, if_false, Option.some.injEq]
      constructor
      · intro e; exact ⟨by omega, by omega, e.symm⟩
      · intro e; exact e.2.2.symm

theorem concatStr_eq_some (maxAlloc : Int) {a b s : List Char} :
    concatStr maxAlloc a b = some s ↔
      ((a.length + b.length : Nat) : Int) ≤ allocLimit maxAlloc ∧ s = a ++ b := by
  unfold concatStr
  rw [List.length_append]
  by_cases h : ((a.length + b.length : Nat) : Int) > allocLimit maxAlloc
  · simp only [h, if_true]
    constructor
    · intro e; exact Option.noConfusion e
    · intro e; omega
  · simp only [h, if_false, Option.some.injEq]
    constructor
    · intro e; exact ⟨by omega, e.symm⟩
    · intro e; exact e.2.symm

/-- A row is drawn exactly when the address text exists, the two counts of the
tier-one bar and the count of the tier-two bar are non-negative, and the bar
and the tier-two string can be allocated. -/
theorem drawRow_eq_some_iff (maxAlloc width idx : Int) (device : DeviceHeat) (row : List Cell) :
    drawRow maxAlloc width idx device = some row ↔
      ∃ ipStr, formatIP device.IP.toList = some ipStr ∧
        0 ≤ heatWidth device.Heat (heatbarWidth width) ∧
        heatWidth device.Heat (heatbarWidth width) ≤ heatbarWidth width ∧
        0 ≤ heatWidthTwo device.Heat (heatbarWidth width) ∧
        heatbarWidth width ≤ allocLimit maxAlloc ∧
        heatWidthTwo device.Heat (heatbarWidth width) ≤ allocLimit maxAlloc ∧
        row = rowWrites width idx device ipStr := by
  unfold drawRow rowWrites
  cases hip : formatIP device.IP.toList with
  | none => simp
  | some ipStr =>
    simp only [Option.some.injEq, exists_eq_left']
    generalize heatbarWidth width = B
    generalize hw1 : heatWidth device.Heat B = w1
    generalize hw2 : heatWidthTwo device.Heat B = w2
    cases h1 : repeatStr maxAlloc '1' w1 with
    | none =>
      simp only
      constructor
      · intro e; exact Option.noConfusion e
      · rintro ⟨c1, c2, c3, c4, c5, _⟩
        have := (repeatStr_eq_some maxAlloc (c := '1') (n := w1)).mpr
          ⟨c1, by omega, rfl⟩
        rw [h1] at this
        exact Option.noConfusion this
    | some ones =>
      obtain ⟨h1a, h1b, h1c⟩ := (repeatStr_eq_some maxAlloc).mp h1
      cases h2 : repeatStr maxAlloc ' ' (B - w1) with
      | none =>
        simp only
        constructor
        · intro e; exact Option.noConfusion e
        · rintro ⟨c1, c2, c3, c4, c5, _⟩
          have := (repeatStr_eq_some maxAlloc (c := ' ') (n := B - w1)).mpr
            ⟨by omega, by omega, rfl⟩
          rw [h2] at this
          exact Option.noConfusion this
      | some blanks =>
        simp only
        obtain ⟨h2a, h2b, h2c⟩ := (repeatStr_eq_some maxAlloc).mp h2
        have hlen : ((ones.length + blanks.length : Nat) : Int) = B := by
          rw [h1c, h2c, List.length_replicate, List.length_replicate]
          push_cast
          rw [Int.toNat_of_nonneg h1a, Int.toNat_of_nonneg h2a]
          omega
        cases h3 : concatStr maxAlloc ones blanks with
        | none =>
          simp only
          constructor
          · intro e; exact Option.noConfusion e
          · rintro ⟨c1, c2, c3, c4, c5, _⟩
            have := (concatStr_eq_some maxAlloc (a := ones) (b := blanks)).mpr
              ⟨by omega, rfl⟩
            rw [h3] at this
            exact Option.noConfusion this
        | some heatbar =>
          obtain ⟨h3a, h3b⟩ := (concatStr_eq_some maxAlloc).mp h3
          cases h4 : repeatStr maxAlloc '2' w2 with
          | none =>
            simp only
            constructor
            · intro e; exact Option.noConfusion e
            · rintro ⟨c1, c2, c3, c4, c5, _⟩
              have := (repeatStr_eq_some maxAlloc (c := '2') (n := w2)).mpr
                ⟨c3, c5, rfl⟩
              rw [h4] at this
              exact Option.noConfusion this
          | some twos =>
            obtain ⟨h4a, h4b, h4c⟩ := (repeatStr_eq_some maxAlloc).mp h4
            subst h1c h2c h3b h4c
            simp only [Option.some.injEq]
            constructor
            · intro e
              exact ⟨h1a, by omega, h4a, by omega, h4b, e.symm⟩
            · intro e
              exact e.2.2.2.2.2.symm

theorem rowWrites_y {width idx : Int} {device : DeviceHeat} {ipStr : List Char} {c : Cell}
    (hc : c ∈ rowWrites width idx device ipStr) : c.y = idx := by
  unfold rowWrites ipCells paint paintTwo at hc
  simp only [List.mem_append] at hc
  rcases hc with (((hc | hc) | hc) | hc) | hc <;>
    · obtain ⟨k, ch, _, _, rfl⟩ := mem_rangeLoop hc
      rfl

/-- Outside the address column every write of a row lies left of the terminal
width. -/
theorem rowWrites_x {width idx : Int} {device : DeviceHeat} {ipStr : List Char} {c : Cell}
    (hc : c ∈ rowWrites width idx device ipStr) :
    c.x < width ∨ (c ∈ ipCells idx ipStr ∧ 0 ≤ c.x ∧ c.x < IPColumnWidth) := by
  unfold rowWrites at hc
  simp only [List.mem_append] at hc
  rcases hc with (((hc | hc) | hc) | hc) | hc
  · right
    refine ⟨hc, ?_⟩
    unfold ipCells at hc
    obtain ⟨k, ch, _, hst, rfl⟩ := mem_rangeLoop hc
    simp only [decide_eq_false_iff_not, not_le, ge_iff_le] at hst
    simp only
    omega
  all_goals
    left
    first
      | unfold paint at hc
      | unfold paintTwo at hc
    obtain ⟨k, ch, _, hst, rfl⟩ := mem_rangeLoop hc
    simp only [Bool.or_eq_false_iff, decide_eq_false_iff_not, not_le, ge_iff_le] at hst
    simp only
    omega

theorem drawRows_cells {maxAlloc width height : Int} {start : Nat} {list : List DeviceHeat}
    {writes : List Cell} (h : drawRows maxAlloc width height start list = some writes) {c : Cell}
    (hc : c ∈ writes) :
    (start : Int) ≤ c.y ∧ c.y < height ∧
      ∃ k d ipStr, list[k]? = some d ∧ c.y = ((start + k : Nat) : Int) ∧
        c ∈ rowWrites width c.y d ipStr := by
  induction list generalizing start writes with
  | nil =>
    simp only [drawRows, Option.some.injEq] at h
    subst h
    simp at hc
  | cons d rest ih =>
    rw [drawRows] at h
    by_cases hs : (start : Int) ≥ height
    · rw [if_pos hs] at h
      simp only [Option.some.injEq] at h
      subst h
      simp at hc
    · rw [if_neg hs] at h
      cases hr : drawRow maxAlloc width (start : Int) d with
      | none => simp [hr] at h
      | some row =>
        cases hm : drawRows maxAlloc width height (start + 1) rest with
        | none => simp [hr, hm] at h
        | some more =>
          simp only [hr, hm, Option.some.injEq] at h
          subst h
          obtain ⟨ipStr, _, _, _, _, _, _, hrow⟩ := (drawRow_eq_some_iff _ _ _ _ _).mp hr
          rcases List.mem_append.mp hc with hc1 | hc2
          · rw [hrow] at hc1
            have hy := rowWrites_y hc1
            refine ⟨by omega, by omega, 0, d, ipStr, by simp, by simpa using hy, ?_⟩
            rw [hy]; exact hc1
          · obtain ⟨h1, h2, k, d2, ip2, hk, hy, hmem⟩ := ih hm hc2
            refine ⟨by push_cast at h1; omega, h2, k + 1, d2, ip2, by simpa using hk, ?_, hmem⟩
            rw [hy]; push_cast; omega

/-- The writes of a frame at a position of row `start + k` are those of that
row. -/
theorem drawRows_filter {maxAlloc width height : Int} {start : Nat} {list : List DeviceHeat}
    {writes : List Cell} (h : drawRows maxAlloc width height start list = some writes) {k : Nat}
    {d : DeviceHeat} (hd : list[k]? = some d) (hk : ((start + k : Nat) : Int) < height)
    (x : Int) :
    ∃ ipStr, drawRow maxAlloc width ((start + k : Nat) : Int) d
        = some (rowWrites width ((start + k : Nat) : Int) d ipStr) ∧
      writes.filter (fun c => decide (c.x = x ∧ c.y = ((start + k : Nat) : Int))) =
        (rowWrites width ((start + k : Nat) : Int) d ipStr).filter
          (fun c => decide (c.x = x ∧ c.y = ((start + k : Nat) : Int))) := by
  induction list generalizing start writes k with
  | nil => simp at hd
  | cons d0 rest ih =>
    rw [drawRows] at h
    have hs : ¬ (start : Int) ≥ height := by push_cast at hk; omega
    rw [if_neg hs] at h
    cases hr : drawRow maxAlloc width (start : Int) d0 with
    | none => simp [hr] at h
    | some row =>
      cases hm : drawRows maxAlloc width height (start + 1) rest with
      | none => simp [hr, hm] at h
      | some more =>
        simp only [hr, hm, Option.some.injEq] at h
        subst h
        obtain ⟨ipStr, _, _, _, _, _, _, hrow⟩ := (drawRow_eq_some_iff _ _ _ _ _).mp hr
        cases k with
        | zero =>
          simp only [List.getElem?_cons_zero, Option.some.injEq] at hd
          subst hd
          simp only [Nat.add_zero]
          refine ⟨ipStr, by simpa [hrow] using hr, ?_⟩
          rw [List.filter_append, ← hrow]
          have : more.filter (fun c => decide (c.x = x ∧ c.y = ((start : Nat) : Int))) = [] := by
            rw [List.filter_eq_nil_iff]
            intro c hc
            have := (drawRows_cells hm hc).1
            simp only [decide_eq_true_eq, not_and]
            intro _ hy
            push_cast at this hy
            omega
          rw [this, List.append_nil]
        | succ n =>
          simp only [List.getElem?_cons_succ] at hd
          have hk2 : ((start + 1 + n : Nat) : Int) < height := by push_cast at hk ⊢; omega
          obtain ⟨ip2, h1, h2⟩ := ih hm hd hk2
          have e : start + (n + 1) = start + 1 + n := by omega
          rw [e]
          refine ⟨ip2, h1, ?_⟩
          rw [List.filter_append, h2]
          have : row.filter (fun c => decide (c.x = x ∧ c.y = ((start + 1 + n : Nat) : Int))) = [] := by
            rw [List.filter_eq_nil_iff]
            intro c hc
            rw [hrow] at hc
            have := rowWrites_y hc
            simp only [decide_eq_true_eq, not_and]
            intro _ hy
            push_cast at hy
            omega
          rw [this, List.nil_append]

theorem sep_size : (Separator.utf8ByteSize : Int) = 3 := by decide

theorem heatbar_getElem (a b k : Nat) (hk : k < a + b) :
    (List.replicate a '1' ++ List.replicate b ' ')[k]? = some (if k < a then '1' else ' ') := by
  by_cases h : k < a
  · rw [List.getElem?_append_left (by simpa using h), if_pos h]
    simp [List.getElem?_replicate, h]
  · rw [List.getElem?_append_right (by simpa using h), if_neg h]
    simp only [List.length_replicate, List.getElem?_replicate]
    rw [if_pos (by omega)]

/-- The last write of a row at bar offset `k`. -/
theorem row_bar_cell (width idx : Int) (device : DeviceHeat) (ipStr : List Char)
    (h1 : 0 ≤ heatWidth device.Heat (heatbarWidth width))
    (h2 : heatWidth device.Heat (heatbarWidth width) ≤ heatbarWidth width)
    (h3 : 0 ≤ heatWidthTwo device.Heat (heatbarWidth width))
    (k : Nat) (hk : (k : Int) < heatbarWidth width) (hx : 19 + (k : Int) < width) :
    ((rowWrites width idx device ipStr).filter
        (fun c => decide (c.x = 19 + (k : Int) ∧ c.y = idx))).getLast? =
      some (if (k : Int) < heatWidthTwo device.Heat (heatbarWidth width) then
          ⟨19 + (k : Int), idx, '2', Attribute.ColorRed, Attribute.ColorDefault⟩
        else if (k : Int) < heatWidth device.Heat (heatbarWidth width) then
          ⟨19 + (k : Int), idx, '1', Attribute.ColorGreen, Attribute.ColorDefault⟩
        else ⟨19 + (k : Int), idx, ' ', Attribute.ColorGreen, Attribute.ColorDefault⟩) := by
  have e : (19 : Int) + (k : Int) = 16 + 3 + ((0 + k : Nat) : Int) := by push_cast; omega
  unfold rowWrites paint paintTwo
  simp only [IPColumnWidth, sep_size, List.filter_append]
  -- the label lies right of the bar
  have hlabel : (rangeLoop (fun i => decide (16 + 3 + heatbarWidth width + 1 + (i : Int) ≥ width))
      (fun i ch => (⟨16 + 3 + heatbarWidth width + 1 + (i : Int), idx, ch,
        Attribute.ColorYellow, Attribute.ColorDefault⟩ : Cell)) 0
      (heatValueStr device.Heat).toList).filter
        (fun c => decide (c.x = 19 + (k : Int) ∧ c.y = idx)) = [] := by
    apply loop_filter_miss
    intro j ch _ _ hcon
    have := hcon.1
    simp only at this
    omega
  -- the tier-one loop writes once at offset `k`
  have hbar := loop_filter_hit (fun i => decide (16 + 3 + (i : Int) ≥ width)) (16 + 3) idx
    Attribute.ColorGreen Attribute.ColorDefault 0 k _ _
    (heatbar_getElem (heatWidth device.Heat (heatbarWidth width)).toNat
      (heatbarWidth width - heatWidth device.Heat (heatbarWidth width)).toNat k (by omega))
    (fun j hj => by
      simp only [decide_eq_false_iff_not, not_le, ge_iff_le]
      push_cast
      omega)
  rw [← e] at hbar
  rw [hlabel, hbar, List.append_nil]
  by_cases hk2 : (k : Int) < heatWidthTwo device.Heat (heatbarWidth width)
  · rw [if_pos hk2]
    have hr : ¬ heatRatioTwo device.Heat < 0 := by
      intro hneg
      have : heatWidthTwo device.Heat (heatbarWidth width) = 0 := by
        unfold heatWidthTwo
        simp only [hneg, if_true]
      omega
    have htwo := loop_filter_hit
      (fun i => decide (heatRatioTwo device.Heat < 0) || decide (16 + 3 + (i : Int) ≥ width))
      (16 + 3) idx Attribute.ColorRed Attribute.ColorDefault 0 k
      (List.replicate (heatWidthTwo device.Heat (heatbarWidth width)).toNat '2') '2'
      (by
        rw [List.getElem?_replicate, if_pos (by omega)])
      (fun j hj => by
        simp only [Bool.or_eq_false_iff, decide_eq_false_iff_not, not_le, ge_iff_le, not_lt]
        refine ⟨not_lt.mp hr, ?_⟩
        push_cast
        omega)
    rw [← e] at htwo
    rw [htwo, List.getLast?_append]
    simp
  · rw [if_neg hk2]
    have htwo : (rangeLoop
        (fun i => decide (heatRatioTwo device.Heat < 0) || decide (16 + 3 + (i : Int) ≥ width))
        (fun i ch => (⟨16 + 3 + (i : Int), idx, ch, Attribute.ColorRed,
          Attribute.ColorDefault⟩ : Cell)) 0
        (List.replicate (heatWidthTwo device.Heat (heatbarWidth width)).toNat '2')).filter
          (fun c => decide (c.x = 19 + (k : Int) ∧ c.y = idx)) = [] := by
      apply loop_filter_miss
      intro j ch hj _ hcon
      have hlt : j < (heatWidthTwo device.Heat (heatbarWidth width)).toNat := by
        by_contra hge
        rw [List.getElem?_replicate, if_neg hge] at hj
        exact Option.noConfusion hj
      have := hcon.1
      simp only at this
      omega
    rw [htwo, List.append_nil, List.getLast?_append]
    by_cases hk1 : (k : Int) < heatWidth device.Heat (heatbarWidth width)
    · have : k < (heatWidth device.Heat (heatbarWidth width)).toNat := by omega
      simp [hk1, this]
    · have : ¬ k < (heatWidth device.Heat (heatbarWidth width)).toNat := by omega
      simp [hk1, this]

/-- The last write of a row at offset `j` of the label. -/
theorem row_label_cell (width idx : Int) (device : DeviceHeat) (ipStr : List Char)
    (j : Nat) (ch : Char) (hj : (heatValueStr device.Heat).toList[j]? = some ch)
    (hx : 19 + heatbarWidth width + 1 + (j : Int) < width) :
    ((rowWrites width idx device ipStr).filter
        (fun c => decide (c.x = 19 + heatbarWidth width + 1 + (j : Int) ∧ c.y = idx))).getLast? =
      some ⟨19 + heatbarWidth width + 1 + (j : Int), idx, ch, Attribute.ColorYellow,
        Attribute.ColorDefault⟩ := by
  have e : 19 + heatbarWidth width + 1 + (j : Int) =
      16 + 3 + heatbarWidth width + 1 + ((0 + j : Nat) : Int) := by push_cast; omega
  unfold rowWrites paint
  simp only [IPColumnWidth, sep_size, List.filter_append]
  have hlab := loop_filter_hit
    (fun i => decide (16 + 3 + heatbarWidth width + 1 + (i : Int) ≥ width))
    (16 + 3 + heatbarWidth width + 1) idx Attribute.ColorYellow Attribute.ColorDefault 0 j
    (heatValueStr device.Heat).toList ch hj
    (fun i hi => by
      simp only [decide_eq_false_iff_not, not_le, ge_iff_le]
      push_cast
      omega)
  rw [← e] at hlab
  rw [hlab, List.getLast?_append]
  simp

/-! ## Bars of any width -/

theorem roundHalfEven_mono {x y : ℚ} (h : x ≤ y) : roundHalfEven x ≤ roundHalfEven y := by
  by_contra hlt
  rw [not_le] at hlt
  have h1 : (roundHalfEven y : ℚ) + 1 ≤ roundHalfEven x := by exact_mod_cast hlt
  have ex := roundHalfEven_err x
  have ey := roundHalfEven_err y
  rw [abs_le] at ex ey
  have hxy : x = y := by linarith
  rw [hxy] at hlt
  exact lt_irrefl _ hlt

theorem roundHalfEven_nonneg {x : ℚ} (h : 0 ≤ x) : 0 ≤ roundHalfEven x := by
  have := roundHalfEven_mono h
  rwa [show roundHalfEven 0 = 0 from by exact_mod_cast roundHalfEven_int 0] at this

theorem fl_nonneg {x : ℚ} (h : 0 ≤ x) : 0 ≤ fl x := by
  unfold fl
  apply mul_nonneg
  · exact_mod_cast roundHalfEven_nonneg (div_nonneg h (by positivity))
  · positivity

theorem ulpExp_mono {x y : ℚ} (hx : 0 < x) (h : x ≤ y) : ulpExp x ≤ ulpExp y := by
  unfold ulpExp
  have : Int.log 2 |x| ≤ Int.log 2 |y| := by
    rw [abs_of_pos hx, abs_of_pos (lt_of_lt_of_le hx h)]
    exact Int.log_mono_right hx h
  exact max_le_max (by omega) (le_refl _)

/-- Rounding to `float64` is monotone. -/
theorem fl_mono {x y : ℚ} (hx : 0 ≤ x) (h : x ≤ y) : fl x ≤ fl y := by
  rcases eq_or_lt_of_le hx with h0 | hpos
  · rw [← h0, fl_zero]
    exact fl_nonneg (le_trans hx h)
  have hypos : 0 < y := lt_of_lt_of_le hpos h
  have he := ulpExp_mono hpos h
  rcases eq_or_lt_of_le he with heq | hlt
  · unfold fl
    rw [heq]
    apply mul_le_mul_of_nonneg_right _ (by positivity)
    exact_mod_cast roundHalfEven_mono (div_le_div_of_nonneg_right h (by positivity))
  · -- the exponents differ: a power of two lies between `x` and `y`
    obtain ⟨k, hk⟩ : ∃ k, Int.log 2 |y| = k := ⟨_, rfl⟩
    have hey : ulpExp y = k - 52 := by
      unfold ulpExp at hlt ⊢
      rw [hk] at hlt ⊢
      rcases le_total (k - 52) (-1074) with hc | hc
      · rw [max_eq_right hc] at hlt
        have := le_max_right (Int.log 2 |x| - 52) (-1074)
        omega
      · exact max_eq_left hc
    have hyk : (2 : ℚ) ^ k ≤ y := by
      have := Int.zpow_log_le_self (b := 2) (r := |y|) (by norm_num) (abs_pos.mpr hypos.ne')
      rw [hk, abs_of_pos hypos] at this
      exact_mod_cast this
    have hlog : Int.log 2 ((2 : ℚ) ^ k) = k := by
      have := Int.log_zpow (R := ℚ) (b := 2) (by norm_num) k
      simpa using this
    have hxk : x < (2 : ℚ) ^ k := by
      by_contra hge
      rw [not_lt] at hge
      have : k ≤ Int.log 2 |x| := by
        rw [abs_of_pos hpos]
        have := Int.log_mono_right (b := 2) (by positivity) hge
        rwa [hlog] at this
      have h2 : ulpExp y ≤ ulpExp x := by
        rw [hey]
        unfold ulpExp
        exact le_trans (by omega) (le_max_left _ _)
      omega
    have hex : ulpExp x ≤ k := by omega
    -- `fl x ≤ 2 ^ k ≤ fl y`
    have h1 : fl x ≤ (2 : ℚ) ^ k := by
      unfold fl
      have hn : (((2 : ℤ) ^ (k - ulpExp x).toNat : ℤ) : ℚ) = (2 : ℚ) ^ (k - ulpExp x) := by
        push_cast
        rw [← zpow_natCast, Int.toNat_of_nonneg (by omega)]
      have hq : x / 2 ^ ulpExp x ≤ (((2 : ℤ) ^ (k - ulpExp x).toNat : ℤ) : ℚ) := by
        rw [hn, div_le_iff₀ (by positivity), ← zpow_add₀ (by norm_num)]
        rw [show k - ulpExp x + ulpExp x = k by ring]
        exact hxk.le
      have hr := roundHalfEven_mono hq
      rw [roundHalfEven_int] at hr
      have hr2 : (roundHalfEven (x / 2 ^ ulpExp x) : ℚ) ≤ (2 : ℚ) ^ (k - ulpExp x) := by
        rw [← hn]
        exact_mod_cast hr
      calc (roundHalfEven (x / 2 ^ ulpExp x) : ℚ) * 2 ^ ulpExp x
          ≤ (2 : ℚ) ^ (k - ulpExp x) * 2 ^ ulpExp x :=
            mul_le_mul_of_nonneg_right hr2 (by positivity)
        _ = (2 : ℚ) ^ k := by
            rw [← zpow_add₀ (by norm_num)]
            congr 1
            ring
    have h2 : (2 : ℚ) ^ k ≤ fl y := by
      unfold fl
      rw [hey]
      have hsplit : (2 : ℚ) ^ k = (4503599627370496 : ℚ) * 2 ^ (k - 52) := by
        rw [show (4503599627370496 : ℚ) = 2 ^ (52 : ℤ) by norm_num, ← zpow_add₀ (by norm_num)]
        congr 1
        ring
      have hq : (((4503599627370496 : ℤ) : ℤ) : ℚ) ≤ y / 2 ^ (k - 52) := by
        rw [le_div_iff₀ (by positivity)]
        push_cast
        rw [← hsplit]
        exact hyk
      have hr := roundHalfEven_mono hq
      rw [roundHalfEven_int] at hr
      have hr2 : (4503599627370496 : ℚ) ≤ (roundHalfEven (y / 2 ^ (k - 52)) : ℚ) := by
        exact_mod_cast hr
      rw [hsplit]
      exact mul_le_mul_of_nonneg_right hr2 (by positivity)
    exact le_trans h1 h2

theorem mathRound_mono {x y : ℚ} (hx : 0 ≤ x) (h : x ≤ y) : mathRound x ≤ mathRound y := by
  unfold mathRound
  rw [if_pos hx, if_pos (le_trans hx h)]
  exact Int.floor_mono (by linarith)

theorem mathRound_nonneg {x : ℚ} (hx : 0 ≤ x) : 0 ≤ mathRound x := by
  unfold mathRound
  rw [if_pos hx]
  exact Int.floor_nonneg.mpr (by linarith)

theorem heatRatio_full (h : Int) (hh : 150000 ≤ h) : heatRatio h = 1 := by
  unfold heatRatio
  simp only
  apply clamp_of_ge_one
  have hM : ((MaxBytes : Int) : ℚ) = 150000 := by simp [MaxBytes]
  rw [hM]
  rcases eq_or_lt_of_le hh with he | hlt
  · left; rw [← he]; norm_num
  · right
    have : (150001 : ℚ) ≤ (h : ℚ) := by exact_mod_cast hlt
    rw [le_div_iff₀ (by norm_num)]
    linarith

theorem heatRatio_range (h : Int) (h0 : 0 ≤ h) : 0 ≤ heatRatio h ∧ heatRatio h ≤ 1 := by
  have hr : 0 ≤ fl ((h : ℚ) / (MaxBytes : ℚ)) :=
    fl_nonneg (div_nonneg (by exact_mod_cast h0) (by simp [MaxBytes]))
  unfold heatRatio
  simp only
  split
  · exact ⟨by norm_num, le_refl _⟩
  · exact ⟨hr, by linarith⟩

theorem heatRatioTwo_le_one (h : Int) : heatRatioTwo h ≤ 1 := by
  unfold heatRatioTwo
  simp only
  split
  · exact le_refl _
  · linarith

/-- The product of a ratio in `[0, 1]` with the bar width, rounded twice, lies
between 0 and the rounded bar width. -/
theorem scaled_range {r : ℚ} (hr0 : 0 ≤ r) (hr1 : r ≤ 1) {B : Int} (hB : 0 ≤ B) :
    0 ≤ mathRound (fl (r * fl (B : ℚ))) ∧
      mathRound (fl (r * fl (B : ℚ))) ≤ mathRound (fl (1 * fl (B : ℚ))) := by
  have hfB : 0 ≤ fl (B : ℚ) := fl_nonneg (by exact_mod_cast hB)
  have hp : 0 ≤ r * fl (B : ℚ) := mul_nonneg hr0 hfB
  have hle : r * fl (B : ℚ) ≤ 1 * fl (B : ℚ) := mul_le_mul_of_nonneg_right hr1 hfB
  exact ⟨mathRound_nonneg (fl_nonneg hp), mathRound_mono (fl_nonneg hp) (fl_mono hp hle)⟩

/-- A bar width below `2 ^ 53` is a `float64`, and so is it as a full bar. -/
theorem full_bar {B : Int} (hB : 0 ≤ B) (hB2 : B < 2 ^ 53) :
    mathRound (fl (1 * fl (B : ℚ))) = B := by
  have hi : fl (B : ℚ) = B := fl_int B (by rw [abs_of_nonneg hB]; exact hB2)
  rw [hi, one_mul, hi, mathRound_int]

theorem heatWidth_bounds (h B : Int) (h0 : 0 ≤ h) (hB : 0 ≤ B) (hB2 : B < 2 ^ 53) :
    0 ≤ heatWidth h B ∧ heatWidth h B ≤ B := by
  have hr := heatRatio_range h h0
  have hs := scaled_range hr.1 hr.2 hB
  rw [full_bar hB hB2] at hs
  exact hs

theorem heatWidthTwo_nonneg (h B : Int) (hB : 0 ≤ B) : 0 ≤ heatWidthTwo h B := by
  unfold heatWidthTwo
  simp only
  split
  · exact le_refl _
  · rename_i hneg
    exact (scaled_range (not_lt.mp hneg) (heatRatioTwo_le_one h) hB).1

theorem heatWidthTwo_bounds (h B : Int) (hB : 0 ≤ B) (hB2 : B < 2 ^ 53) :
    0 ≤ heatWidthTwo h B ∧ heatWidthTwo h B ≤ B := by
  refine ⟨heatWidthTwo_nonneg h B hB, ?_⟩
  unfold heatWidthTwo
  simp only
  split
  · exact hB
  · rename_i hneg
    have hs := scaled_range (not_lt.mp hneg) (heatRatioTwo_le_one h) hB
    rw [full_bar hB hB2] at hs
    exact hs.2

/-- A full tier-one bar: at `MaxBytes` and above the tier-one width is the bar
width, for every bar width that is a `float64`. -/
theorem heatWidth_eq_bar (h B : Int) (hh : 150000 ≤ h) (hB : 0 ≤ B) (hB2 : B < 2 ^ 53) :
    heatWidth h B = B := by
  unfold heatWidth
  rw [heatRatio_full h hh]
  exact full_bar hB hB2

/-- The tier-two width never exceeds the tier-one width, whatever the bar
width. -/
theorem heatWidthTwo_le_heatWidth (h B : Int) (h0 : 0 ≤ h) (hB : 0 ≤ B) :
    heatWidthTwo h B ≤ heatWidth h B := by
  have hr := heatRatio_range h h0
  have h1 : 0 ≤ heatWidth h B := (scaled_range hr.1 hr.2 hB).1
  by_cases hh : h ≤ 150000
  · rw [heatWidthTwo_low h B hh]
    exact h1
  · by_cases hneg : heatRatioTwo h < 0
    · unfold heatWidthTwo
      simp only [hneg, if_true]
      exact h1
    · unfold heatWidthTwo heatWidth
      simp only [hneg, if_false]
      rw [heatRatio_full h (by omega)]
      exact (scaled_range (not_lt.mp hneg) (heatRatioTwo_le_one h) hB).2

/-! ## Frame lemmas -/

theorem formatIP_total (s : List Char) : ∃ ipStr, formatIP s = some ipStr := by
  by_cases h4 : (splitDot s).length = 4
  · exact ⟨_, formatIP_of_quad s h4⟩
  · exact ⟨_, formatIP_of_other s h4⟩

theorem getSorted_length {sort : List DeviceHeat → List DeviceHeat} {iter : Devices}
    {height : Int} {list : List DeviceHeat}
    (h : getSortedDevicesWith sort iter height = some list) : (list.length : Int) ≤ height := by
  unfold getSortedDevicesWith at h
  simp only at h
  by_cases hgt : ((sort iter).length : Int) > height
  · rw [if_pos hgt] at h
    by_cases h0 : 0 ≤ height
    · rw [if_pos h0] at h
      simp only [Option.some.injEq] at h
      rw [← h, List.length_take]
      omega
    · rw [if_neg h0] at h
      exact Option.noConfusion h
  · rw [if_neg hgt] at h
    simp only [Option.some.injEq] at h
    rw [← h]
    omega

theorem drawUIWith_eq {sort : List DeviceHeat → List DeviceHeat} {iter : Devices}
    {maxAlloc width height : Int} {list : List DeviceHeat}
    (hl : getSortedDevicesWith sort iter height = some list) :
    drawUIWith maxAlloc sort iter width height = drawRows maxAlloc width height 0 list := by
  unfold drawUIWith
  rw [hl]

/-- Reading a frame at a position of a visible row reads that row. -/
theorem frame_row {sort : List DeviceHeat → List DeviceHeat} {iter : Devices}
    {maxAlloc width height : Int} {list : List DeviceHeat} {writes : List Cell}
    (hl : getSortedDevicesWith sort iter height = some list)
    (hf : drawUIWith maxAlloc sort iter width height = some writes)
    {idx : Nat} {d : DeviceHeat} (hd : list[idx]? = some d) (x : Int) :
    ∃ ipStr, drawRow maxAlloc width (idx : Int) d =
        some (rowWrites width (idx : Int) d ipStr) ∧
      cellAt writes x (idx : Int) =
        ((rowWrites width (idx : Int) d ipStr).filter
          (fun c => decide (c.x = x ∧ c.y = (idx : Int)))).getLast? := by
  rw [drawUIWith_eq hl] at hf
  have hlen := getSorted_length hl
  have hidx : idx < list.length := by
    by_contra hge
    rw [List.getElem?_eq_none (by omega)] at hd
    exact Option.noConfusion hd
  have := drawRows_filter hf (k := idx) hd (by push_cast; omega) x
  simp only [Nat.zero_add] at this
  obtain ⟨ipStr, h1, h2⟩ := this
  exact ⟨ipStr, h1, by unfold cellAt; rw [h2]⟩

theorem frame_bar_cell {sort : List DeviceHeat → List DeviceHeat} {iter : Devices}
    {maxAlloc width height : Int} {list : List DeviceHeat} {writes : List Cell}
    (hl : getSortedDevicesWith sort iter height = some list)
    (hf : drawUIWith maxAlloc sort iter width height = some writes)
    {idx : Nat} {d : DeviceHeat} (hd : list[idx]? = some d)
    (k : Nat) (hk : (k : Int) < heatbarWidth width) (hx : 19 + (k : Int) < width) :
    cellAt writes (19 + (k : Int)) (idx : Int) =
      some (if (k : Int) < heatWidthTwo d.Heat (heatbarWidth width) then
          ⟨19 + (k : Int), (idx : Int), '2', Attribute.ColorRed, Attribute.ColorDefault⟩
        else if (k : Int) < heatWidth d.Heat (heatbarWidth width) then
          ⟨19 + (k : Int), (idx : Int), '1', Attribute.ColorGreen, Attribute.ColorDefault⟩
        else ⟨19 + (k : Int), (idx : Int), ' ', Attribute.ColorGreen,
          Attribute.ColorDefault⟩) := by
  obtain ⟨ipStr, h1, h2⟩ := frame_row hl hf hd (19 + (k : Int))
  obtain ⟨_, _, b1, b2, b3, _⟩ := (drawRow_eq_some_iff _ _ _ _ _).mp h1
  rw [h2]
  exact row_bar_cell width idx d ipStr b1 b2 b3 k hk hx

theorem frame_label_cell {sort : List DeviceHeat → List DeviceHeat} {iter : Devices}
    {maxAlloc width height : Int} {list : List DeviceHeat} {writes : List Cell}
    (hl : getSortedDevicesWith sort iter height = some list)
    (hf : drawUIWith maxAlloc sort iter width height = some writes)
    {idx : Nat} {d : DeviceHeat} (hd : list[idx]? = some d)
    (j : Nat) (ch : Char) (hj : (heatValueStr d.Heat).toList[j]? = some ch)
    (hx : 19 + heatbarWidth width + 1 + (j : Int) < width) :
    cellAt writes (19 + heatbarWidth width + 1 + (j : Int)) (idx : Int) =
      some ⟨19 + heatbarWidth width + 1 + (j : Int), (idx : Int), ch, Attribute.ColorYellow,
        Attribute.ColorDefault⟩ := by
  obtain ⟨ipStr, _, h2⟩ := frame_row hl hf hd (19 + heatbarWidth width + 1 + (j : Int))
  rw [h2]
  exact row_label_cell width idx d ipStr j ch hj hx

/-- The label is the formatted heat, or `MAX`, between two spaces. -/
theorem heatValueStr_shape (h : Int) :
    ∃ text : String, heatValueStr h = " " ++ text ++ " " ∧
      (text = formatHeat h ∨ text = "MAX") := by
  unfold heatValueStr
  simp only
  split
  · exact ⟨"MAX", by decide, Or.inr rfl⟩
  · split
    · exact ⟨"MAX", rfl, Or.inr rfl⟩
    · exact ⟨formatHeat h, rfl, Or.inl rfl⟩

theorem label_toList (text : String) :
    (" " ++ text ++ " ").toList = ' ' :: (text.toList ++ [' ']) := by
  simp [String.toList, String.data_append]

/-- A frame with a single entry. -/
theorem drawUI_single (maxAlloc : Int) (d : DeviceHeat) (width height : Int) (hH : 1 ≤ height)
    (ipStr : List Char)
    (hr : drawRow maxAlloc width 0 d = some (rowWrites width 0 d ipStr)) :
    getSortedDevicesWith sortSlice [d] height = some [d] ∧
      drawUI maxAlloc [d] width height = some (rowWrites width 0 d ipStr) := by
  have hl : getSortedDevicesWith sortSlice [d] height = some [d] := by
    unfold getSortedDevicesWith sortSlice
    simp only [List.insertionSort, List.orderedInsert, List.length_singleton]
    rw [if_neg (by push_cast; omega)]
  refine ⟨hl, ?_⟩
  unfold drawUI
  rw [drawUIWith_eq hl, drawRows, if_neg (by push_cast; omega)]
  simp only [Nat.cast_zero, hr, drawRows, List.append_nil]

/-- A row is laid out without a panic for every address, every heat `h ≥ 0` and
every terminal width whose bar can be allocated. -/
theorem drawRow_ok (maxAlloc : Int) (ip : String) (h width idx : Int) (h0 : 0 ≤ h)
    (hA : heatbarWidth width ≤ allocLimit maxAlloc) :
    ∃ ipStr, formatIP ip.toList = some ipStr ∧
      drawRow maxAlloc width idx ⟨ip, h⟩ = some (rowWrites width idx ⟨ip, h⟩ ipStr) := by
  obtain ⟨ipStr, hip⟩ := formatIP_total ip.toList
  have hB : 0 ≤ heatbarWidth width := le_trans (by norm_num) (heatbarWidth_ge width)
  have hL := allocLimit_le maxAlloc
  have hB2 : heatbarWidth width < 2 ^ 53 := by
    have : (2 : Int) ^ 48 < 2 ^ 53 := by norm_num
    omega
  have b1 := heatWidth_bounds h (heatbarWidth width) h0 hB hB2
  have b2 := heatWidthTwo_bounds h (heatbarWidth width) hB hB2
  exact ⟨ipStr, hip, (drawRow_eq_some_iff _ _ _ _ _).mpr
    ⟨ipStr, hip, b1.1, b1.2, b2.1, hA, le_trans b2.2 hA, rfl⟩⟩

/-- A row whose bar cannot be allocated is not drawn. -/
theorem drawRow_none (maxAlloc width idx : Int) (device : DeviceHeat)
    (hA : allocLimit maxAlloc < heatbarWidth width) :
    drawRow maxAlloc width idx device = none := by
  cases hr : drawRow maxAlloc width idx device with
  | none => rfl
  | some row =>
    obtain ⟨_, _, _, _, _, h, _⟩ := (drawRow_eq_some_iff _ _ _ _ _).mp hr
    omega

theorem heatbarWidth_40 : heatbarWidth 40 = 11 := by
  rw [heatbarWidth_eq 40 (by norm_num) (by norm_num)]
  decide

theorem heatbarWidth_5 : heatbarWidth 5 = 10 := by
  rw [heatbarWidth_eq 5 (by norm_num) (by norm_num)]
  decide

theorem formatHeat_1500 : formatHeat 1500 = "1.5k" := by
  obtain ⟨d, hd, hb⟩ := formatHeat_k (h := 1500) (by norm_num) (by norm_num)
  have h15 : d = 15 := by omega
  rw [hd, h15]
  decide

theorem heatWidthTwo_300000_11 : heatWidthTwo 300000 11 = 1 := by
  have h := heatWidthTwo_mid 300000 11 (by norm_num) (by norm_num) (by norm_num) (by norm_num)
  omega

/-! ## Label size lemmas -/

theorem utf8ByteSize_append (a b : String) :
    (a ++ b).utf8ByteSize = a.utf8ByteSize + b.utf8ByteSize := by
  cases a with
  | mk x =>
    cases b with
    | mk y =>
      show String.utf8ByteSize ⟨x ++ y⟩ = _
      simp only [String.utf8ByteSize_mk, String.utf8Len_append]

theorem utf8Len_ascii (l : List Char) (h : ∀ c ∈ l, c.utf8Size = 1) :
    String.utf8Len l = l.length := by
  induction l with
  | nil => rfl
  | cons c cs ih =>
    rw [String.utf8Len_cons, ih (fun d hd => h d (List.mem_cons_of_mem _ hd)),
      h c (List.mem_cons_self _ _), List.length_cons]

theorem digitChar_ascii (n : Nat) (h : n < 10) : (Nat.digitChar n).utf8Size = 1 := by
  interval_cases n <;> rfl

theorem toDigitsCore_ascii (fuel n : Nat) (ds : List Char) (h : ∀ c ∈ ds, c.utf8Size = 1) :
    ∀ c ∈ Nat.toDigitsCore 10 fuel n ds, c.utf8Size = 1 := by
  induction fuel generalizing n ds with
  | zero => simpa [Nat.toDigitsCore] using h
  | succ f ih =>
    have hd : ∀ c ∈ Nat.digitChar (n % 10) :: ds, c.utf8Size = 1 := by
      intro c hc
      rcases List.mem_cons.mp hc with rfl | hc
      · exact digitChar_ascii _ (Nat.mod_lt _ (by norm_num))
      · exact h c hc
    rw [Nat.toDigitsCore]
    split
    · exact hd
    · exact ih _ _ hd

/-- A decimal numeral takes one byte per digit. -/
theorem repr_utf8ByteSize (n : Nat) : (Nat.repr n).utf8ByteSize = (Nat.repr n).length := by
  unfold Nat.repr
  show String.utf8ByteSize ⟨Nat.toDigits 10 n⟩ = (Nat.toDigits 10 n).length
  rw [String.utf8ByteSize_mk]
  exact utf8Len_ascii _ (toDigitsCore_ascii _ _ _ (by simp))

theorem repr_size_le (n e : Nat) (he : 0 < e) (hn : n < 10 ^ e) :
    (Nat.repr n).utf8ByteSize ≤ e := by
  rw [repr_utf8ByteSize]
  exact Nat.repr_length n e he hn

/-- The formatted heat of a heat in `[0, MaxHeatDisplay]` has at most 8 bytes. -/
theorem formatHeat_size (h : Int) (h0 : 0 ≤ h) (hc : h ≤ MaxHeatDisplay) :
    (formatHeat h).utf8ByteSize ≤ 8 := by
  unfold MaxHeatDisplay at hc
  by_cases h1 : h < 1000
  · rw [formatHeat_units h0 h1]
    have := repr_size_le h.toNat 3 (by norm_num) (by omega)
    omega
  · by_cases h2 : h < 1000000
    · obtain ⟨d, hd, hb1, hb2⟩ := formatHeat_k (h := h) (by omega) h2
      rw [hd]
      simp only [utf8ByteSize_append]
      have a := repr_size_le (d / 10) 4 (by norm_num) (by omega)
      have b := repr_size_le (d % 10) 1 (by norm_num) (by omega)
      have c1 : ".".utf8ByteSize = 1 := by decide
      have c2 : "k".utf8ByteSize = 1 := by decide
      omega
    · have he : h = 1000000 := by omega
      rw [he, formatHeat_cap]
      decide

/-- For a heat in `[0, MaxHeatDisplay]` the label is the formatted heat between
two blanks: the length guard of lines 361-363 does not apply. -/
theorem heatValueStr_eq (h : Int) (h0 : 0 ≤ h) (hc : h ≤ MaxHeatDisplay) :
    heatValueStr h = " " ++ formatHeat h ++ " " := by
  unfold heatValueStr
  simp only
  rw [if_neg (not_lt.mpr hc), if_neg]
  rw [utf8ByteSize_append, utf8ByteSize_append]
  have := formatHeat_size h h0 hc
  have c1 : " ".utf8ByteSize = 1 := by decide
  omega

/-- Above `MaxHeatDisplay` the label is `MAX` between two blanks. -/
theorem heatValueStr_max (h : Int) (hc : MaxHeatDisplay < h) : heatValueStr h = " MAX " := by
  unfold heatValueStr
  simp only
  rw [if_pos hc]
  decide

/-! ## Interleaving lemmas -/

theorem WF_insertIfAbsent {devices : Devices} (hwf : WF devices) (ip : String) :
    WF (insertIfAbsent devices ip) := by
  unfold WF at *
  rw [keys_insertIfAbsent]
  split
  · exact hwf
  · rename_i hn
    rw [List.nodup_append]
    refine ⟨hwf, List.nodup_singleton _, ?_⟩
    intro x hx hx2
    rw [List.mem_singleton] at hx2
    exact hn (hx2 ▸ hx)

theorem WF_modify {devices : Devices} (hwf : WF devices) (ip : String) (f : Int → Int) :
    WF (modify devices ip f) := by
  unfold WF at *
  rw [keys_modify]
  exact hwf

theorem mem_keys_insertIfAbsent {devices : Devices} {ip ip2 : String}
    (h : ip2 ∈ keys devices ∨ ip2 = ip) : ip2 ∈ keys (insertIfAbsent devices ip) := by
  rw [keys_insertIfAbsent]
  split
  · rcases h with h | h
    · exact h
    · rw [h]; assumption
  · rcases h with h | h
    · exact List.mem_append_left _ h
    · rw [h]; exact List.mem_append_right _ (List.mem_singleton_self _)

theorem heatOf_eq_none_iff (devices : Devices) (ip : String) :
    heatOf devices ip = none ↔ ip ∉ keys devices := by
  unfold heatOf
  rw [Option.map_eq_none', lookup_eq_none_iff]

theorem heatOf_updateHeat_self (devices : Devices) (ip : String) (size : Int) :
    heatOf (updateHeat devices ip size) ip = some (addHeat size ((heatOf devices ip).getD 0)) := by
  unfold updateHeat
  rw [lookup_modify_self, heatOf_insertIfAbsent]
  rfl

theorem runCrits_cons (c : Crit) (l : List Crit) (devices : Devices) :
    runCrits (c :: l) devices = runCrits l (c.apply devices) := rfl

theorem runAtomic_cons (op : Atomic) (l : List Atomic) (devices : Devices) :
    runAtomic (op :: l) devices = runAtomic l (op.apply devices) := rfl

/-- Simulation of an interleaving of critical sections by the operations made
in one piece: the two registries agree on every address, except that an address
whose call has searched the registry but not yet updated the heat is already
present, with heat 0. -/
theorem interleaving_sim {threads : List (List Crit)} {l : List Crit}
    (hl : Interleaving threads l) :
    ∀ da ds : Devices, WF da →
      (∀ t ∈ threads, (∃ ip n, t = [Crit.find ip, Crit.add ip n]) ∨
        (∃ ip n, t = [Crit.add ip n] ∧ ip ∈ keys da) ∨
        (∀ c ∈ t, ∃ ip, c = Crit.decay ip)) →
      (∀ ip, heatOf da ip = heatOf ds ip ∨
        (heatOf da ip = some 0 ∧ heatOf ds ip = none ∧ ∃ n, [Crit.add ip n] ∈ threads)) →
      WF (runCrits l da) ∧
        ∀ ip, heatOf (runCrits l da) ip = heatOf (runAtomic (atomicOf l) ds) ip := by
  induction hl with
  | done threads h =>
    intro da ds hwf _ hrel
    refine ⟨hwf, fun ip => ?_⟩
    rcases hrel ip with he | ⟨_, _, n, hn⟩
    · exact he
    · exact absurd (h _ hn) (by simp)
  | step a b c rest l hl ih =>
    intro da ds hwf hvalid hrel
    have hmem : (c :: rest) ∈ a ++ (c :: rest) :: b :=
      List.mem_append_right _ (List.mem_cons_self _ _)
    -- threads other than the one that steps
    have hother : ∀ t, t ∈ a ++ rest :: b → t = rest ∨ t ∈ a ++ (c :: rest) :: b := by
      intro t ht
      rcases List.mem_append.mp ht with h | h
      · exact Or.inr (List.mem_append_left _ h)
      · rcases List.mem_cons.mp h with h | h
        · exact Or.inl h
        · exact Or.inr (List.mem_append_right _ (List.mem_cons_of_mem _ h))
    have hkeep : ∀ t, t ∈ a ++ (c :: rest) :: b → t ≠ c :: rest → t ∈ a ++ rest :: b := by
      intro t ht hne
      rcases List.mem_append.mp ht with h | h
      · exact List.mem_append_left _ h
      · rcases List.mem_cons.mp h with h | h
        · exact absurd h hne
        · exact List.mem_append_right _ (List.mem_cons_of_mem _ h)
    rw [runCrits_cons]
    rcases hvalid _ hmem with ⟨ip, n, ht⟩ | ⟨ip, n, ht, hkey⟩ | hdec
    · -- the search of a call
      simp only [List.cons.injEq] at ht
      obtain ⟨hc, hrest⟩ := ht
      subst hc hrest
      have hat : atomicOf (Crit.find ip :: l) = atomicOf l := rfl
      rw [hat]
      apply ih (Crit.apply (Crit.find ip) da) ds (WF_insertIfAbsent hwf ip)
      · intro t ht
        rcases hother t ht with h | h
        · exact Or.inr (Or.inl ⟨ip, n, h, mem_keys_insertIfAbsent (Or.inr rfl)⟩)
        · rcases hvalid t h with h1 | ⟨ip2, n2, h2, hk2⟩ | h3
          · exact Or.inl h1
          · exact Or.inr (Or.inl ⟨ip2, n2, h2, mem_keys_insertIfAbsent (Or.inl hk2)⟩)
          · exact Or.inr (Or.inr h3)
      · intro ip2
        by_cases hip : ip2 = ip
        · subst hip
          simp only [Crit.apply]
          rw [heatOf_insertIfAbsent]
          rcases hrel ip2 with he | ⟨h0, hn, n2, hn2⟩
          · cases hda : heatOf da ip2 with
            | none =>
              right
              rw [hda] at he
              exact ⟨rfl, he.symm, n, List.mem_append_right _ (List.mem_cons_self _ _)⟩
            | some v =>
              left
              rw [hda] at he
              rw [← he]
              rfl
          · right
            rw [h0]
            exact ⟨rfl, hn, n2, hkeep _ hn2 (by simp)⟩
        · simp only [Crit.apply]
          rw [heatOf_insertIfAbsent_other _ _ _ hip]
          rcases hrel ip2 with he | ⟨h0, hn, n2, hn2⟩
          · exact Or.inl he
          · exact Or.inr ⟨h0, hn, n2, hkeep _ hn2 (by simp)⟩
    · -- the update of the heat by a call
      simp only [List.cons.injEq] at ht
      obtain ⟨hc, hrest⟩ := ht
      subst hc hrest
      have hat : atomicOf (Crit.add ip n :: l) = Atomic.call ip n :: atomicOf l := rfl
      rw [hat, runAtomic_cons]
      apply ih (Crit.apply (Crit.add ip n) da) (Atomic.apply (Atomic.call ip n) ds)
        (WF_modify hwf ip _)
      · intro t ht
        rcases hother t ht with h | h
        · right; right
          intro c hc
          rw [h] at hc
          exact absurd hc (List.not_mem_nil _)
        · rcases hvalid t h with h1 | ⟨ip2, n2, h2, hk2⟩ | h3
          · exact Or.inl h1
          · refine Or.inr (Or.inl ⟨ip2, n2, h2, ?_⟩)
            show ip2 ∈ keys (modify da ip (addHeat n))
            rw [keys_modify]
            exact hk2
          · exact Or.inr (Or.inr h3)
      · intro ip2
        simp only [Crit.apply, Atomic.apply]
        by_cases hip : ip2 = ip
        · subst hip
          left
          rw [lookup_modify_self, heatOf_updateHeat_self]
          rcases hrel ip2 with he | ⟨h0, hn, _⟩
          · rw [← he]
            cases hda : heatOf da ip2 with
            | none => exact absurd hkey ((heatOf_eq_none_iff da ip2).mp hda)
            | some v => rfl
          · rw [h0, hn]
            rfl
        · rw [lookup_modify_other _ _ _ _ hip, heatOf_updateHeat_other _ _ _ _ hip]
          rcases hrel ip2 with he | ⟨h0, hn, n2, hn2⟩
          · exact Or.inl he
          · refine Or.inr ⟨h0, hn, n2, hkeep _ hn2 ?_⟩
            intro e
            simp only [List.cons.injEq, Crit.add.injEq, and_true] at e
            exact hip e.1
    · -- the decay of an entry
      obtain ⟨ip, hc⟩ := hdec c (List.mem_cons_self _ _)
      subst hc
      have hat : atomicOf (Crit.decay ip :: l) = Atomic.decayEntry ip :: atomicOf l := rfl
      rw [hat, runAtomic_cons]
      apply ih (Crit.apply (Crit.decay ip) da) (Atomic.apply (Atomic.decayEntry ip) ds)
        (WF_modify hwf ip _)
      · intro t ht
        rcases hother t ht with h | h
        · right; right
          intro c hc
          rw [h] at hc
          exact hdec c (List.mem_cons_of_mem _ hc)
        · rcases hvalid t h with h1 | ⟨ip2, n2, h2, hk2⟩ | h3
          · exact Or.inl h1
          · refine Or.inr (Or.inl ⟨ip2, n2, h2, ?_⟩)
            show ip2 ∈ keys (modify da ip decayHeat)
            rw [keys_modify]
            exact hk2
          · exact Or.inr (Or.inr h3)
      · intro ip2
        simp only [Crit.apply, Atomic.apply]
        by_cases hip : ip2 = ip
        · subst hip
          rw [lookup_modify_self, lookup_modify_self]
          rcases hrel ip2 with he | ⟨h0, hn, n2, hn2⟩
          · left; rw [he]
          · right
            rw [h0, hn]
            refine ⟨by decide, rfl, n2, hkeep _ hn2 ?_⟩
            intro e
            have := hdec (Crit.add ip2 n2) (by rw [← e]; exact List.mem_singleton_self _)
            obtain ⟨_, h⟩ := this
            exact Crit.noConfusion h
        · rw [lookup_modify_other _ _ _ _ hip, lookup_modify_other _ _ _ _ hip]
          rcases hrel ip2 with he | ⟨h0, hn, n2, hn2⟩
          · exact Or.inl he
          · refine Or.inr ⟨h0, hn, n2, hkeep _ hn2 ?_⟩
            intro e
            have := hdec (Crit.add ip2 n2) (by rw [← e]; exact List.mem_singleton_self _)
            obtain ⟨_, h⟩ := this
            exact Crit.noConfusion h

theorem atomicOf_append (l1 l2 : List Crit) : atomicOf (l1 ++ l2) = atomicOf l1 ++ atomicOf l2 := by
  unfold atomicOf
  exact List.filterMap_append _ _ _

/-- An interleaving completes the operations of its threads, each once. -/
theorem interleaving_perm {threads : List (List Crit)} {l : List Crit}
    (hl : Interleaving threads l) : (atomicOf l).Perm (threads.map atomicOf).flatten := by
  induction hl with
  | done threads h =>
    have : (threads.map atomicOf).flatten = [] := by
      rw [List.flatten_eq_nil_iff]
      intro x hx
      obtain ⟨t, ht, rfl⟩ := List.mem_map.mp hx
      rw [h t ht]
      rfl
    rw [this]
    exact List.Perm.refl _
  | step a b c rest l hl ih =>
    have e1 : atomicOf (c :: l) = atomicOf [c] ++ atomicOf l := atomicOf_append [c] l
    have e2 : atomicOf (c :: rest) = atomicOf [c] ++ atomicOf rest := atomicOf_append [c] rest
    simp only [List.map_append, List.map_cons, List.flatten_append, List.flatten_cons] at ih ⊢
    rw [e1, e2, List.append_assoc]
    exact (List.Perm.append_left _ ih).trans (List.perm_append_comm_assoc _ _ _)

theorem atomicOf_calls (calls : List (String × Int)) :
    ((calls.map callCrits).map atomicOf).flatten = calls.map (fun c => Atomic.call c.1 c.2) := by
  induction calls with
  | nil => rfl
  | cons c cs ih =>
    simp only [List.map_cons, List.flatten_cons, ih]
    rfl

theorem atomicOf_ticks (ticks : List (List String)) :
    ((ticks.map tickCrits).map atomicOf).flatten = ticks.flatten.map Atomic.decayEntry := by
  induction ticks with
  | nil => rfl
  | cons t ts ih =>
    simp only [List.map_cons, List.flatten_cons, ih, List.map_append]
    congr 1
    unfold tickCrits atomicOf
    induction t with
    | nil => rfl
    | cons x xs ihx =>
      simp only [List.map_cons, List.filterMap_cons]
      rw [ihx]

/-! ## Locking discipline lemmas -/

theorem locksOf_cons_self (m : Lock) (t : Nat) (todo : List (List Instr))
    (held : List (Lock × Nat)) :
    Sched.locksOf ⟨todo, (m, t) :: held⟩ t = m :: Sched.locksOf ⟨todo, held⟩ t := by
  simp [Sched.locksOf]

theorem locksOf_cons_other (m : Lock) (t u : Nat) (hne : t ≠ u) (todo todo2 : List (List Instr))
    (held : List (Lock × Nat)) :
    Sched.locksOf ⟨todo, (m, t) :: held⟩ u = Sched.locksOf ⟨todo2, held⟩ u := by
  simp [Sched.locksOf, hne]

theorem locksOf_erase_self (m : Lock) (t : Nat) (todo todo2 : List (List Instr))
    (held : List (Lock × Nat)) :
    Sched.locksOf ⟨todo, held.erase (m, t)⟩ t = (Sched.locksOf ⟨todo2, held⟩ t).erase m := by
  unfold Sched.locksOf
  simp only
  induction held with
  | nil => rfl
  | cons p rest ih =>
    by_cases hp : p = (m, t)
    · subst hp
      simp
    · rw [List.erase_cons_tail (by simpa using hp)]
      by_cases ht : p.2 = t
      · have hm : p.1 ≠ m := by
          intro e
          apply hp
          rw [← e, ← ht]
        simp only [List.filter_cons, ht, decide_True, if_true, List.map_cons]
        rw [List.erase_cons_tail (by simpa using hm), ← ih]
      · simp only [List.filter_cons, ht, decide_False]
        simpa using ih

theorem locksOf_erase_other (m : Lock) (t u : Nat) (hne : t ≠ u) (todo todo2 : List (List Instr))
    (held : List (Lock × Nat)) :
    Sched.locksOf ⟨todo, held.erase (m, t)⟩ u = Sched.locksOf ⟨todo2, held⟩ u := by
  unfold Sched.locksOf
  simp only
  induction held with
  | nil => rfl
  | cons p rest ih =>
    by_cases hp : p = (m, t)
    · subst hp
      simp [hne]
    · rw [List.erase_cons_tail (by simpa using hp)]
      by_cases ht : p.2 = u
      · simp only [List.filter_cons, ht, decide_True, if_true, List.map_cons]
        rw [← ih]
      · simp only [List.filter_cons, ht, decide_False]
        simpa using ih

theorem mem_locksOf {s : Sched} {t : Nat} {m : Lock} :
    m ∈ s.locksOf t ↔ (m, t) ∈ s.held := by
  unfold Sched.locksOf
  simp only [List.mem_map, List.mem_filter, decide_eq_true_eq]
  constructor
  · rintro ⟨p, ⟨hp, ht⟩, hm⟩
    rw [← hm, ← ht]
    exact hp
  · intro h
    exact ⟨(m, t), ⟨h, rfl⟩, rfl⟩

/-- The invariant of the locking discipline: a mutex has one holder, and every
goroutine keeps the discipline from the mutexes it holds. -/
theorem step_guarded {s s2 : Sched} {t : Nat} (hs : s.step t = some s2)
    (hnd : (s.held.map (fun p => p.1)).Nodup)
    (hg : ∀ u prog, s.todo[u]? = some prog → (guardedFrom (s.locksOf u) prog).isSome) :
    (s2.held.map (fun p => p.1)).Nodup ∧
      ∀ u prog, s2.todo[u]? = some prog → (guardedFrom (s2.locksOf u) prog).isSome := by
  obtain ⟨todo, held⟩ := s
  unfold Sched.step at hs
  simp only at hs hnd hg
  cases htodo : todo[t]? with
  | none => simp [htodo] at hs
  | some prog =>
    have hgt := hg t prog htodo
    have hlen : t < todo.length := by
      by_contra hge
      rw [List.getElem?_eq_none (by omega)] at htodo
      exact Option.noConfusion htodo
    cases prog with
    | nil => simp [htodo] at hs
    | cons i rest =>
      cases i with
      | lock m =>
        simp only [htodo] at hs
        split at hs
        · exact Option.noConfusion hs
        · rename_i hfree
          simp only [Option.some.injEq] at hs
          subst hs
          refine ⟨?_, ?_⟩
          · simp only [List.map_cons, List.nodup_cons]
            refine ⟨?_, hnd⟩
            intro hmem
            apply hfree
            obtain ⟨p, hp, hpm⟩ := List.mem_map.mp hmem
            exact List.any_eq_true.mpr ⟨p, hp, by simpa using hpm⟩
          · intro u prog hu
            simp only at hu
            by_cases htu : t = u
            · subst htu
              rw [List.getElem?_set_self hlen] at hu
              simp only [Option.some.injEq] at hu
              subst hu
              rw [locksOf_cons_self]
              exact hgt
            · rw [List.getElem?_set_ne htu] at hu
              rw [locksOf_cons_other m t u htu _ todo]
              exact hg u prog hu
      | unlock m =>
        simp only [htodo] at hs
        split at hs
        · simp only [Option.some.injEq] at hs
          subst hs
          refine ⟨?_, ?_⟩
          · exact hnd.sublist ((List.erase_sublist _ _).map _)
          · intro u prog hu
            simp only at hu
            by_cases htu : t = u
            · subst htu
              rw [List.getElem?_set_self hlen] at hu
              simp only [Option.some.injEq] at hu
              subst hu
              rw [locksOf_erase_self m t _ todo]
              exact hgt
            · rw [List.getElem?_set_ne htu] at hu
              rw [locksOf_erase_other m t u htu _ todo]
              exact hg u prog hu
        · exact Option.noConfusion hs
      | readHeat ip =>
        simp only [htodo, Option.some.injEq] at hs
        subst hs
        refine ⟨hnd, ?_⟩
        intro u prog hu
        simp only at hu
        by_cases htu : t = u
        · subst htu
          rw [List.getElem?_set_self hlen] at hu
          simp only [Option.some.injEq] at hu
          subst hu
          simp only [guardedFrom] at hgt
          split at hgt
          · exact hgt
          · exact absurd hgt (by simp)
        · rw [List.getElem?_set_ne htu] at hu
          exact hg u prog hu
      | writeHeat ip =>
        simp only [htodo, Option.some.injEq] at hs
        subst hs
        refine ⟨hnd, ?_⟩
        intro u prog hu
        simp only at hu
        by_cases htu : t = u
        · subst htu
          rw [List.getElem?_set_self hlen] at hu
          simp only [Option.some.injEq] at hu
          subst hu
          simp only [guardedFrom] at hgt
          split at hgt
          · exact hgt
          · exact absurd hgt (by simp)
        · rw [List.getElem?_set_ne htu] at hu
          exact hg u prog hu

theorem run_guarded {schedule : List Nat} {s s2 : Sched} (hs : Sched.run schedule s = some s2)
    (hnd : (s.held.map (fun p => p.1)).Nodup)
    (hg : ∀ u prog, s.todo[u]? = some prog → (guardedFrom (s.locksOf u) prog).isSome) :
    (s2.held.map (fun p => p.1)).Nodup ∧
      ∀ u prog, s2.todo[u]? = some prog → (guardedFrom (s2.locksOf u) prog).isSome := by
  induction schedule generalizing s with
  | nil =>
    simp only [Sched.run, Option.some.injEq] at hs
    subst hs
    exact ⟨hnd, hg⟩
  | cons t ts ih =>
    rw [Sched.run] at hs
    cases h1 : s.step t with
    | none => simp [h1] at hs
    | some s1 =>
      rw [h1] at hs
      obtain ⟨a, b⟩ := step_guarded h1 hnd hg
      exact ih hs a b

/-- An access made under the discipline is made with the mutex of the entry
held. -/
theorem guarded_access {held : List Lock} {i : Instr} {rest : List Instr} {ip : String}
    {w : Bool} (hg : (guardedFrom held (i :: rest)).isSome) (ha : i.access = some (ip, w)) :
    Lock.entryMutex ip ∈ held := by
  cases i with
  | lock m => exact Option.noConfusion ha
  | unlock m => exact Option.noConfusion ha
  | readHeat a =>
    simp only [Instr.access, Option.some.injEq, Prod.mk.injEq] at ha
    simp only [guardedFrom] at hg
    split at hg
    · rename_i h; rw [← ha.1]; exact h
    · exact absurd hg (by simp)
  | writeHeat a =>
    simp only [Instr.access, Option.some.injEq, Prod.mk.injEq] at ha
    simp only [guardedFrom] at hg
    split at hg
    · rename_i h; rw [← ha.1]; exact h
    · exact absurd hg (by simp)

/-- Under the locking discipline no state has a data race. -/
theorem no_race_of_guarded {s : Sched} (hnd : (s.held.map (fun p => p.1)).Nodup)
    (hg : ∀ u prog, s.todo[u]? = some prog → (guardedFrom (s.locksOf u) prog).isSome)
    (t u : Nat) : s.race t u = false := by
  by_contra hr
  rw [Bool.not_eq_false] at hr
  unfold Sched.race at hr
  simp only [Bool.and_eq_true, decide_eq_true_eq] at hr
  obtain ⟨hne, hm⟩ := hr
  unfold Sched.next at hm
  cases ht : s.todo[t]? with
  | none => simp [ht] at hm
  | some pt =>
    cases hu : s.todo[u]? with
    | none => simp [ht, hu] at hm
    | some pu =>
      cases pt with
      | nil => simp [ht] at hm
      | cons it rt =>
        cases pu with
        | nil => simp [ht, hu] at hm
        | cons iu ru =>
          simp only [ht, hu, Option.some_bind, List.head?_cons] at hm
          cases hat : it.access with
          | none => simp [hat] at hm
          | some at1 =>
            cases hau : iu.access with
            | none => simp [hat, hau] at hm
            | some au1 =>
              obtain ⟨a, w1⟩ := at1
              obtain ⟨b, w2⟩ := au1
              simp only [hat, hau, Bool.and_eq_true, decide_eq_true_eq] at hm
              have h1 := guarded_access (hg t _ ht) hat
              have h2 := guarded_access (hg u _ hu) hau
              rw [mem_locksOf] at h1 h2
              rw [← hm.1] at h2
              -- the mutex of the entry has one holder
              have hinj : ∀ (l : List (Lock × Nat)), (l.map (fun p => p.1)).Nodup →
                  ∀ m x y, (m, x) ∈ l → (m, y) ∈ l → x = y := by
                intro l
                induction l with
                | nil => intro _ m x y hx; exact absurd hx (List.not_mem_nil _)
                | cons p rest ih =>
                  intro hn m x y hx hy
                  simp only [List.map_cons, List.nodup_cons] at hn
                  rcases List.mem_cons.mp hx with hx | hx
                  · rcases List.mem_cons.mp hy with hy | hy
                    · rw [← hx] at hy
                      exact (Prod.mk.inj hy).2.symm
                    · exfalso
                      apply hn.1
                      rw [← hx]
                      exact List.mem_map.mpr ⟨(m, y), hy, rfl⟩
                  · rcases List.mem_cons.mp hy with hy | hy
                    · exfalso
                      apply hn.1
                      rw [← hy]
                      exact List.mem_map.mpr ⟨(m, x), hx, rfl⟩
                    · exact ih hn.2 m x y hx hy
              exact hne (hinj s.held hnd _ t u h1 h2)

theorem guardedFrom_append (held : List Lock) (p q : List Instr) :
    guardedFrom held (p ++ q) = (guardedFrom held p).bind (fun h => guardedFrom h q) := by
  induction p generalizing held with
  | nil => rfl
  | cons i rest ih =>
    cases i with
    | lock m => exact ih _
    | unlock m => exact ih _
    | readHeat ip =>
      simp only [List.cons_append, guardedFrom]
      split
      · exact ih _
      · rfl
    | writeHeat ip =>
      simp only [List.cons_append, guardedFrom]
      split
      · exact ih _
      · rfl

theorem guardedFrom_updateHeat (held : List Lock) (ip : String) (capped : Bool) :
    guardedFrom held (updateHeatSteps ip capped) = some held := by
  cases capped <;>
    simp [updateHeatSteps, guardedFrom, List.erase_cons_head]

theorem guardedFrom_decayEntry (held : List Lock) (ip : String) (floored : Bool) :
    guardedFrom held (decayEntrySteps ip floored) = some held := by
  cases floored <;>
    simp [decayEntrySteps, guardedFrom, List.erase_cons_head]

theorem guardedFrom_row (held : List Lock) (ip : String) :
    guardedFrom held (rowSteps ip) = some held := by
  simp [rowSteps, guardedFrom, List.erase_cons_head]

theorem guardedFrom_decay (visited : List (String × Bool)) :
    guardedFrom [] (heatbarDecaySteps visited) = some [] := by
  unfold heatbarDecaySteps
  rw [List.append_assoc, guardedFrom_append]
  simp only [guardedFrom, Option.some_bind]
  have h : ∀ (vs : List (String × Bool)) (held : List Lock),
      guardedFrom held (vs.map (fun v => decayEntrySteps v.1 v.2)).flatten = some held := by
    intro vs
    induction vs with
    | nil => intro held; rfl
    | cons v rest ih =>
      intro held
      simp only [List.map_cons, List.flatten_cons]
      rw [guardedFrom_append, guardedFrom_decayEntry]
      exact ih held
  rw [guardedFrom_append, h]
  simp [guardedFrom]

/-- The blocks of steps that keep the locking discipline: a call `updateHeat`,
a tick of `heatbarDecay`, and the head of a row of `drawUI`. -/
theorem guardedFrom_blocks (blocks : List (List Instr))
    (hb : ∀ b ∈ blocks, (∃ ip capped, b = updateHeatSteps ip capped) ∨
      (∃ visited, b = heatbarDecaySteps visited) ∨ (∃ ip, b = rowSteps ip)) :
    guardedFrom [] blocks.flatten = some [] := by
  induction blocks with
  | nil => rfl
  | cons b rest ih =>
    rw [List.flatten_cons, guardedFrom_append]
    have hrest := ih (fun c hc => hb c (List.mem_cons_of_mem _ hc))
    rcases hb b (List.mem_cons_self _ _) with ⟨ip, capped, h⟩ | ⟨visited, h⟩ | ⟨ip, h⟩
    · rw [h, guardedFrom_updateHeat [] ip capped]
      exact hrest
    · rw [h, guardedFrom_decay]
      exact hrest
    · rw [h, guardedFrom_row]
      exact hrest

/-! ## Claims on the heat registry -/

/-- C1: after `updateHeat(address, byteCount)` the heat of that address is
`min(priorHeat + byteCount, MaxHeatDisplay)`, where `priorHeat` is 0 when the
address had no entry; this holds for every registry and every byte count. -/
theorem updateHeat_heat (devices : Devices) (ip : String) (size : Int) :
    heatOf (updateHeat devices ip size) ip =
      some (min ((heatOf devices ip).getD 0 + size) MaxHeatDisplay) := by
  unfold updateHeat
  rw [lookup_modify_self, heatOf_insertIfAbsent, Option.map_some', addHeat_eq_min]

/-- C2: starting from the empty registry, after any finite sequence of
`updateHeat` calls with non-negative sizes and decay ticks, every entry has
`0 ≤ heat ≤ MaxHeatDisplay = 1000000`. -/
theorem registry_invariant (ops : List Op) (hs : sizesNonneg ops) :
    ∀ d ∈ run ops [], 0 ≤ d.Heat ∧ d.Heat ≤ 1000000 :=
  heatInv_run ops hs (fun _ hd => absurd hd (List.not_mem_nil _))

theorem registry_invariant_witness :
    sizesNonneg [Op.update "10.0.0.1" 1600, Op.decay, Op.update "10.0.0.1" 2000000] ∧
      ∀ d ∈ run [Op.update "10.0.0.1" 1600, Op.decay, Op.update "10.0.0.1" 2000000] [],
        0 ≤ d.Heat ∧ d.Heat ≤ 1000000 :=
  have hs : sizesNonneg [Op.update "10.0.0.1" 1600, Op.decay, Op.update "10.0.0.1" 2000000] := by
    intro ip size hm
    simp at hm
    omega
  ⟨hs, registry_invariant _ hs⟩

/-- C3: one decay tick maps the heat `h` of every entry to
`max (h - DecayRate) 0` with `DecayRate = 500`, whatever the order in which the
entries are visited, and leaves the list of addresses unchanged. -/
theorem decay_tick_spec (devices : Devices) (order : List String) (hwf : WF devices)
    (hperm : order.Perm (keys devices)) :
    decayVisit order devices = devices.map (fun d => { d with Heat := max (d.Heat - 500) 0 }) ∧
      keys (decayVisit order devices) = keys devices ∧
      (∀ ip h, heatOf devices ip = some h →
        heatOf (decayVisit order devices) ip = some (max (h - 500) 0)) := by
  have hmap : decayVisit order devices =
      devices.map (fun d => { d with Heat := max (d.Heat - 500) 0 }) := by
    rw [decayVisit_perm hwf hperm]
    apply List.map_congr_left
    intro d _
    rw [decayHeat_eq_max]
    rfl
  refine ⟨hmap, ?_, ?_⟩
  · rw [hmap, keys_map_heat devices (fun h => max (h - 500) 0)]
  · intro ip h hh
    rw [hmap, heatOf_map_heat devices (fun h => max (h - 500) 0), hh]
    rfl

theorem decay_tick_spec_witness :
    decayVisit ["B", "A"] [⟨"A", 200000⟩, ⟨"B", 50000⟩] = [⟨"A", 199500⟩, ⟨"B", 49500⟩] ∧
      heatOf (decayVisit ["B", "A"] [⟨"A", 200000⟩, ⟨"B", 50000⟩]) "A" = some 199500 :=
  have h := decay_tick_spec [⟨"A", 200000⟩, ⟨"B", 50000⟩] ["B", "A"] (by decide) (by decide)
  ⟨h.1, h.2.2 "A" 200000 (by decide)⟩

/-- C4: with no intervening `updateHeat`, an entry with heat `h ≥ 0` has heat
`max (h - 500 * k) 0` after `k` decay ticks; in particular its heat is exactly 0
after `⌈h / DecayRate⌉` ticks and after every later tick. -/
theorem decay_converges (devices : Devices) (hwf : WF devices) (ip : String) (h : Int)
    (hh : heatOf devices ip = some h) (h0 : 0 ≤ h) (k : ℕ) :
    heatOf (heatbarDecayTick^[k] devices) ip = some (max (h - 500 * k) 0) ∧
      (⌈(h : ℚ) / (DecayRate : ℚ)⌉ ≤ (k : Int) →
        heatOf (heatbarDecayTick^[k] devices) ip = some 0) := by
  have hk : heatOf (heatbarDecayTick^[k] devices) ip = some (max (h - 500 * k) 0) := by
    rw [heatOf_iterate_tick hwf, hh, Option.map_some', decayHeat_iterate h h0]
    rfl
  refine ⟨hk, fun hc => ?_⟩
  rw [hk]
  have h1 : (h : ℚ) / (DecayRate : ℚ) ≤ (k : ℚ) := by
    have := Int.ceil_le.mp hc
    simpa using this
  have h2 : (h : ℚ) ≤ 500 * (k : ℚ) := by
    have h500 : ((DecayRate : Int) : ℚ) = 500 := by simp [DecayRate]
    rw [h500, div_le_iff₀ (by norm_num)] at h1
    linarith
  have h3 : h ≤ 500 * (k : Int) := by exact_mod_cast h2
  rw [max_eq_right (by omega)]

theorem decay_converges_witness :
    heatOf (heatbarDecayTick^[3] [⟨"A", 1200⟩, ⟨"B", 50000⟩]) "A" = some 0 :=
  (decay_converges [⟨"A", 1200⟩, ⟨"B", 50000⟩] (by decide) "A" 1200 (by decide) (by decide) 3).2
    (by
      rw [Int.ceil_le]
      norm_num [DecayRate])


/-- C5: for a registry with unique addresses and a terminal height `H ≥ 0`,
`getSortedDevices` returns exactly the first `min n H` of the `n` entries in the
order heat descending, ties by address ascending.  The returned list does not
depend on the iteration order of the map nor on the sorting routine, holds no
entry twice, and omits no entry that ranks before a returned one. -/
theorem getSortedDevices_spec (sort : List DeviceHeat → List DeviceHeat)
    (hsort : SortContract sort) (devices iter : Devices) (hwf : WF devices)
    (hperm : iter.Perm devices) (height : Int) (hH : 0 ≤ height) :
    ∃ ranked result : List DeviceHeat,
      ranked.Perm devices ∧ ranked.Pairwise ranksBefore ∧
      result = ranked.take (min devices.length height.toNat) ∧
      getSortedDevicesWith sort iter height = some result ∧
      getSortedDevices devices height = some result ∧
      result.Nodup ∧
      (∀ d ∈ devices, ∀ r ∈ result, ranksBefore d r → d ∈ result) := by
  have hval : ∀ (srt : List DeviceHeat → List DeviceHeat) (it : Devices),
      srt it = sortSlice devices →
      getSortedDevicesWith srt it height =
        some ((sortSlice devices).take (min devices.length height.toNat)) := by
    intro srt it he
    have hlen : (sortSlice devices).length = devices.length :=
      (sortSlice_contract devices).1.length_eq
    unfold getSortedDevicesWith
    simp only [he, hlen]
    by_cases hgt : (devices.length : Int) > height
    · rw [if_pos hgt, if_pos hH, min_eq_right (by omega)]
    · rw [if_neg hgt, min_eq_left (by omega), ← hlen, List.take_length]
  have hnd : (sortSlice devices).Nodup :=
    (sortSlice_contract devices).1.nodup_iff.mpr (nodup_of_WF hwf)
  refine ⟨sortSlice devices, _, (sortSlice_contract devices).1, sortSlice_ranked hwf, rfl,
    hval sort iter (sort_unique hsort hperm), hval sortSlice devices rfl,
    hnd.sublist (List.take_sublist _ _), ?_⟩
  intro d hd r hr hdr
  have hmem : d ∈ sortSlice devices := (sortSlice_contract devices).1.mem_iff.mpr hd
  rw [← List.take_append_drop (min devices.length height.toNat) (sortSlice devices)] at hmem
  rcases List.mem_append.mp hmem with h | h
  · exact h
  · have hp := sortSlice_ranked hwf
    rw [← List.take_append_drop (min devices.length height.toNat) (sortSlice devices),
      List.pairwise_append] at hp
    exact absurd (hp.2.2 r hr d h) (fun hrd => ranksBefore_asymm hdr hrd)

theorem getSortedDevices_spec_witness :
    ∃ ranked result : List DeviceHeat,
      ranked.Perm [⟨"B", 50000⟩, ⟨"C", 700⟩, ⟨"A", 50000⟩] ∧ ranked.Pairwise ranksBefore ∧
      result = ranked.take (min [(⟨"B", 50000⟩ : DeviceHeat), ⟨"C", 700⟩, ⟨"A", 50000⟩].length
        (2 : Int).toNat) ∧
      getSortedDevicesWith sortSlice [⟨"C", 700⟩, ⟨"A", 50000⟩, ⟨"B", 50000⟩] 2 = some result ∧
      getSortedDevices [⟨"B", 50000⟩, ⟨"C", 700⟩, ⟨"A", 50000⟩] 2 = some result ∧
      result.Nodup ∧
      (∀ d ∈ [(⟨"B", 50000⟩ : DeviceHeat), ⟨"C", 700⟩, ⟨"A", 50000⟩], ∀ r ∈ result,
        ranksBefore d r → d ∈ result) :=
  getSortedDevices_spec sortSlice sortSlice_contract [⟨"B", 50000⟩, ⟨"C", 700⟩, ⟨"A", 50000⟩]
    [⟨"C", 700⟩, ⟨"A", 50000⟩, ⟨"B", 50000⟩] (by decide) (by decide) 2 (by decide)


/-! ## Claims on the frame layout -/

/-- C6: the claim is that the label is `MAX` for every heat `h ≥ MaxHeatDisplay`.
The code writes `MAX` for every heat above `MaxHeatDisplay`, but at the cap
itself, the value an entry holds after `updateHeat` clamps it, the label is
`1.0M`. -/
theorem heatValueStr_at_cap :
    heatValueStr MaxHeatDisplay = " 1.0M " ∧
      ∀ h : Int, MaxHeatDisplay < h → heatValueStr h = " MAX " := by
  constructor
  · unfold heatValueStr
    simp only [MaxHeatDisplay, gt_iff_lt, lt_irrefl, if_false, formatHeat_cap]
    decide
  · intro h hh
    unfold heatValueStr
    simp only [gt_iff_lt, hh, if_true]
    decide

theorem heatValueStr_at_cap_witness : heatValueStr 1000001 = " MAX " :=
  heatValueStr_at_cap.2 1000001 (by decide)

/-- C7: for an integer heat `h ≥ 0`, `formatHeat h` is the decimal numeral of `h`
when `h < 1000`; a numeral with exactly one decimal digit followed by `k`, a
nearest tenth of `h / 1000`, when `1000 ≤ h < 1000000`; and otherwise a numeral
with exactly one decimal digit followed by `M`, a nearest tenth of
`h / 1000000` (for `h < 2 ^ 48`).  The four sample values are as listed. -/
theorem formatHeat_spec (h : Int) (h0 : 0 ≤ h) :
    (h < 1000 → formatHeat h = Nat.repr h.toNat) ∧
      (1000 ≤ h → h < 1000000 →
        ∃ d : ℕ, formatHeat h = Nat.repr (d / 10) ++ "." ++ Nat.repr (d % 10) ++ "k" ∧
          100 * (d : Int) - 50 ≤ h ∧ h ≤ 100 * (d : Int) + 50) ∧
      (1000000 ≤ h →
        ∃ d : ℕ, formatHeat h = Nat.repr (d / 10) ++ "." ++ Nat.repr (d % 10) ++ "M" ∧
          (h < 2 ^ 48 → 100000 * (d : Int) - 50000 ≤ h ∧ h ≤ 100000 * (d : Int) + 50000)) ∧
      formatHeat 0 = "0" ∧ formatHeat 999 = "999" ∧ formatHeat 1500 = "1.5k" ∧
      formatHeat 2500000 = "2.5M" := by
  refine ⟨formatHeat_units h0, formatHeat_k, formatHeat_M, ?_, ?_, ?_, ?_⟩
  · rw [formatHeat_units (by norm_num) (by norm_num)]; decide
  · rw [formatHeat_units (by norm_num) (by norm_num)]; decide
  · obtain ⟨d, hd, hb⟩ := formatHeat_k (h := 1500) (by norm_num) (by norm_num)
    have h15 : d = 15 := by omega
    rw [hd, h15]
    decide
  · obtain ⟨d, hd, hb⟩ := formatHeat_M (h := 2500000) (by norm_num)
    have hb2 := hb (by norm_num)
    have h25 : d = 25 := by omega
    rw [hd, h25]
    decide

theorem formatHeat_spec_witness :
    ∃ d : ℕ, formatHeat 49500 = Nat.repr (d / 10) ++ "." ++ Nat.repr (d % 10) ++ "k" ∧
      100 * (d : Int) - 50 ≤ 49500 ∧ (49500 : Int) ≤ 100 * (d : Int) + 50 :=
  (formatHeat_spec 49500 (by decide)).2.1 (by decide) (by decide)

/-- C8, as stated, fails: with heat 87000 and bar width 25 the exact product
`87000 / 150000 * 25` is 14.5, which rounds (halves away from zero) to 15, but
the `float64` product lies just below 14.5 and `drawUI` computes 14. -/
theorem heatWidth_not_exact :
    (0 : Int) ≤ 87000 ∧ (10 : Int) ≤ 25 ∧ heatWidth 87000 25 = 14 ∧
      specTierOneWidth 87000 25 = 15 ∧ heatWidth 87000 25 ≠ specTierOneWidth 87000 25 := by
  refine ⟨by norm_num, by norm_num, heatWidth_87000_25, specTierOneWidth_87000_25, ?_⟩
  rw [heatWidth_87000_25, specTierOneWidth_87000_25]
  norm_num

/-- C8, amended: for every heat `h ≥ 0` and bar width `10 ≤ B ≤ 2 ^ 30` the
tier-one width `w` of `drawUI` is a nearest integer to
`clamp(h / MaxBytes, 0, 1) * B`, that is `|w - min h 150000 * B / 150000| ≤ 1/2`;
it equals `round(clamp(h / MaxBytes, 0, 1) * B)` whenever that product is not
exactly half-way between two integers; hence `0 ≤ w ≤ B`.  With `B = 100`,
heat 75000 gives 50 and heat 300000 gives 100. -/
theorem heatWidth_spec (h B : Int) (h0 : 0 ≤ h) (hB : 10 ≤ B) (hB2 : B ≤ 2 ^ 30) :
    0 ≤ heatWidth h B ∧ heatWidth h B ≤ B ∧
      2 * (min h 150000 * B) - 150000 ≤ 2 * 150000 * heatWidth h B ∧
      2 * 150000 * heatWidth h B ≤ 2 * (min h 150000 * B) + 150000 ∧
      ((2 * (min h 150000 * B)) % 300000 ≠ 150000 → heatWidth h B = specTierOneWidth h B) ∧
      heatWidth 75000 100 = 50 ∧ heatWidth 300000 100 = 100 := by
  have hn := heatWidth_nearest h B h0 hB hB2
  have hsp := specTierOneWidth_nearest h B h0
  have hP0 : 0 ≤ min h 150000 * B := mul_nonneg (le_min h0 (by norm_num)) (by omega)
  have hP1 : min h 150000 * B ≤ 150000 * B :=
    mul_le_mul_of_nonneg_right (min_le_right _ _) (by omega)
  generalize min h 150000 * B = P at hn hsp hP0 hP1
  refine ⟨by omega, by omega, hn.1, hn.2, fun hne => by omega, ?_, ?_⟩
  · have h1 := heatWidth_mid 75000 100 (by norm_num) (by norm_num) (by norm_num) (by norm_num)
    omega
  · exact heatWidth_full 300000 100 (by norm_num) (by norm_num) (by norm_num)

theorem heatWidth_spec_witness :
    0 ≤ heatWidth 87000 25 ∧ heatWidth 87000 25 ≤ 25 ∧
      2 * (min 87000 150000 * 25) - 150000 ≤ 2 * 150000 * heatWidth 87000 25 :=
  have h := heatWidth_spec 87000 25 (by decide) (by decide) (by decide)
  ⟨h.1, h.2.1, h.2.2.1⟩

/-- C9, as stated, fails: with heat 585000 and bar width 50 the exact product
`(585000 - 150000) / 1500000 * 50` is 14.5, which rounds to 15, but the
`float64` product lies just below 14.5 and `drawUI` computes 14. -/
theorem heatWidthTwo_not_exact :
    (10 : Int) ≤ 50 ∧ heatWidthTwo 585000 50 = 14 ∧ specTierTwoWidth 585000 50 = 15 ∧
      heatWidthTwo 585000 50 ≠ specTierTwoWidth 585000 50 := by
  refine ⟨by norm_num, heatWidthTwo_585000_50, specTierTwoWidth_585000_50, ?_⟩
  rw [heatWidthTwo_585000_50, specTierTwoWidth_585000_50]
  norm_num

/-- C9, amended: for every heat `h` and bar width `10 ≤ B ≤ 2 ^ 30` the tier-two
width `w` of `drawUI` is a nearest integer to
`clamp((h - MaxBytes) / (MaxBytes * 10), 0, 1) * B`; it equals the rounding of
that product whenever the product is not exactly half-way between two
integers; it is 0 whenever `h ≤ MaxBytes`, and `0 ≤ w ≤ B`.  With `B = 100`,
heat 75000 gives 0 and heat 300000 gives 10. -/
theorem heatWidthTwo_spec (h B : Int) (hB : 10 ≤ B) (hB2 : B ≤ 2 ^ 30) :
    0 ≤ heatWidthTwo h B ∧ heatWidthTwo h B ≤ B ∧
      2 * (min (max (h - 150000) 0) 1500000 * B) - 1500000 ≤
        2 * 1500000 * heatWidthTwo h B ∧
      2 * 1500000 * heatWidthTwo h B ≤
        2 * (min (max (h - 150000) 0) 1500000 * B) + 1500000 ∧
      ((2 * (min (max (h - 150000) 0) 1500000 * B)) % 3000000 ≠ 1500000 →
        heatWidthTwo h B = specTierTwoWidth h B) ∧
      (h ≤ MaxBytes → heatWidthTwo h B = 0) ∧
      heatWidthTwo 75000 100 = 0 ∧ heatWidthTwo 300000 100 = 10 := by
  have hn := heatWidthTwo_nearest h B hB hB2
  have hsp := specTierTwoWidth_nearest h B
  have hP0 : 0 ≤ min (max (h - 150000) 0) 1500000 * B :=
    mul_nonneg (le_min (le_max_right _ _) (by norm_num)) (by omega)
  have hP1 : min (max (h - 150000) 0) 1500000 * B ≤ 1500000 * B :=
    mul_le_mul_of_nonneg_right (min_le_right _ _) (by omega)
  generalize min (max (h - 150000) 0) 1500000 * B = P at hn hsp hP0 hP1
  refine ⟨by omega, by omega, hn.1, hn.2, fun hne => by omega,
    fun hle => heatWidthTwo_low h B hle, heatWidthTwo_low 75000 100 (by norm_num), ?_⟩
  have h1 := heatWidthTwo_mid 300000 100 (by norm_num) (by norm_num) (by norm_num) (by norm_num)
  omega

theorem heatWidthTwo_spec_witness :
    0 ≤ heatWidthTwo 585000 50 ∧ heatWidthTwo 585000 50 ≤ 50 ∧
      2 * (min (max (585000 - 150000) 0) 1500000 * 50) - 1500000 ≤
        2 * 1500000 * heatWidthTwo 585000 50 :=
  have h := heatWidthTwo_spec 585000 50 (by decide) (by decide)
  ⟨h.1, h.2.1, h.2.2.1⟩


/-- C10, as stated, fails at the low end of `int`, where the subtractions of
line 247 wrap around: with `W = -2 ^ 63` the bar width is `2 ^ 63 - 29`, while
`max 10 (W - 29) = 10`; the same holds for every `W` below `-2 ^ 63 + 29`. -/
theorem heatbarWidth_wraps :
    heatbarWidth (-9223372036854775808) = 9223372036854775779 ∧
      max (10 : Int) (-9223372036854775808 - 29) = 10 ∧
      ∀ W : Int, -2 ^ 63 ≤ W → W < -2 ^ 63 + 29 →
        heatbarWidth W = W - 29 + 2 ^ 64 ∧ heatbarWidth W ≠ max 10 (W - 29) := by
  refine ⟨?_, by decide, ?_⟩
  · rw [heatbarWidth_wrapped _ (by norm_num) (by norm_num)]
    norm_num
  · intro W hlo hhi
    have hw := heatbarWidth_wrapped W hlo hhi
    refine ⟨hw, ?_⟩
    rw [hw, max_eq_left (by norm_num at hlo hhi ⊢; omega)]
    norm_num at hlo hhi ⊢
    omega

/-- C10, amended: for every terminal width `W` of the `int` range from
`-2 ^ 63 + 29` on, the bar width of `drawUI` is
`max 10 (W - IPColumnWidth - len(Separator) - 10) = max 10 (W - 29)`, with
`IPColumnWidth = 16` and `len(Separator) = 3`; and the bar width is at least 10
for every width whatever. -/
theorem heatbarWidth_spec (W : Int) (hlo : -2 ^ 63 + 29 ≤ W) (hhi : W < 2 ^ 63) :
    heatbarWidth W = max 10 (W - IPColumnWidth - (Separator.utf8ByteSize : Int) - 10) ∧
      heatbarWidth W = max 10 (W - 29) ∧ IPColumnWidth = 16 ∧ Separator.utf8ByteSize = 3 ∧
      ∀ V : Int, 10 ≤ heatbarWidth V := by
  have hs : Separator.utf8ByteSize = 3 := by decide
  have hw := heatbarWidth_eq W hlo hhi
  refine ⟨?_, hw, rfl, hs, heatbarWidth_ge⟩
  rw [hw, hs]
  simp only [IPColumnWidth, Nat.cast_ofNat]
  congr 1
  omega

theorem heatbarWidth_spec_witness :
    heatbarWidth 80 = 51 ∧ heatbarWidth (-7) = 10 :=
  ⟨(heatbarWidth_spec 80 (by norm_num) (by norm_num)).2.1.trans (by decide),
    (heatbarWidth_spec (-7) (by norm_num) (by norm_num)).2.1.trans (by decide)⟩

/-! ## Claims on the rendered cells -/

/-- C11: the claim is that no cell write of a frame has column `≥ W` or row
`≥ H`.  Every write has its row in `[0, H)`, and every write other than an
address cell has its column `< W`; but the address loop stops at
`IPColumnWidth`, not at the terminal width: with `W = 5` the frame writes the
address cell of column 14. -/
theorem address_cells_past_width :
    (∀ maxAlloc : Int, 10 ≤ maxAlloc →
      ∃ writes, drawUI maxAlloc [⟨"10.0.0.1", 0⟩] 5 1 = some writes ∧
        (⟨14, 0, ' ', Attribute.ColorWhite, Attribute.ColorDefault⟩ : Cell) ∈ writes ∧
        ¬ ((14 : Int) < 5)) ∧
    (∀ (maxAlloc : Int) (sort : List DeviceHeat → List DeviceHeat) (iter : Devices)
      (width height : Int) (writes : List Cell),
      drawUIWith maxAlloc sort iter width height = some writes →
      ∀ c ∈ writes, 0 ≤ c.y ∧ c.y < height ∧
        (c.x < width ∨ (0 ≤ c.x ∧ c.x < IPColumnWidth ∧ c.fg = Attribute.ColorWhite))) := by
  constructor
  · intro maxAlloc hA
    obtain ⟨ipStr, hip, hr⟩ := drawRow_ok maxAlloc "10.0.0.1" 0 5 0 (le_refl _)
      (by rw [heatbarWidth_5]; exact le_allocLimit hA (by norm_num))
    have hfmt : formatIP "10.0.0.1".toList = some "10 .0  .0  .1  ".toList := by decide
    rw [hfmt] at hip
    simp only [Option.some.injEq] at hip
    refine ⟨_, (drawUI_single maxAlloc _ 5 1 (le_refl _) ipStr hr).2, ?_, by norm_num⟩
    unfold rowWrites
    simp only [List.append_assoc]
    apply List.mem_append_left
    rw [← hip]
    decide
  · intro maxAlloc sort iter width height writes hf c hc
    cases hl : getSortedDevicesWith sort iter height with
    | none =>
      unfold drawUIWith at hf
      rw [hl] at hf
      exact Option.noConfusion hf
    | some list =>
      rw [drawUIWith_eq hl] at hf
      obtain ⟨h1, h2, k, d, ipStr, _, _, hmem⟩ := drawRows_cells hf hc
      refine ⟨by push_cast at h1; omega, h2, ?_⟩
      rcases rowWrites_x hmem with hx | ⟨hin, hx0, hx1⟩
      · exact Or.inl hx
      · right
        refine ⟨hx0, hx1, ?_⟩
        unfold ipCells at hin
        obtain ⟨_, _, _, _, he⟩ := mem_rangeLoop hin
        rw [he]

theorem address_cells_past_width_witness :
    ∀ c ∈ rowWrites 5 0 ⟨"10.0.0.1", 0⟩ "10 .0  .0  .1  ".toList, 0 ≤ c.y ∧ c.y < 1 := by
  obtain ⟨ipStr, hip, hr⟩ := drawRow_ok 1048576 "10.0.0.1" 0 5 0 (le_refl _)
    (by rw [heatbarWidth_5]; decide)
  have hfmt : formatIP "10.0.0.1".toList = some "10 .0  .0  .1  ".toList := by decide
  rw [hfmt] at hip
  simp only [Option.some.injEq] at hip
  rw [← hip] at hr
  intro c hc
  have h := address_cells_past_width.2 1048576 sortSlice [⟨"10.0.0.1", 0⟩] 5 1 _
    (drawUI_single 1048576 _ 5 1 (le_refl _) _ hr).2 c hc
  exact ⟨h.1, h.2.1⟩

/-- C12: for an address whose split on `.` has exactly four segments, the
address text is the four segments joined by `.`, each made exactly 3
characters long (spaces appended if shorter, cut to its first 3 characters if
longer, unchanged otherwise); it is 15 characters wide, and all of it is drawn,
character `i` at column `i`. -/
theorem address_quad (ipStr : List Char) (idx : Int) (h4 : (splitDot ipStr).length = 4) :
    formatIP ipStr = some (List.intercalate ['.'] ((splitDot ipStr).map specFit3)) ∧
      (∀ p ∈ (splitDot ipStr).map specFit3, p.length = 3) ∧
      (List.intercalate ['.'] ((splitDot ipStr).map specFit3)).length = 15 ∧
      ipCells idx (List.intercalate ['.'] ((splitDot ipStr).map specFit3)) =
        (List.intercalate ['.'] ((splitDot ipStr).map specFit3)).enum.map
          (fun p => ⟨(p.1 : Int), idx, p.2, Attribute.ColorWhite, Attribute.ColorDefault⟩) := by
  have h3 : ∀ p ∈ (splitDot ipStr).map specFit3, p.length = 3 := by
    intro p hp
    obtain ⟨q, _, rfl⟩ := List.mem_map.mp hp
    exact specFit3_length q
  have h15 := intercalate_quad_length ((splitDot ipStr).map specFit3)
    (by rw [List.length_map]; exact h4) h3
  exact ⟨formatIP_of_quad ipStr h4, h3, h15, ipCells_all idx _ (by omega)⟩

theorem address_quad_witness :
    formatIP "192.168.1.25".toList = some "192.168.1  .25 ".toList :=
  (address_quad "192.168.1.25".toList 0 (by decide)).1.trans (by decide)

/-- C13: for an address whose split on `.` does not have exactly four
segments, the address text has length exactly `IPColumnWidth = 16`: the address
followed by spaces when it has at most 16 characters, its first 16 characters
otherwise; all of it is drawn, character `i` at column `i`. -/
theorem address_other (ipStr : List Char) (idx : Int) (h4 : (splitDot ipStr).length ≠ 4) :
    ∃ text, formatIP ipStr = some text ∧ text.length = 16 ∧
      (ipStr.length ≤ 16 → text = ipStr ++ List.replicate (16 - ipStr.length) ' ') ∧
      (16 < ipStr.length → text = ipStr.take 16) ∧
      ipCells idx text = text.enum.map
        (fun p => ⟨(p.1 : Int), idx, p.2, Attribute.ColorWhite, Attribute.ColorDefault⟩) := by
  have hf := formatIP_of_other ipStr h4
  by_cases hl : ipStr.length ≤ 16
  · rw [if_pos hl] at hf
    have hlen : (ipStr ++ List.replicate (16 - ipStr.length) ' ').length = 16 := by
      rw [List.length_append, List.length_replicate]; omega
    exact ⟨_, hf, hlen, fun _ => rfl, fun h => absurd hl (by omega),
      ipCells_all idx _ (by omega)⟩
  · rw [if_neg hl] at hf
    have hlen : (ipStr.take 16).length = 16 := by
      rw [List.length_take]; omega
    exact ⟨_, hf, hlen, fun h => absurd h hl, fun _ => rfl, ipCells_all idx _ (by omega)⟩

theorem address_other_witness :
    ∃ text, formatIP "2001:db8::ff00:42:8329".toList = some text ∧ text.length = 16 ∧
      text = "2001:db8::ff00:4".toList :=
  have h := address_other "2001:db8::ff00:42:8329".toList 0 (by decide)
  h.elim fun text ht => ⟨text, ht.1, ht.2.1, (ht.2.2.2.1 (by decide)).trans (by decide)⟩

/-- C14: in every row of a rendered frame both bar spans start at column
`IPColumnWidth + len(Separator) = 19` and tier-two is painted after tier-one:
for every offset `k < barWidth` with `19 + k < W`, the cell shown at column
`19 + k` is the tier-two cell (`2`, red) if `k < tierTwoWidth`, otherwise the
filled tier-one cell (`1`, green) if `k < tierOneWidth`, otherwise a blank in
green. -/
theorem bar_overlay (maxAlloc : Int) (sort : List DeviceHeat → List DeviceHeat)
    (iter : Devices) (width height : Int) (list : List DeviceHeat) (writes : List Cell)
    (hl : getSortedDevicesWith sort iter height = some list)
    (hf : drawUIWith maxAlloc sort iter width height = some writes)
    (idx : Nat) (d : DeviceHeat) (hd : list[idx]? = some d)
    (k : Nat) (hk : (k : Int) < heatbarWidth width) (hx : 19 + (k : Int) < width) :
    IPColumnWidth + (Separator.utf8ByteSize : Int) = 19 ∧
      cellAt writes (19 + (k : Int)) (idx : Int) =
        some (if (k : Int) < heatWidthTwo d.Heat (heatbarWidth width) then
            ⟨19 + (k : Int), (idx : Int), '2', Attribute.ColorRed, Attribute.ColorDefault⟩
          else if (k : Int) < heatWidth d.Heat (heatbarWidth width) then
            ⟨19 + (k : Int), (idx : Int), '1', Attribute.ColorGreen, Attribute.ColorDefault⟩
          else ⟨19 + (k : Int), (idx : Int), ' ', Attribute.ColorGreen,
            Attribute.ColorDefault⟩) := by
  refine ⟨by decide, ?_⟩
  obtain ⟨ipStr, h1, h2⟩ := frame_row hl hf hd (19 + (k : Int))
  obtain ⟨_, _, b1, b2, b3, _⟩ := (drawRow_eq_some_iff _ _ _ _ _).mp h1
  rw [h2]
  exact row_bar_cell width idx d ipStr b1 b2 b3 k hk hx

theorem bar_overlay_witness :
    ∃ writes, drawUI 1048576 [⟨"10.0.0.1", 300000⟩] 40 1 = some writes ∧
      cellAt writes 19 0 = some ⟨19, 0, '2', Attribute.ColorRed, Attribute.ColorDefault⟩ := by
  obtain ⟨ipStr, _, hr⟩ := drawRow_ok 1048576 "10.0.0.1" 300000 40 0 (by norm_num)
    (by rw [heatbarWidth_40]; decide)
  have hs := drawUI_single 1048576 ⟨"10.0.0.1", 300000⟩ 40 1 (le_refl _) ipStr hr
  have hB : heatbarWidth 40 = 11 := heatbarWidth_40
  have h := (bar_overlay 1048576 sortSlice [⟨"10.0.0.1", 300000⟩] 40 1 _ _ hs.1 hs.2 0
    ⟨"10.0.0.1", 300000⟩ rfl 0 (by rw [hB]; decide) (by decide)).2
  rw [hB, heatWidthTwo_300000_11] at h
  exact ⟨_, hs.2, h⟩

/-- C15, as stated, fails: with heat 1500 and terminal width 40 the bar width
is 11 and the formatted heat is `1.5k`, but the cell at column `19 + 11 + 1` is
a blank; the first character of `1.5k` is shown one column further right. -/
theorem label_text_not_at_origin :
    ∃ writes, drawUI 1048576 [⟨"10.0.0.1", 1500⟩] 40 1 = some writes ∧
      heatbarWidth 40 = 11 ∧ formatHeat 1500 = "1.5k" ∧
      cellAt writes (19 + 11 + 1) 0 =
        some ⟨31, 0, ' ', Attribute.ColorYellow, Attribute.ColorDefault⟩ ∧
      cellAt writes (19 + 11 + 2) 0 =
        some ⟨32, 0, '1', Attribute.ColorYellow, Attribute.ColorDefault⟩ := by
  obtain ⟨ipStr, _, hr⟩ := drawRow_ok 1048576 "10.0.0.1" 1500 40 0 (by norm_num)
    (by rw [heatbarWidth_40]; decide)
  have hs := drawUI_single 1048576 ⟨"10.0.0.1", 1500⟩ 40 1 (le_refl _) ipStr hr
  have hB : heatbarWidth 40 = 11 := heatbarWidth_40
  have hv : heatValueStr 1500 = " 1.5k " := by
    unfold heatValueStr
    simp only [MaxHeatDisplay, formatHeat_1500]
    decide
  have hd : [(⟨"10.0.0.1", 1500⟩ : DeviceHeat)][0]? = some ⟨"10.0.0.1", 1500⟩ := rfl
  have c0 := frame_label_cell hs.1 hs.2 hd 0 ' '
    (by rw [hv]; decide) (by rw [hB]; decide)
  have c1 := frame_label_cell hs.1 hs.2 hd 1 '1'
    (by rw [hv]; decide) (by rw [hB]; decide)
  rw [hB] at c0 c1
  exact ⟨_, hs.2, hB, formatHeat_1500, c0, c1⟩

/-- C15, amended: in every row of a rendered frame the painted label is a text
between two blanks, in yellow.  The text is the formatted heat `formatHeat h`
for every heat `h` of the registry range `[0, MaxHeatDisplay]` (the length guard
of lines 361-363 never applies there), and `MAX` for every heat above
`MaxHeatDisplay`.  The leading blank is at column `19 + barWidth + 1`, so the
text has its first character at column `19 + barWidth + 2` (each cell shown
when its column is `< W`). -/
theorem label_position (maxAlloc : Int) (sort : List DeviceHeat → List DeviceHeat)
    (iter : Devices) (width height : Int) (list : List DeviceHeat) (writes : List Cell)
    (hl : getSortedDevicesWith sort iter height = some list)
    (hf : drawUIWith maxAlloc sort iter width height = some writes)
    (idx : Nat) (d : DeviceHeat) (hd : list[idx]? = some d) :
    ∃ text : String, heatValueStr d.Heat = " " ++ text ++ " " ∧
      (text = formatHeat d.Heat ∨ text = "MAX") ∧
      (0 ≤ d.Heat → d.Heat ≤ MaxHeatDisplay → text = formatHeat d.Heat) ∧
      (MaxHeatDisplay < d.Heat → text = "MAX") ∧
      (19 + heatbarWidth width + 1 < width →
        cellAt writes (19 + heatbarWidth width + 1) (idx : Int) =
          some ⟨19 + heatbarWidth width + 1, (idx : Int), ' ', Attribute.ColorYellow,
            Attribute.ColorDefault⟩) ∧
      (∀ (j : Nat) (ch : Char), text.toList[j]? = some ch →
        19 + heatbarWidth width + 2 + (j : Int) < width →
        cellAt writes (19 + heatbarWidth width + 2 + (j : Int)) (idx : Int) =
          some ⟨19 + heatbarWidth width + 2 + (j : Int), (idx : Int), ch,
            Attribute.ColorYellow, Attribute.ColorDefault⟩) := by
  have hshape : ∃ text : String, heatValueStr d.Heat = " " ++ text ++ " " ∧
      (text = formatHeat d.Heat ∨ text = "MAX") ∧
      (0 ≤ d.Heat → d.Heat ≤ MaxHeatDisplay → text = formatHeat d.Heat) ∧
      (MaxHeatDisplay < d.Heat → text = "MAX") := by
    by_cases hmax : MaxHeatDisplay < d.Heat
    · exact ⟨"MAX", heatValueStr_max _ hmax, Or.inr rfl,
        fun _ hle => absurd hmax (not_lt.mpr hle), fun _ => rfl⟩
    · by_cases h0 : 0 ≤ d.Heat
      · exact ⟨formatHeat d.Heat, heatValueStr_eq _ h0 (not_lt.mp hmax), Or.inl rfl,
          fun _ _ => rfl, fun h => absurd h hmax⟩
      · obtain ⟨text, ht, hor⟩ := heatValueStr_shape d.Heat
        exact ⟨text, ht, hor, fun h => absurd h h0, fun h => absurd h hmax⟩
  obtain ⟨text, ht, hor, hin, hout⟩ := hshape
  have hlist : (heatValueStr d.Heat).toList = ' ' :: (text.toList ++ [' ']) := by
    rw [ht]; exact label_toList text
  refine ⟨text, ht, hor, hin, hout, ?_, ?_⟩
  · intro hx
    have h := frame_label_cell hl hf hd 0 ' ' (by rw [hlist]; simp) (by push_cast; omega)
    simpa using h
  · intro j ch hj hx
    have hj2 : (heatValueStr d.Heat).toList[j + 1]? = some ch := by
      rw [hlist, List.getElem?_cons_succ, List.getElem?_append_left, hj]
      by_contra hge
      rw [List.getElem?_eq_none (by omega)] at hj
      exact Option.noConfusion hj
    have h := frame_label_cell hl hf hd (j + 1) ch hj2 (by push_cast; omega)
    have e : 19 + heatbarWidth width + 1 + ((j + 1 : Nat) : Int) =
        19 + heatbarWidth width + 2 + (j : Int) := by push_cast; omega
    rw [e] at h
    exact h

theorem label_position_witness :
    ∃ writes, drawUI 1048576 [⟨"10.0.0.1", 1500⟩] 40 1 = some writes ∧
      heatValueStr 1500 = " " ++ "1.5k" ++ " " ∧
      cellAt writes 31 0 = some ⟨31, 0, ' ', Attribute.ColorYellow, Attribute.ColorDefault⟩ ∧
      cellAt writes 32 0 = some ⟨32, 0, '1', Attribute.ColorYellow, Attribute.ColorDefault⟩ ∧
      cellAt writes 35 0 = some ⟨35, 0, 'k', Attribute.ColorYellow, Attribute.ColorDefault⟩ := by
  obtain ⟨ipStr, _, hr⟩ := drawRow_ok 1048576 "10.0.0.1" 1500 40 0 (by norm_num)
    (by rw [heatbarWidth_40]; decide)
  have hs := drawUI_single 1048576 ⟨"10.0.0.1", 1500⟩ 40 1 (le_refl _) ipStr hr
  have hB : heatbarWidth 40 = 11 := heatbarWidth_40
  obtain ⟨text, ht, _, hin, _, hc, hj⟩ := label_position 1048576 sortSlice
    [⟨"10.0.0.1", 1500⟩] 40 1 _ _ hs.1 hs.2 0 ⟨"10.0.0.1", 1500⟩ rfl
  have htext : text = "1.5k" := (hin (by decide) (by decide)).trans formatHeat_1500
  subst htext
  rw [hB] at hc hj
  have h0 := hc (by decide)
  have h1 := hj 0 '1' (by decide) (by decide)
  have h4 := hj 3 'k' (by decide) (by decide)
  exact ⟨_, hs.2, ht, h0, h1, h4⟩

/-! ## Further claims on the registry -/

/-- C16: `updateHeat(a, n)` yields a registry whose addresses are the prior ones
plus `a`, with exactly one entry for `a` and none duplicated, and leaves the
heat of every other address unchanged; a decay tick leaves the addresses
unchanged; no sequence of operations removes an address. -/
theorem registry_keys (devices : Devices) (a : String) (n : Int) (hwf : WF devices) :
    WF (updateHeat devices a n) ∧
      keys (updateHeat devices a n) =
        (if a ∈ keys devices then keys devices else keys devices ++ [a]) ∧
      (keys (updateHeat devices a n)).count a = 1 ∧
      (∀ b, b ≠ a → heatOf (updateHeat devices a n) b = heatOf devices b) ∧
      keys (heatbarDecayTick devices) = keys devices ∧
      (∀ ops ip, ip ∈ keys devices → ip ∈ keys (run ops devices)) := by
  have hk := keys_updateHeat devices a n
  have hw := WF_updateHeat hwf a n
  refine ⟨hw, hk, ?_, fun b hb => heatOf_updateHeat_other devices a b n hb,
    keys_decayVisit _ devices, fun ops ip h => keys_subset_run ops devices ip h⟩
  apply List.count_eq_one_of_mem hw
  rw [hk]
  split
  · assumption
  · simp

theorem registry_keys_witness :
    keys (updateHeat [⟨"A", 5⟩] "B" 7) = ["A", "B"] ∧
      heatOf (updateHeat [⟨"A", 5⟩] "B" 7) "A" = some 5 :=
  have h := registry_keys [⟨"A", 5⟩] "B" 7 (by decide)
  ⟨h.2.1, h.2.2.2.1 "A" (by decide)⟩

/-- C17, as stated, fails: from heat 0 with 100 bytes, update then decay gives
`max (min (0 + 100) CAP - 500) 0 = 0`, decay then update gives
`min (max (0 - 500) 0 + 100) CAP = 100`. -/
theorem decay_update_not_commute :
    (0 : Int) ≤ 0 ∧ (0 : Int) ≤ MaxHeatDisplay ∧ (0 : Int) ≤ 100 ∧
      max (min ((0 : Int) + 100) MaxHeatDisplay - DecayRate) 0 = 0 ∧
      min (max ((0 : Int) - DecayRate) 0 + 100) MaxHeatDisplay = 100 ∧
      decayHeat (addHeat 100 0) ≠ addHeat 100 (decayHeat 0) := by
  decide

/-- C17, amended: for a heat `h` in `[0, CAP]` and `n ≥ 0`, one decay step and
one `updateHeat` step on the same entry give the same heat in either order
whenever neither clamp applies (`DecayRate ≤ h` and `h + n ≤ CAP`); in general
update-then-decay `max (min (h + n) CAP - r) 0` is at most decay-then-update
`min (max (h - r) 0 + n) CAP`.  Two decay steps commute with each other. -/
theorem decay_update_order (h n : Int) (h0 : 0 ≤ h) (hc : h ≤ MaxHeatDisplay) (hn : 0 ≤ n) :
    decayHeat (addHeat n h) = max (min (h + n) MaxHeatDisplay - DecayRate) 0 ∧
      addHeat n (decayHeat h) = min (max (h - DecayRate) 0 + n) MaxHeatDisplay ∧
      (DecayRate ≤ h → h + n ≤ MaxHeatDisplay →
        decayHeat (addHeat n h) = addHeat n (decayHeat h)) ∧
      decayHeat (addHeat n h) ≤ addHeat n (decayHeat h) ∧
      (∀ (devices : Devices) (a b : String),
        modify (modify devices a decayHeat) b decayHeat =
          modify (modify devices b decayHeat) a decayHeat) := by
  refine ⟨by rw [decayHeat_eq_max, addHeat_eq_min], by rw [addHeat_eq_min, decayHeat_eq_max],
    ?_, ?_, fun devices a b => modify_comm devices a b decayHeat⟩
  · intro hr hs
    rw [decayHeat_eq_max, addHeat_eq_min, addHeat_eq_min, decayHeat_eq_max]
    unfold MaxHeatDisplay DecayRate at *
    omega
  · rw [decayHeat_eq_max, addHeat_eq_min, addHeat_eq_min, decayHeat_eq_max]
    unfold MaxHeatDisplay DecayRate at *
    omega

theorem decay_update_order_witness :
    decayHeat (addHeat 1600 200000) = addHeat 1600 (decayHeat 200000) :=
  (decay_update_order 200000 1600 (by decide) (by decide) (by decide)).2.2.1
    (by decide) (by decide)

/-- C18: the claim is that every interleaving leaves one entry per address and
the heats of a sequential ordering of the same calls, and that no access to the
heat of an entry is a data race.  The last part fails.  With the entries of
`10.0.0.1` and `10.0.0.2` in the registry, a call `updateHeat("10.0.0.1", _)`
that has released `devicesMutex` and holds only the mutex of the entry is about
to write `Heat` (line 197) while `getSortedDevices`, holding only
`devicesMutex`, is about to read the same `Heat` in the closure of `sort.Slice`
(line 390): a data race.

The other parts hold.  Goroutines that only call `updateHeat`, run ticks of
`heatbarDecay` and read the heads of rows as `drawUI` does never race; and every
interleaving of the critical sections of any calls of `updateHeat` and of any
decay ticks leaves a registry without duplicate address in which each call and
each decay of an entry has taken effect exactly once, with the heats that the
same operations yield when made one at a time, in the order in which they
complete. -/
theorem updateHeat_sort_race :
    (∃ s, Sched.run [0, 0, 0, 0, 1]
        ⟨[updateHeatSteps "10.0.0.1" false,
          drawUISteps [("10.0.0.1", "10.0.0.2", false)] ["10.0.0.1", "10.0.0.2"]], []⟩ = some s ∧
      s.next 0 = some (Instr.writeHeat "10.0.0.1") ∧
      s.locksOf 0 = [Lock.entryMutex "10.0.0.1"] ∧
      s.next 1 = some (Instr.readHeat "10.0.0.1") ∧
      s.locksOf 1 = [Lock.devicesMutex] ∧
      s.race 0 1 = true) ∧
    (∀ progs : List (List Instr),
      (∀ p ∈ progs, ∃ blocks : List (List Instr), p = blocks.flatten ∧
        ∀ b ∈ blocks, (∃ ip capped, b = updateHeatSteps ip capped) ∨
          (∃ visited, b = heatbarDecaySteps visited) ∨ (∃ ip, b = rowSteps ip)) →
      ∀ (schedule : List Nat) (s : Sched), Sched.run schedule ⟨progs, []⟩ = some s →
        ∀ t u, s.race t u = false) ∧
    (∀ (calls : List (String × Int)) (ticks : List (List String)) (devices : Devices)
      (l : List Crit), WF devices →
      Interleaving (calls.map callCrits ++ ticks.map tickCrits) l →
      WF (runCrits l devices) ∧
        (atomicOf l).Perm
          (calls.map (fun c => Atomic.call c.1 c.2) ++ ticks.flatten.map Atomic.decayEntry) ∧
        ∀ ip, heatOf (runCrits l devices) ip = heatOf (runAtomic (atomicOf l) devices) ip) := by
  refine ⟨⟨_, rfl, rfl, rfl, rfl, rfl, rfl⟩, ?_, ?_⟩
  · intro progs hp schedule s hs t u
    have hinit : ∀ u prog, (⟨progs, []⟩ : Sched).todo[u]? = some prog →
        (guardedFrom ((⟨progs, []⟩ : Sched).locksOf u) prog).isSome := by
      intro u prog hu
      have hmem : prog ∈ progs := List.getElem?_mem hu
      obtain ⟨blocks, hb, hall⟩ := hp prog hmem
      rw [hb]
      show (guardedFrom [] blocks.flatten).isSome
      rw [guardedFrom_blocks blocks hall]
      rfl
    obtain ⟨hnd, hg⟩ := run_guarded hs (by simp) hinit
    exact no_race_of_guarded hnd hg t u
  · intro calls ticks devices l hwf hl
    have hsim := interleaving_sim hl devices devices hwf
      (by
        intro t ht
        rcases List.mem_append.mp ht with h | h
        · obtain ⟨c, _, rfl⟩ := List.mem_map.mp h
          exact Or.inl ⟨c.1, c.2, rfl⟩
        · obtain ⟨v, _, rfl⟩ := List.mem_map.mp h
          right; right
          intro c hc
          unfold tickCrits at hc
          obtain ⟨ip, _, rfl⟩ := List.mem_map.mp hc
          exact ⟨ip, rfl⟩)
      (fun ip => Or.inl rfl)
    refine ⟨hsim.1, ?_, hsim.2⟩
    have hperm := interleaving_perm hl
    rw [List.map_append, List.flatten_append, atomicOf_calls, atomicOf_ticks] at hperm
    exact hperm

theorem updateHeat_sort_race_witness :
    heatOf (runCrits [Crit.find "10.0.0.1", Crit.find "10.0.0.1", Crit.add "10.0.0.1" 100,
        Crit.decay "10.0.0.1", Crit.add "10.0.0.1" 600] []) "10.0.0.1" = some 600 ∧
      keys (runCrits [Crit.find "10.0.0.1", Crit.find "10.0.0.1", Crit.add "10.0.0.1" 100,
        Crit.decay "10.0.0.1", Crit.add "10.0.0.1" 600] []) = ["10.0.0.1"] := by
  have hl : Interleaving
      ([("10.0.0.1", (100 : Int)), ("10.0.0.1", 600)].map callCrits ++ [["10.0.0.1"]].map tickCrits)
      [Crit.find "10.0.0.1", Crit.find "10.0.0.1", Crit.add "10.0.0.1" 100,
        Crit.decay "10.0.0.1", Crit.add "10.0.0.1" 600] :=
    Interleaving.step [] _ _ _ _
      (Interleaving.step [_] _ _ _ _
        (Interleaving.step [] _ _ _ _
          (Interleaving.step [_, _] [] _ _ _
            (Interleaving.step [_] _ _ _ _
              (Interleaving.done _ (by decide))))))
  have h := (updateHeat_sort_race.2.2 _ _ [] _ (by decide) hl).2.2 "10.0.0.1"
  exact ⟨h.trans (by decide), by decide⟩

/-! ## Claims on the totality of the row layout -/

/-- C19, as stated, fails.  At the low end of `int` the subtractions of line
247 wrap around: with `W = -2 ^ 63` the bar width is `2 ^ 63 - 29`, and at heat 0
both tier widths are 0, so the second `strings.Repeat` is asked for
`2 ^ 63 - 29` blanks, which no machine can allocate: the row fails.  More
generally the row fails whenever its bar cannot be allocated, as with
`W = 2 ^ 62`. -/
theorem drawRow_fails :
    heatbarWidth (-9223372036854775808) = 9223372036854775779 ∧
      heatWidth 0 9223372036854775779 = 0 ∧
      heatWidthTwo 0 9223372036854775779 = 0 ∧
      (∀ maxAlloc : Int, repeatStr maxAlloc ' ' (9223372036854775779 - 0) = none) ∧
      (∀ maxAlloc : Int, drawRow maxAlloc (-9223372036854775808) 0 ⟨"10.0.0.1", 0⟩ = none) ∧
      (∀ maxAlloc : Int, drawRow maxAlloc 4611686018427387904 0 ⟨"10.0.0.1", 0⟩ = none) ∧
      ∀ (maxAlloc width idx : Int) (device : DeviceHeat),
        allocLimit maxAlloc < heatbarWidth width → drawRow maxAlloc width idx device = none := by
  have hB : heatbarWidth (-9223372036854775808) = 9223372036854775779 := by
    rw [heatbarWidth_wrapped _ (by norm_num) (by norm_num)]
    norm_num
  have hB2 : heatbarWidth 4611686018427387904 = 4611686018427387875 := by
    rw [heatbarWidth_eq _ (by norm_num) (by norm_num)]
    decide
  have hlim : ∀ maxAlloc : Int, allocLimit maxAlloc < 4611686018427387875 := fun maxAlloc =>
    lt_of_le_of_lt (allocLimit_le maxAlloc) (by norm_num)
  refine ⟨hB, heatWidth_zero _, heatWidthTwo_low 0 _ (by norm_num), ?_, ?_, ?_, drawRow_none⟩
  · intro maxAlloc
    cases hr : repeatStr maxAlloc ' ' (9223372036854775779 - 0) with
    | none => rfl
    | some s =>
      have h := ((repeatStr_eq_some maxAlloc).mp hr).2.1
      have := hlim maxAlloc
      omega
  · intro maxAlloc
    apply drawRow_none
    rw [hB]
    exact lt_trans (hlim maxAlloc) (by norm_num)
  · intro maxAlloc
    apply drawRow_none
    rw [hB2]
    exact hlim maxAlloc

/-- C19, amended: for every address, every heat in `[0, CAP]` and every
terminal width whose bar can be allocated (`heatbarWidth W ≤ allocLimit
maxAlloc`, which excludes the widths below `-2 ^ 63 + 29`), the row computation
of `drawUI` does not fail: `0 ≤ tierOneWidth ≤ barWidth`, `0 ≤ tierTwoWidth`, the
three `strings.Repeat` calls and the concatenation succeed, and every slice
expression of the address formatting is in bounds. -/
theorem drawRow_total (maxAlloc : Int) (ip : String) (h width idx : Int) (h0 : 0 ≤ h)
    (hc : h ≤ MaxHeatDisplay) (hA : heatbarWidth width ≤ allocLimit maxAlloc) :
    (∃ ipStr, formatIP ip.toList = some ipStr) ∧
      0 ≤ heatWidth h (heatbarWidth width) ∧
      heatWidth h (heatbarWidth width) ≤ heatbarWidth width ∧
      0 ≤ heatWidthTwo h (heatbarWidth width) ∧
      (∃ ones blanks heatbar twos,
        repeatStr maxAlloc '1' (heatWidth h (heatbarWidth width)) = some ones ∧
        repeatStr maxAlloc ' ' (heatbarWidth width - heatWidth h (heatbarWidth width)) =
          some blanks ∧
        concatStr maxAlloc ones blanks = some heatbar ∧
        repeatStr maxAlloc '2' (heatWidthTwo h (heatbarWidth width)) = some twos) ∧
      ∃ cells, drawRow maxAlloc width idx ⟨ip, h⟩ = some cells := by
  have _ := hc
  obtain ⟨ipStr, hip, hr⟩ := drawRow_ok maxAlloc ip h width idx h0 hA
  obtain ⟨_, _, b1, b2, b3, b4, b5, _⟩ := (drawRow_eq_some_iff _ _ _ _ _).mp hr
  simp only at b1 b2 b3 b5
  refine ⟨⟨ipStr, hip⟩, b1, b2, b3, ⟨_, _, _, _,
    (repeatStr_eq_some maxAlloc).mpr ⟨b1, by omega, rfl⟩,
    (repeatStr_eq_some maxAlloc).mpr ⟨by omega, by omega, rfl⟩,
    (concatStr_eq_some maxAlloc).mpr ⟨?_, rfl⟩,
    (repeatStr_eq_some maxAlloc).mpr ⟨b3, b5, rfl⟩⟩, ⟨_, hr⟩⟩
  rw [List.length_replicate, List.length_replicate]
  push_cast
  rw [Int.toNat_of_nonneg b1, Int.toNat_of_nonneg (by omega)]
  omega

theorem drawRow_total_witness :
    ∃ cells, drawRow 1048576 80 3 ⟨"2001:db8::ff00:42:8329", 1000000⟩ = some cells :=
  (drawRow_total 1048576 "2001:db8::ff00:42:8329" 1000000 80 3 (by decide) (by decide)
    (by rw [heatbarWidth_eq 80 (by norm_num) (by norm_num)]; decide)).2.2.2.2.2

/-- C20: for every heat `h ≥ 0` and every bar width `B ≥ 10`,
`tierTwoWidth ≤ tierOneWidth`; and whenever `tierTwoWidth > 0` the tier-one
width equals `B`, for every bar width below `2 ^ 53`, which covers every bar
that `drawUI` draws: a row whose bar has `B` cells is drawn only if `B ≤ 2 ^ 48`.
So the tier-two span only ever overwrites filled tier-one cells. -/
theorem tierTwo_within_tierOne (h B : Int) (h0 : 0 ≤ h) (hB : 10 ≤ B) :
    heatWidthTwo h B ≤ heatWidth h B ∧
      (B < 2 ^ 53 → 0 < heatWidthTwo h B → heatWidth h B = B) ∧
      ∀ (maxAlloc width idx : Int) (ip : String) (row : List Cell),
        heatbarWidth width = B → drawRow maxAlloc width idx ⟨ip, h⟩ = some row →
        B ≤ 2 ^ 48 ∧ (0 < heatWidthTwo h B → heatWidth h B = B) ∧
          ∀ k : Nat, (k : Int) < heatWidthTwo h B →
            (k : Int) < heatWidth h B ∧ (k : Int) < B := by
  have hB0 : 0 ≤ B := le_trans (by norm_num) hB
  have hle := heatWidthTwo_le_heatWidth h B h0 hB0
  have hfull : B < 2 ^ 53 → 0 < heatWidthTwo h B → heatWidth h B = B := by
    intro hB2 hpos
    have hh : 150000 ≤ h := by
      by_contra hlt
      rw [heatWidthTwo_low h B (by omega)] at hpos
      exact lt_irrefl _ hpos
    exact heatWidth_eq_bar h B hh hB0 hB2
  refine ⟨hle, hfull, ?_⟩
  intro maxAlloc width idx ip row hw hrow
  obtain ⟨_, _, _, b2, _, b4, _⟩ := (drawRow_eq_some_iff _ _ _ _ _).mp hrow
  simp only at b2
  rw [hw] at b2 b4
  have hL := allocLimit_le maxAlloc
  have hB2 : B < 2 ^ 53 := by
    have : (2 : Int) ^ 48 < 2 ^ 53 := by norm_num
    omega
  exact ⟨le_trans b4 hL, hfull hB2, fun k hk => ⟨by omega, by omega⟩⟩

theorem tierTwo_within_tierOne_witness :
    heatWidthTwo 300000 100 ≤ heatWidth 300000 100 ∧ heatWidth 300000 100 = 100 :=
  have h := tierTwo_within_tierOne 300000 100 (by decide) (by decide)
  ⟨h.1, h.2.1 (by norm_num) (by
    have := heatWidthTwo_mid 300000 100 (by norm_num) (by norm_num) (by norm_num) (by norm_num)
    omega)⟩

end Gosniff
